import Mathlib

/-! The xv6 file system checker `fsck.c`: a shallow embedding of `src/fsck.c`
and theorems about it.

* The image is a map from byte offsets to bytes; every read masks to 8 bits.
* The run is a value of `Res`: the lines written to the error stream so far,
  and either a value or the reason why the run stopped.
* `exit(1)` in `error`, a failed `assert` and an access outside an array or
  outside the image are the three ways a run stops early (`Stop`); the
  recursion of `has_directory_cycle` runs on fuel, and the theorems show that
  the fuel it is given is never used up.
-/

namespace Fsck

/-! ## Constants of the header -/

/-- Modelled from the spec: the constants of the header `fsck.h`, which is not
among the sources. The spec names them (block size, inode-table start block,
bitmap start block, data-region start block, total blocks, total inodes,
direct pointers per inode, indirect pointers per block, directory entries per
directory block) without giving values, so they are parameters here. -/
structure Layout where
  BSIZE : Nat
  FSSIZE : Nat
  NINODES : Nat
  INODESTART : Nat
  BMAPSTART : Nat
  DATASTART : Nat
  NDIRECT : Nat
  NINDIRECT : Nat
  NDIRENT : Nat
  BMAPSIZE : Nat
  INODEBMAPSIZE : Nat
  T_DIR : Nat
  T_FILE : Nat
  T_DEV : Nat
deriving DecidableEq

/-- Modelled from the spec: the values the constants of `fsck.h` have for the
stock xv6 image (512-byte blocks, 1000 blocks, 200 inodes, 59 metadata
blocks), the layout for which byte 7 of the residual bitmap is `0x07`. -/
def xv6 : Layout :=
  Layout.mk 512 1000 200 32 58 59 12 128 32 125 25 1 2 3

/-- The layout `xv6` cut down to 64 blocks and 16 inodes, every other constant
as in `xv6`; the theorems are instantiated at it. -/
def mini : Layout :=
  Layout.mk 512 64 16 32 58 59 12 128 32 8 2 1 2 3

/-- Modelled from the spec: `sizeof(dirent)`, a 16-bit inode number followed by
a 14-byte name. -/
def DIRENT_SIZE : Nat := 16

/-- Modelled from the spec: offset of `name` in a `dirent`. -/
def NAME_OFF : Nat := 2

/-- Modelled from the spec: offset of `nlink` in a `dinode` (after `type`,
`major`, `minor`, 16 bits each). -/
def NLINK_OFF : Nat := 6

/-- Modelled from the spec: offset of `addrs` in a `dinode` (after the four
16-bit fields and the 32-bit `size`). -/
def ADDRS_OFF : Nat := 12

/-- Modelled from the spec: `sizeof(dinode)`. -/
def Layout.DINODE_SIZE (L : Layout) : Nat := ADDRS_OFF + 4 * (L.NDIRECT + 1)

/-- Size of the image in bytes. -/
def Layout.IMGSIZE (L : Layout) : Nat := L.FSSIZE * L.BSIZE

/-! ## Image and integer conversions -/

/-- The mapped image `file_bytes`: offset to stored value; reads mask to a byte. -/
abbrev Image := Nat → Nat

/-- One byte of the image. -/
def byte (img : Image) (o : Nat) : Nat := img o % 256

/-- A 16-bit field as the little-endian host reads it. -/
def ld16 (img : Image) (o : Nat) : Nat := byte img o + 256 * byte img (o + 1)

/-- A 32-bit field as the little-endian host reads it. -/
def ld32 (img : Image) (o : Nat) : Nat := ld16 img o + 65536 * ld16 img (o + 2)

/-- Modelled from the spec: `xshort` of `fsck.h`, disk order to host order for a
16-bit value; its argument is converted to 16 bits. -/
def xshort (x : Nat) : Nat := x % 65536

/-- Modelled from the spec: `xint` of `fsck.h`, disk order to host order for a
32-bit value. -/
def xint (x : Nat) : Nat := x % 4294967296

/-- Store of a 16-bit value, `de->inum = xshort(i)`. -/
def st16 (img : Image) (o v : Nat) : Image :=
  fun p => if p = o then v % 256 else if p = o + 1 then v / 256 % 256 else img p

/-! ## Messages and results -/

/-- The lines the program writes to the error stream. -/
inductive Msg
  | badInode
  | badDirect
  | badIndirect
  | noRoot
  | badFormat
  | usedButFree
  | markedNotUsed
  | directTwice
  | indirectTwice
  | notFound
  | referredFree
  | badRefCount
  | dirTwice
  | parentNotDir
  | parentMismatch
  | cycle
  | inaccessible
  | noLostFound
  | lostFoundFull
deriving DecidableEq, Repr

/-- The text of each line. -/
def Msg.text : Msg → String
  | .badInode => "ERROR: bad inode."
  | .badDirect => "ERROR: bad direct address in inode."
  | .badIndirect => "ERROR: bad indirect address in inode."
  | .noRoot => "ERROR: root directory does not exist"
  | .badFormat => "ERROR: directory not properly formatted"
  | .usedButFree => "ERROR: address used by inode but marked free in bitmap."
  | .markedNotUsed => "ERROR: bitmap marks block in use but it is not in use"
  | .directTwice => "ERROR: direct address used more than once"
  | .indirectTwice => "ERROR: indirect address used more than once"
  | .notFound => "ERROR: inode marked use but not found in a directory."
  | .referredFree => "ERROR: inode referred to in a directory but marked free"
  | .badRefCount => "ERROR: bad reference count for file"
  | .dirTwice => "ERROR: directory appears more than once in the system"
  | .parentNotDir => "ERROR: parent of directory is not a directory"
  | .parentMismatch => "ERROR: parent directory mismatch"
  | .cycle => "ERROR: file directory contains a cycle"
  | .inaccessible => "ERROR: inaccessible directory exists."
  | .noLostFound => "ERROR: root directory does not contain the lost_found directory"
  | .lostFoundFull => "ERROR: lost_found directory is full, unable to repair file system image"

/-- Why a run stops before `main` returns. -/
inductive Stop
  | exit1
  | abort
  | undefined
  | fuel
deriving DecidableEq, Repr

/-- A computation of the checker: the lines written, and a value or a stop. -/
inductive Res (α : Type) where
  | ok (out : List Msg) (val : α)
  | stop (out : List Msg) (why : Stop)
deriving DecidableEq, Repr

namespace Res

/-- The lines written. -/
def out {α : Type} : Res α → List Msg
  | ok o _ => o
  | stop o _ => o

/-- The reason of the stop, if any. -/
def why {α : Type} : Res α → Option Stop
  | ok _ _ => none
  | stop _ s => some s

/-- The value, if the computation did not stop. -/
def val? {α : Type} : Res α → Option α
  | ok _ a => some a
  | stop _ _ => none

/-- Written lines in front of a computation. -/
def pre {α : Type} (o : List Msg) : Res α → Res α
  | ok o2 a => ok (o ++ o2) a
  | stop o2 s => stop (o ++ o2) s

/-- Sequencing. -/
def bind {α β : Type} (x : Res α) (f : α → Res β) : Res β :=
  match x with
  | ok o a => pre o (f a)
  | stop o s => stop o s

instance : Monad Res where
  pure a := ok [] a
  bind := bind

end Res

/-- The function `error`: write the line; without `-r`, `exit(1)`. -/
def error (repair_mode : Bool) (m : Msg) : Res Unit :=
  if repair_mode then .ok [m] () else .stop [m] .exit1

/-- A failed `assert`. -/
def assert (c : Bool) : Res Unit :=
  if c then .ok [] () else .stop [] .abort

/-- An access is inside its object, or the behaviour is undefined. -/
def inside (c : Bool) : Res Unit :=
  if c then .ok [] () else .stop [] .undefined

/-! ## Accessors -/

/-- The function `get_nth_inode`: offset of inode `n` in the image. -/
def get_nth_inode (L : Layout) (n : Nat) : Res Nat := do
  assert (decide (n < L.NINODES))
  pure (L.INODESTART * L.BSIZE + n * L.DINODE_SIZE)

/-- Field `ip->type`. -/
def dtype (img : Image) (ip : Nat) : Nat := ld16 img ip

/-- Field `ip->nlink`. -/
def dnlink (img : Image) (ip : Nat) : Nat := ld16 img (ip + NLINK_OFF)

/-- Field `ip->addrs[j]`. -/
def daddr (img : Image) (ip j : Nat) : Nat := ld32 img (ip + ADDRS_OFF + 4 * j)

/-- The function `get_nth_dirent`: offset of slot `n` of the first block of `ip`. -/
def get_nth_dirent (L : Layout) (img : Image) (ip n : Nat) : Res Nat := do
  assert (decide (n < L.NDIRENT))
  pure (xshort (daddr img ip 0) * L.BSIZE + n * DIRENT_SIZE)

/-- Read of `de->inum` through a dirent pointer, which may lie outside the image. -/
def de_inum (L : Layout) (img : Image) (de : Nat) : Res Nat := do
  inside (decide (de + 2 ≤ L.IMGSIZE))
  pure (xshort (ld16 img de))

/-- Read of one character through a pointer, which may lie outside the image. -/
def ld8 (L : Layout) (img : Image) (p : Nat) : Res Nat := do
  inside (decide (p + 1 ≤ L.IMGSIZE))
  pure (byte img p)

/-- Whether `strcmp(p, s) == 0` for a literal `s` without a zero character. -/
def streq (L : Layout) (img : Image) : Nat → List Nat → Res Bool
  | p, [] => do
    let c ← ld8 L img p
    pure (c == 0)
  | p, x :: xs => do
    let c ← ld8 L img p
    if c == x then streq L img (p + 1) xs else pure false

/-- The function `set_nth_bit_1`. -/
def set_nth_bit_1 (bitmap : Nat → Nat) (n : Nat) : Nat → Nat :=
  fun k => if k = n / 8 then (bitmap k ||| (1 <<< (n % 8))) % 256 else bitmap k

/-- The function `set_nth_bit_0`: and with the complement of the bit, as a byte. -/
def set_nth_bit_0 (bitmap : Nat → Nat) (n : Nat) : Nat → Nat :=
  fun k => if k = n / 8 then (bitmap k &&& (255 - (1 <<< (n % 8)))) % 256 else bitmap k

/-- The function `is_nth_bit_1`. -/
def is_nth_bit_1 (bitmap : Nat → Nat) (n : Nat) : Bool :=
  decide (0 < (bitmap (n / 8) &&& (1 <<< (n % 8))))

/-- The function `is_addr_in_bounds`. -/
def is_addr_in_bounds (L : Layout) (addr : Nat) : Bool :=
  decide (L.DATASTART ≤ addr) && decide (addr < L.FSSIZE)

/-- The loop header `for (int i = lo; i < hi; i++)`. -/
def upto (lo hi : Nat) : List Nat := List.range' lo (hi - lo)

/-! ## The passes of `main` -/

/-- The arrays `main` and the file keep between the passes. -/
structure Tables where
  tdir : Nat → Nat
  used : Nat → Nat
  irefs : Nat → Nat
  direct : Nat → Nat
  indirect : Nat → Nat

/-- All arrays zero, `= {0}`. -/
def Tables.zero : Tables := Tables.mk (fun _ => 0) (fun _ => 0) (fun _ => 0) (fun _ => 0) (fun _ => 0)

/-- Increment of element `k` of a counter array with `size` elements of
`modulus` values each; an index outside the array is undefined behaviour. -/
def bump (size modulus : Nat) (t : Nat → Nat) (k : Nat) : Res (Nat → Nat) := do
  inside (decide (k < size))
  pure (fun a => if a = k then (t a + 1) % modulus else t a)

/-- Lines 72-84: the type tag of every inode. -/
def check_types (L : Layout) (img : Image) (repair_mode : Bool) : Res Unit :=
  (upto 0 L.NINODES).forM (fun i => do
    let ip ← get_nth_inode L i
    let type := xshort (dtype img ip)
    if type = 0 ∨ type = L.T_DIR ∨ type = L.T_FILE ∨ type = L.T_DEV then pure ()
    else error repair_mode .badInode)

/-- Lines 100-105: the entries of a directory from slot 2 on. -/
def count_dirents (L : Layout) (img : Image) (ip : Nat) (irefs : Nat → Nat) : Res (Nat → Nat) :=
  (upto 2 L.NDIRENT).foldlM (fun r j => do
    let de ← get_nth_dirent L img ip j
    let inum ← de_inum L img de
    if inum ≠ 0 then bump L.NINODES 256 r inum else pure r) irefs

/-- Lines 110-114: the direct addresses of an inode, read as 16-bit values. -/
def count_direct (L : Layout) (img : Image) (ip : Nat) (direct : Nat → Nat) : Res (Nat → Nat) :=
  (upto 0 L.NDIRECT).foldlM (fun d j =>
    let direct_addr := xshort (daddr img ip j)
    if direct_addr ≠ 0 then bump L.FSSIZE 4294967296 d direct_addr else pure d) direct

/-- Lines 124-128: the entries of an indirect block. -/
def count_indirect (L : Layout) (img : Image) (indirect_block : Nat) (indirect : Nat → Nat) :
    Res (Nat → Nat) :=
  (upto 0 L.NINDIRECT).foldlM (fun d j =>
    let indirect_addr := xint (ld32 img (indirect_block + 4 * j))
    if indirect_addr ≠ 0 then bump L.FSSIZE 4294967296 d indirect_addr else pure d) indirect

/-- Lines 93-129: the body of the reference loop for inode `i`. -/
def scan_inode (L : Layout) (img : Image) (t : Tables) (i : Nat) : Res Tables := do
  let ip ← get_nth_inode L i
  let type := xshort (dtype img ip)
  if type = 0 then pure t
  else do
    let t1 ← (if type = L.T_DIR then do
        let r ← count_dirents L img ip t.irefs
        pure (Tables.mk (set_nth_bit_1 t.tdir i) t.used r t.direct t.indirect)
      else pure t)
    let used := set_nth_bit_1 t1.used i
    let d ← count_direct L img ip t1.direct
    let indirect_block_addr := xint (daddr img ip L.NDIRECT)
    let d2 ← bump L.FSSIZE 4294967296 d indirect_block_addr
    let ind ← (if is_addr_in_bounds L indirect_block_addr then
        count_indirect L img (indirect_block_addr * L.BSIZE) t1.indirect
      else pure t1.indirect)
    pure (Tables.mk t1.tdir used t1.irefs d2 ind)

/-- Lines 86-130: the reference tables. -/
def analyse (L : Layout) (img : Image) : Res Tables := do
  let r ← bump L.NINODES 256 Tables.zero.irefs 1
  let t0 := Tables.mk Tables.zero.tdir Tables.zero.used r Tables.zero.direct Tables.zero.indirect
  (upto 0 L.NINODES).foldlM (scan_inode L img) t0

/-- The addresses a loop `for (addr = 0; addr < FSSIZE; addr++)` does not skip
with `if (refs[addr] == 0) continue;`, in the order it meets them. -/
def counted (L : Layout) (refs : Nat → Nat) : List Nat :=
  (upto 0 L.FSSIZE).filter (fun addr => decide (refs addr ≠ 0))

/-- Lines 132-146: the bounds of the addresses of one table. -/
def check_bounds (L : Layout) (repair_mode : Bool) (refs : Nat → Nat) (m : Msg) : Res Unit :=
  (counted L refs).forM (fun addr =>
    if !is_addr_in_bounds L addr && decide (addr ≠ 0) then error repair_mode m
    else pure ())

/-- Lines 148-158: the root inode; returns `root_ip`. -/
def check_root (L : Layout) (img : Image) (repair_mode : Bool) : Res Nat := do
  let root_ip ← get_nth_inode L 1
  (if xshort (dtype img root_ip) ≠ L.T_DIR then error repair_mode .noRoot else pure ())
  let root_self_dirent ← get_nth_dirent L img root_ip 0
  let root_parent_dirent := root_self_dirent + DIRENT_SIZE
  let root_self_inum ← de_inum L img root_self_dirent
  let root_parent_inum ← de_inum L img root_parent_dirent
  (if root_self_inum ≠ 1 ∨ root_parent_inum ≠ 1 then error repair_mode .noRoot else pure ())
  pure root_ip

/-- Lines 160-174: slots 0 and 1 of every directory. -/
def check_format (L : Layout) (img : Image) (repair_mode : Bool) : Res Unit :=
  (upto 0 L.NINODES).forM (fun i => do
    let ip ← get_nth_inode L i
    let type := xshort (dtype img ip)
    if type = L.T_DIR then do
      let dp0 ← get_nth_dirent L img ip 0
      let inum ← de_inum L img dp0
      let dp1 ← get_nth_dirent L img ip 1
      let bad ← (if inum ≠ i then pure true
        else do
          let self_ok ← streq L img (dp0 + NAME_OFF) [46]
          if !self_ok then pure true
          else do
            let parent_ok ← streq L img (dp1 + NAME_OFF) [46, 46]
            pure (!parent_ok))
      (if bad then error repair_mode .badFormat else pure ())
    else pure ())

/-- The persisted bitmap, `file_bytes + BMAPSTART * BSIZE`. -/
def disk_bitmap (L : Layout) (img : Image) : Nat → Nat :=
  fun k => byte img (L.BMAPSTART * L.BSIZE + k)

/-- Lines 177-190: every counted address has its bit set. -/
def check_marked (L : Layout) (repair_mode : Bool) (bitmap refs : Nat → Nat) : Res Unit :=
  (counted L refs).forM (fun addr =>
    if !is_nth_bit_1 bitmap addr then error repair_mode .usedButFree
    else pure ())

/-- Lines 194-203: clear the bit of every counted address. -/
def clear_counted (L : Layout) (refs : Nat → Nat) (used_bitmap : Nat → Nat) : Nat → Nat :=
  (counted L refs).foldl (fun b addr => set_nth_bit_0 b addr) used_bitmap

/-- Lines 192-203: the residual bitmap. -/
def residual (L : Layout) (img : Image) (t : Tables) : Nat → Nat :=
  clear_counted L t.indirect (clear_counted L t.direct (disk_bitmap L img))

/-- Lines 206-212: the residual bitmap against the fixed pattern. -/
def check_residual (L : Layout) (repair_mode : Bool) (used_bitmap : Nat → Nat) : Res Unit := do
  (if used_bitmap 7 ≠ 7 then error repair_mode .markedNotUsed else pure ())
  (upto 8 L.BMAPSIZE).forM (fun i =>
    if used_bitmap i ≠ 0 then error repair_mode .markedNotUsed else pure ())

/-- Lines 214-224: addresses counted more than once. -/
def check_aliasing (L : Layout) (repair_mode : Bool) (t : Tables) : Res Unit := do
  (upto 0 L.FSSIZE).forM (fun addr =>
    if t.direct addr > 1 ∨ (t.direct addr = 1 ∧ t.indirect addr > 0) then
      error repair_mode .directTwice
    else pure ())
  (upto 0 L.FSSIZE).forM (fun addr =>
    if t.indirect addr > 1 then error repair_mode .indirectTwice else pure ())

/-- Lines 226-240: used against referenced; returns `used_inodes_bitmap` and
`repair_required`. -/
def check_usage (L : Layout) (repair_mode : Bool) (t : Tables) : Res ((Nat → Nat) × Bool) :=
  (upto 0 L.NINODES).foldlM (fun s i => do
    let nth_inode_used := is_nth_bit_1 s.1 i
    let nth_inode_referenced := decide (t.irefs i > 0)
    let used ← (if nth_inode_used && nth_inode_referenced then pure (set_nth_bit_0 s.1 i)
      else pure s.1)
    let req ← (if nth_inode_used && !nth_inode_referenced then do
        error repair_mode .notFound
        pure true
      else pure s.2)
    (if !nth_inode_used && nth_inode_referenced then error repair_mode .referredFree else pure ())
    pure (used, req)) (t.used, false)

/-- Lines 242-246: the link count of every regular file. -/
def check_nlink (L : Layout) (img : Image) (repair_mode : Bool) (t : Tables) : Res Unit :=
  (upto 0 L.NINODES).forM (fun i => do
    let ip ← get_nth_inode L i
    if xshort (dtype img ip) = L.T_FILE ∧ xshort (dnlink img ip) ≠ t.irefs i then
      error repair_mode .badRefCount
    else pure ())

/-- Lines 248-253: no directory is linked twice. -/
def check_dirlink (L : Layout) (img : Image) (repair_mode : Bool) (t : Tables) : Res Unit :=
  (upto 0 L.NINODES).forM (fun i => do
    let ip ← get_nth_inode L i
    if xshort (dtype img ip) = L.T_DIR ∧ (xshort (dnlink img ip) > 1 ∨ t.irefs i > 1) then
      error repair_mode .dirTwice
    else pure ())

/-- Lines 265-270: whether a slot from 2 on of `parent_ip` names `i`. -/
def parent_names (L : Layout) (img : Image) (parent_ip i : Nat) : Res Bool :=
  (upto 2 L.NDIRENT).foldlM (fun parent_directory_match j => do
    let de ← get_nth_dirent L img parent_ip j
    let inum ← de_inum L img de
    pure (if inum = i then true else parent_directory_match)) false

/-- Lines 257-272: the body of the parent loop for inode `i`. -/
def check_parent (L : Layout) (img : Image) (repair_mode : Bool) (i : Nat) : Res Unit := do
  let ip ← get_nth_inode L i
  if xshort (dtype img ip) ≠ L.T_DIR then pure ()
  else do
    let parent_dirent ← get_nth_dirent L img ip 1
    let parent_inum ← de_inum L img parent_dirent
    let parent_ip ← get_nth_inode L parent_inum
    (if xshort (dtype img parent_ip) ≠ L.T_DIR then error repair_mode .parentNotDir else pure ())
    let parent_directory_match ← parent_names L img parent_ip i
    (if !parent_directory_match then error repair_mode .parentMismatch else pure ())

/-- Lines 255-273: parent and child agree. -/
def check_parents (L : Layout) (img : Image) (repair_mode : Bool) : Res Unit :=
  (upto 2 L.NINODES).forM (check_parent L img repair_mode)

/-- Lines 340-344: the loop of `has_directory_cycle` over the slots, `visit`
being the recursive call. -/
def scan_children (L : Layout) (img : Image) (visit : (Nat → Nat) → Nat → Res (Bool × (Nat → Nat)))
    (ip : Nat) : List Nat → (Nat → Nat) → Res (Bool × (Nat → Nat))
  | [], tdir => pure (false, tdir)
  | i :: rest, tdir => do
    let de ← get_nth_dirent L img ip i
    let inum ← de_inum L img de
    let r ← visit tdir inum
    if r.1 then pure (true, r.2) else scan_children L img visit ip rest r.2

/-- The function `has_directory_cycle`, on the global `tdir_inodes_bitmap`; the
first argument bounds the depth of the recursion. -/
def has_directory_cycle (L : Layout) (img : Image) :
    Nat → (Nat → Nat) → Nat → Res (Bool × (Nat → Nat))
  | 0, _, _ => .stop [] .fuel
  | fuel + 1, tdir, inum => do
    let ip ← get_nth_inode L inum
    if xshort (dtype img ip) ≠ L.T_DIR then pure (false, tdir)
    else if !is_nth_bit_1 tdir inum then pure (true, tdir)
    else
      scan_children L img (has_directory_cycle L img fuel) ip (upto 2 L.NDIRENT)
        (set_nth_bit_0 tdir inum)

/-- Lines 275-282: the traversal from the root and what it leaves. -/
def check_tree (L : Layout) (img : Image) (repair_mode : Bool) (tdir : Nat → Nat) : Res Unit := do
  let r ← has_directory_cycle L img (L.NINODES + 1) tdir 1
  (if r.1 then error repair_mode .cycle else pure ())
  (upto 0 L.INODEBMAPSIZE).forM (fun i =>
    if r.2 i ≠ 0 then error repair_mode .inaccessible else pure ())

/-- What the validation hands to the repair. -/
structure Verdict where
  root_ip : Nat
  used : Nat → Nat
  repair_required : Bool

/-- Lines 72-282 of `main`. -/
def validate (L : Layout) (img : Image) (repair_mode : Bool) : Res Verdict := do
  check_types L img repair_mode
  let t ← analyse L img
  check_bounds L repair_mode t.direct .badDirect
  check_bounds L repair_mode t.indirect .badIndirect
  let root_ip ← check_root L img repair_mode
  check_format L img repair_mode
  let bitmap := disk_bitmap L img
  check_marked L repair_mode bitmap t.direct
  check_marked L repair_mode bitmap t.indirect
  check_residual L repair_mode (residual L img t)
  check_aliasing L repair_mode t
  let u ← check_usage L repair_mode t
  check_nlink L img repair_mode t
  check_dirlink L img repair_mode t
  check_parents L img repair_mode
  check_tree L img repair_mode t.tdir
  pure (Verdict.mk root_ip u.1 u.2)

/-! ## The repair -/

/-- The characters of `"lost_found"`. -/
def lost_found : List Nat := [108, 111, 115, 116, 95, 102, 111, 117, 110, 100]

/-- Lines 297-303: the inode of the first root entry named `lost_found`. -/
def find_lost_found (L : Layout) (img : Image) (root_ip : Nat) : List Nat → Res (Option Nat)
  | [] => pure none
  | i :: rest => do
    let de ← get_nth_dirent L img root_ip i
    let same ← streq L img (de + NAME_OFF) lost_found
    if same then do
      let inum ← de_inum L img de
      let lost_found_inode ← get_nth_inode L inum
      pure (some lost_found_inode)
    else find_lost_found L img root_ip rest

/-- The `while` loop of `get_next_free_dirent`, one list element per turn. -/
def next_free (L : Layout) (img : Image) : Nat → List Nat → Res (Option Nat)
  | _, [] => pure none
  | de, _ :: rest => do
    let inum ← de_inum L img de
    if inum = 0 then pure (some de) else next_free L img (de + DIRENT_SIZE) rest

/-- The function `get_next_free_dirent`. -/
def get_next_free_dirent (L : Layout) (img : Image) (ip n : Nat) : Res (Option Nat) :=
  if n = L.NDIRENT then pure none
  else do
    let de ← get_nth_dirent L img ip n
    next_free L img de (upto n L.NDIRENT)

/-- Lines 315-327: one slot of `lost_found` per inode left in the bitmap. The
image is returned as written so far, also when the loop stops. -/
def relocate (L : Layout) (used : Nat → Nat) (lost_found_inode : Nat) :
    List Nat → Image → Res Unit × Image
  | [], img => (pure (), img)
  | i :: rest, img =>
    if !is_nth_bit_1 used i then relocate L used lost_found_inode rest img
    else
      match get_next_free_dirent L img lost_found_inode 0 with
      | .stop o s => (.stop o s, img)
      | .ok _ none => (.stop [.lostFoundFull] .exit1, img)
      | .ok _ (some de) => relocate L used lost_found_inode rest (st16 img de (xshort i))

/-- What a run of the program leaves: the error stream, whether the
confirmation line was printed, why it stopped (`none`: `main` returned 0), and
the image. -/
structure Run where
  stderr : List Msg
  confirmed : Bool
  halt : Option Stop
  image : Image

/-- Exit status 0. -/
def Run.success (r : Run) : Bool := r.halt.isNone

/-- Lines 295-330 of `main`. -/
def repair (L : Layout) (img : Image) (o : List Msg) (v : Verdict) : Run :=
  match find_lost_found L img v.root_ip (upto 0 L.NDIRENT) with
  | .stop o2 s => Run.mk (o ++ o2) false (some s) img
  | .ok _ none => Run.mk (o ++ [.noLostFound]) false (some .exit1) img
  | .ok _ (some lost_found_inode) =>
    match relocate L v.used lost_found_inode (upto 0 L.NINODES) img with
    | (.stop o2 s, img2) => Run.mk (o ++ o2) false (some s) img2
    | (.ok _ _, img2) => Run.mk o false none img2

/-- The function `main` on an opened image. -/
def main (L : Layout) (img : Image) (repair_mode : Bool) : Run :=
  match validate L img repair_mode with
  | .stop o s => Run.mk o false (some s) img
  | .ok o v =>
    if !repair_mode then Run.mk o false none img
    else if !v.repair_required then Run.mk o true none img
    else repair L img o v

/-! ## Reading the image as a directory graph -/

/-- Offset of inode `n`, the value of `get_nth_inode`. -/
def inode_at (L : Layout) (n : Nat) : Nat := L.INODESTART * L.BSIZE + n * L.DINODE_SIZE

/-- The type tag of inode `n` as the program reads it. -/
def itype (L : Layout) (img : Image) (n : Nat) : Nat := xshort (dtype img (inode_at L n))

/-- Inode `n` has type `T_DIR`. -/
def is_dir (L : Layout) (img : Image) (n : Nat) : Bool := decide (itype L img n = L.T_DIR)

/-- Offset of slot `j` of the directory block of inode `d`, the value of
`get_nth_dirent`. -/
def slot_at (L : Layout) (img : Image) (d j : Nat) : Nat :=
  xshort (daddr img (inode_at L d) 0) * L.BSIZE + j * DIRENT_SIZE

/-- The inode number in slot `j` of the directory block of inode `d`. -/
def slot_inum (L : Layout) (img : Image) (d j : Nat) : Nat := xshort (ld16 img (slot_at L img d j))

/-- The number of slots `j` with `2 ≤ j < NDIRENT` of inode `d` that hold `n`. -/
def slots_naming (L : Layout) (img : Image) (d n : Nat) : Nat :=
  (upto 2 L.NDIRENT).countP (fun j => decide (slot_inum L img d j = n))

/-- The number of pairs of a directory inode `d` among `ds` and a slot `j` with
`2 ≤ j < NDIRENT` whose entry holds `n`. -/
def entries_in (L : Layout) (img : Image) (ds : List Nat) (n : Nat) : Nat :=
  (ds.map (fun d => if is_dir L img d then slots_naming L img d n else 0)).sum

/-- The number of pairs of a directory inode `d < NINODES` and a slot `j` with
`2 ≤ j < NDIRENT` whose entry holds `n`. -/
def entry_count (L : Layout) (img : Image) (n : Nat) : Nat :=
  entries_in L img (upto 0 L.NINODES) n

/-! ## Notions used to state the theorems -/

/-- Inode number `c` is a directory inode: below `NINODES`, of type `T_DIR`. -/
def node (L : Layout) (img : Image) (c : Nat) : Prop := c < L.NINODES ∧ is_dir L img c = true

instance (L : Layout) (img : Image) (c : Nat) : Decidable (node L img c) :=
  inferInstanceAs (Decidable (c < L.NINODES ∧ is_dir L img c = true))

/-- Where a sequence of slots leads from inode `k`: each step goes from a
directory inode through one of its slots `2 ≤ j < NDIRENT` to the inode number
stored there. -/
def walk (L : Layout) (img : Image) : Nat → List Nat → Option Nat
  | k, [] => some k
  | k, j :: js =>
    if k < L.NINODES ∧ is_dir L img k = true ∧ 2 ≤ j ∧ j < L.NDIRENT then
      walk L img (slot_inum L img k j) js
    else none

/-- Directory inode `c` is reachable from inode `k` through entries in slots
from 2 on. -/
def Reach (L : Layout) (img : Image) (k c : Nat) : Prop :=
  ∃ p, walk L img k p = some c ∧ node L img c

/-- Some directory inode is the end of two different slot sequences from `k`. -/
def MeetsTwice (L : Layout) (img : Image) (k : Nat) : Prop :=
  ∃ p q c, p ≠ q ∧ walk L img k p = some c ∧ walk L img k q = some c ∧ node L img c

/-- The directory graph reachable from `k` has a directed cycle: a directory
inode reachable from `k` from which a non-empty slot sequence leads back to it. -/
def HasCycle (L : Layout) (img : Image) (k : Nat) : Prop :=
  ∃ p q c, walk L img k p = some c ∧ node L img c ∧ q ≠ [] ∧ walk L img c q = some c

/-- Either returned or stopped on an access outside an object. -/
def Res.Soft {α : Type} (x : Res α) : Prop := x.why = none ∨ x.why = some .undefined

/-- Wrote nothing, and returned or stopped on an access outside an object. -/
def Res.Quiet {α : Type} (x : Res α) : Prop := (∃ a, x = .ok [] a) ∨ x = .stop [] .undefined

/-- The number of inodes whose bit is set in a working set. -/
def live (L : Layout) (W : Nat → Nat) : Nat :=
  (upto 0 L.NINODES).countP (fun n => is_nth_bit_1 W n)

/-- What a traversal that found no re-entry has done (the specification of a
call of `has_directory_cycle` that returns false): every directory reachable
from `k` was in the working set `W`, no directory is the end of two slot
sequences from `k`, and `W2` is `W` without the directories reachable from `k`. -/
def Swept (L : Layout) (img : Image) (W W2 : Nat → Nat) (k : Nat) : Prop :=
  (∀ c, Reach L img k c → is_nth_bit_1 W c = true) ∧ ¬ MeetsTwice L img k ∧
  (∀ n, is_nth_bit_1 W2 n = true ↔ (is_nth_bit_1 W n = true ∧ ¬ Reach L img k n))

/-- What a traversal that found a re-entry has done (the specification of a
call of `has_directory_cycle` that returns true): a slot sequence from `k` ends
at a directory that is no longer in the working set `W2`, because it was not in
`W` or because another slot sequence from `k` ends there; bits are only
cleared, and only of directories reachable from `k`. -/
def Reentered (L : Layout) (img : Image) (W W2 : Nat → Nat) (k : Nat) : Prop :=
  (∃ p c, walk L img k p = some c ∧ node L img c ∧ is_nth_bit_1 W2 c = false ∧
    (is_nth_bit_1 W c = false ∨ ∃ q, q ≠ p ∧ walk L img k q = some c)) ∧
  (∀ n, is_nth_bit_1 W2 n = true → is_nth_bit_1 W n = true) ∧
  (∀ n, is_nth_bit_1 W n = true → ¬ Reach L img k n → is_nth_bit_1 W2 n = true)

/-- The specification of the recursive call, as the loop over the slots uses it. -/
def VisitSpec (L : Layout) (img : Image)
    (visit : (Nat → Nat) → Nat → Res (Bool × (Nat → Nat))) : Prop :=
  ∀ W k o b W2, visit W k = .ok o (b, W2) →
    (b = false → Swept L img W W2 k) ∧ (b = true → Reentered L img W W2 k)

/-- The lines of the tree pass, from what the traversal returned. -/
def tree_out (L : Layout) (b : Bool) (W2 : Nat → Nat) : List Msg :=
  (if b then [Msg.cycle] else []) ++
    (upto 0 L.INODEBMAPSIZE).flatMap (fun i => if W2 i ≠ 0 then [Msg.inaccessible] else [])

/-- The block the program reads the entries of the inode at `ip` from. -/
def dir_block (img : Image) (ip : Nat) : Nat := xshort (daddr img ip 0)

/-- Offset of slot `s` of block `B`. -/
def block_slot (L : Layout) (B s : Nat) : Nat := B * L.BSIZE + s * DIRENT_SIZE

/-- The slots of block `B` whose inode number is 0, in ascending order. -/
def free_slots (L : Layout) (img : Image) (B : Nat) : List Nat :=
  (upto 0 L.NDIRENT).filter (fun s => decide (xshort (ld16 img (block_slot L B s)) = 0))

/-- The inode numbers left in `used_inodes_bitmap`, in ascending order. -/
def orphans (L : Layout) (used : Nat → Nat) : List Nat :=
  (upto 0 L.NINODES).filter (fun i => is_nth_bit_1 used i)

/-- The image after the stores `de->inum = xshort(i)` for the pairs of an inode
number `i` and a slot `s` of block `B`, in the order of the list. -/
def place (L : Layout) (B : Nat) (img : Image) (ps : List (Nat × Nat)) : Image :=
  ps.foldl (fun im p => st16 im (block_slot L B p.2) (xshort p.1)) img

/-- Whether a computation returned a value that passes the test `P`. -/
def Res.holds {α : Type} (x : Res α) (P : α → Bool) : Bool :=
  match x with
  | .ok _ a => P a
  | .stop _ _ => false

/-- Whether `rank` falls along every entry from a directory inode to a
directory inode. -/
def ranked (L : Layout) (img : Image) (rank : Nat → Nat) : Bool :=
  (upto 0 L.NINODES).all (fun k => !is_dir L img k ||
    (upto 2 L.NDIRENT).all (fun j =>
      !(decide (slot_inum L img k j < L.NINODES) && is_dir L img (slot_inum L img k j)) ||
        decide (rank (slot_inum L img k j) < rank k)))

/-- Whether the set `P` of inode numbers is closed under the entries of its
directory inodes. -/
def closed (L : Layout) (img : Image) (P : Nat → Bool) : Bool :=
  (upto 0 L.NINODES).all (fun k => !(P k && is_dir L img k) ||
    (upto 2 L.NDIRENT).all (fun j => P (slot_inum L img k j)))

/-- The run without `-r` of a computation whose repair-mode run is `x`: `error`
exits with status 1 at the first line, so the run is `x` cut there. -/
def Res.cut {α : Type} (x : Res α) : Res α :=
  match x.out with
  | [] => x
  | m :: _ => .stop [m] .exit1

/-- Whether the characters at `p` are those of `s` followed by a zero
character, which is what `strcmp(p, s) == 0` decides. -/
def name_is (img : Image) : Nat → List Nat → Bool
  | p, [] => byte img p == 0
  | p, x :: xs => byte img p == x && name_is img (p + 1) xs

/-- Whether the type tag of inode `i` is none of 0, `T_DIR`, `T_FILE`, `T_DEV`. -/
def bad_type (L : Layout) (img : Image) (i : Nat) : Bool :=
  !decide (itype L img i = 0 ∨ itype L img i = L.T_DIR ∨ itype L img i = L.T_FILE ∨
    itype L img i = L.T_DEV)

/-- Whether every slot from 2 on of every directory inode lies inside the
image and holds an inode number below `NINODES`. -/
def slots_fit (L : Layout) (img : Image) : Bool :=
  (upto 0 L.NINODES).all (fun d => !is_dir L img d ||
    (upto 2 L.NDIRENT).all (fun j =>
      decide (slot_inum L img d j < L.NINODES) && decide (slot_at L img d j + 2 ≤ L.IMGSIZE)))

/-- The accesses of lines 100-105 for the directory inode `d` stay inside the
image and inside `inode_references`: every slot from 2 on lies inside the
image and holds 0 or a number below `NINODES`. -/
def dirents_fit (L : Layout) (img : Image) (d : Nat) : Prop :=
  ∀ j ∈ upto 2 L.NDIRENT, slot_at L img d j + 2 ≤ L.IMGSIZE ∧
    (slot_inum L img d j ≠ 0 → slot_inum L img d j < L.NINODES)

/-- The accesses of lines 110-114 for the inode at `ip` stay inside
`direct_addr_references`: every direct address, in its low 16 bits, is 0 or
below `FSSIZE`. -/
def direct_fit (L : Layout) (img : Image) (ip : Nat) : Prop :=
  ∀ j ∈ upto 0 L.NDIRECT, xshort (daddr img ip j) ≠ 0 → xshort (daddr img ip j) < L.FSSIZE

/-- The accesses of lines 124-128 for the indirect block at offset
`indirect_block` stay inside `indirect_addr_references`: every entry is 0 or
below `FSSIZE`. -/
def indirect_fit (L : Layout) (img : Image) (indirect_block : Nat) : Prop :=
  ∀ j ∈ upto 0 L.NINDIRECT, xint (ld32 img (indirect_block + 4 * j)) ≠ 0 →
    xint (ld32 img (indirect_block + 4 * j)) < L.FSSIZE

/-- The accesses of the body of the reference loop (lines 93-129) for inode `i`
stay inside their arrays and the image: the inode is free, or its entries (if
it is a directory), its direct addresses, its indirect pointer and the entries
of its indirect block (if the pointer is in bounds) do. -/
def scan_fits (L : Layout) (img : Image) (i : Nat) : Prop :=
  itype L img i = 0 ∨
    ((is_dir L img i = true → dirents_fit L img i) ∧ direct_fit L img (inode_at L i) ∧
      xint (daddr img (inode_at L i) L.NDIRECT) < L.FSSIZE ∧
      (is_addr_in_bounds L (xint (daddr img (inode_at L i) L.NDIRECT)) = true →
        indirect_fit L img (xint (daddr img (inode_at L i) L.NDIRECT) * L.BSIZE)))

/-- The lines the passes before the parent pass write in repair mode. -/
def early_out (L : Layout) (img : Image) (t : Tables) : List Msg :=
  (check_types L img true).out ++ (check_bounds L true t.direct .badDirect).out ++
  (check_bounds L true t.indirect .badIndirect).out ++ (check_root L img true).out ++
  (check_format L img true).out ++ (check_marked L true (disk_bitmap L img) t.direct).out ++
  (check_marked L true (disk_bitmap L img) t.indirect).out ++
  (check_residual L true (residual L img t)).out ++ (check_aliasing L true t).out ++
  (check_usage L true t).out ++ (check_nlink L img true t).out ++
  (check_dirlink L img true t).out

/-! ## Concrete images -/

/-- The image whose bytes are all zero. -/
def blank : Image := fun _ => 0

/-- Byte `k` of the little-endian form of `v`. -/
def le_byte (v k : Nat) : Nat := v / 256 ^ k % 256

/-- The image with inode `n` rewritten: type, link count, `addrs[0]` and
`addrs[NDIRECT]` as given, every other byte of the inode zero. -/
def with_inode (L : Layout) (n type nlink addr0 ind : Nat) (img : Image) : Image := fun p =>
  let ip := L.INODESTART * L.BSIZE + n * L.DINODE_SIZE
  bif Nat.blt p ip then img p
  else bif Nat.ble (ip + L.DINODE_SIZE) p then img p
  else bif Nat.blt p (ip + 2) then le_byte type (p - ip)
  else bif Nat.blt p (ip + NLINK_OFF) then 0
  else bif Nat.blt p (ip + NLINK_OFF + 2) then le_byte nlink (p - (ip + NLINK_OFF))
  else bif Nat.blt p (ip + ADDRS_OFF) then 0
  else bif Nat.blt p (ip + ADDRS_OFF + 4) then le_byte addr0 (p - (ip + ADDRS_OFF))
  else bif Nat.blt p (ip + ADDRS_OFF + 4 * L.NDIRECT) then 0
  else le_byte ind (p - (ip + ADDRS_OFF + 4 * L.NDIRECT))

/-- The image with slot `slot` of block `blk` rewritten: inode number and name,
the name padded with zeros. -/
def with_dirent (L : Layout) (blk slot inum : Nat) (name : List Nat) (img : Image) : Image :=
  fun p =>
    let de := blk * L.BSIZE + slot * DIRENT_SIZE
    bif Nat.blt p de then img p
    else bif Nat.ble (de + DIRENT_SIZE) p then img p
    else bif Nat.blt p (de + NAME_OFF) then le_byte inum (p - de)
    else name.getD (p - (de + NAME_OFF)) 0

/-- The image with the bitmap rewritten: blocks `0 .. n - 1` marked. -/
def with_bitmap (L : Layout) (n : Nat) (img : Image) : Image := fun p =>
  let b := L.BMAPSTART * L.BSIZE
  bif Nat.blt p b then img p
  else bif Nat.ble (b + L.BMAPSIZE) p then img p
  else bif Nat.ble (8 * (p - b) + 8) n then 255
  else bif Nat.ble n (8 * (p - b)) then 0
  else 2 ^ (n - 8 * (p - b)) - 1

/-- The characters of `"."`. -/
def dot : List Nat := [46]

/-- The characters of `".."`. -/
def dotdot : List Nat := [46, 46]

/-- An image with the root directory alone: inode 1 is a directory in block 59
with its two first slots naming inode 1; blocks 0 to 59 are marked. -/
def img_root : Image :=
  with_bitmap xv6 60 (with_dirent xv6 59 0 1 dot (with_dirent xv6 59 1 1 dotdot
    (with_inode xv6 1 1 1 59 0 blank)))

/-- As `img_root`, but `addrs[0]` of the root holds 65595, which is 59 in its
low 16 bits. -/
def img_wide : Image :=
  with_bitmap xv6 60 (with_dirent xv6 59 0 1 dot (with_dirent xv6 59 1 1 dotdot
    (with_inode xv6 1 1 1 65595 0 blank)))

/-- A consistent image with two inodes: the root directory in block 59 and the
regular file 2 in block 60, named `a` by slot 2 of the root; neither has an
indirect block. -/
def img_two : Image :=
  with_bitmap xv6 61 (with_dirent xv6 59 2 2 [97] (with_inode xv6 2 2 1 60 0 img_root))

/-- As `img_root`, with block 60 marked in the bitmap though no inode uses it. -/
def img_marked : Image := with_bitmap xv6 61 img_root

/-- Scenario A: the root directory, and inode 5 a regular file with link count
2 that no entry names; its indirect block is the empty block 60. -/
def img_five : Image := with_bitmap xv6 61 (with_inode xv6 5 2 2 0 60 img_root)

/-- The root directory and two more directories that no entry names: inode 2 in
block 60, whose parent slot holds 60000, and inode 3 in block 61, whose parent
slot holds 1. -/
def img_lost : Image :=
  with_bitmap xv6 62
    (with_dirent xv6 61 0 3 dot (with_dirent xv6 61 1 1 dotdot (with_inode xv6 3 1 1 61 0
    (with_dirent xv6 60 0 2 dot (with_dirent xv6 60 1 60000 dotdot (with_inode xv6 2 1 1 60 0
    img_root))))))

/-- Scenario C: the root names directory 3 (block 60); directory 4 (block 61)
has its parent slot naming 3, and directory 3 has no entry naming 4. -/
def img_child : Image :=
  with_bitmap xv6 62
    (with_dirent xv6 61 0 4 dot (with_dirent xv6 61 1 3 dotdot (with_inode xv6 4 1 1 61 0
    (with_dirent xv6 60 0 3 dot (with_dirent xv6 60 1 1 dotdot (with_inode xv6 3 1 1 60 0
    (with_dirent xv6 59 2 3 [97] img_root)))))))

/-- The root names directory 2 (block 60) in slot 2 and again in slot 3;
directory 2 has no entries of its own. -/
def img_twice : Image :=
  with_bitmap xv6 61
    (with_dirent xv6 60 0 2 dot (with_dirent xv6 60 1 1 dotdot (with_inode xv6 2 1 1 60 0
    (with_dirent xv6 59 2 2 [97] (with_dirent xv6 59 3 2 [98] img_root)))))

/-- The root directory without entries, and the directories 8 (block 60) and 9
(block 61), whose parent slots name the root. -/
def img_far : Image :=
  with_bitmap xv6 62
    (with_dirent xv6 61 0 9 dot (with_dirent xv6 61 1 1 dotdot (with_inode xv6 9 1 1 61 0
    (with_dirent xv6 60 0 8 dot (with_dirent xv6 60 1 1 dotdot (with_inode xv6 8 1 1 60 0
    img_root))))))

/-- Scenario D with link count `nlink` for the orphan: the root (block 59) names
the directory `lost_found`, inode 2 (block 60, indirect block 61), which holds
its two first entries only; inode 9 is a regular file that no entry names
(indirect block 62). -/
def img_orphan (nlink : Nat) : Image :=
  with_bitmap xv6 63
    (with_inode xv6 9 2 nlink 0 62
    (with_dirent xv6 60 0 2 dot (with_dirent xv6 60 1 1 dotdot (with_inode xv6 2 1 1 60 61
    (with_dirent xv6 59 2 2 lost_found img_root)))))

/-- As `img_orphan 1`, and directory 3 (block 63), named by slot 3 of the root,
whose parent slot holds 60000. -/
def img_abort : Image :=
  with_bitmap xv6 64
    (with_dirent xv6 63 0 3 dot (with_dirent xv6 63 1 60000 dotdot (with_inode xv6 3 1 1 63 0
    (with_dirent xv6 59 3 3 [97] (img_orphan 1)))))

/-- The image with the slots `lo ≤ s < hi` of block `blk` rewritten: inode
number `inum`, empty name. -/
def with_entries (L : Layout) (blk lo hi inum : Nat) (img : Image) : Image := fun p =>
  let b := blk * L.BSIZE
  bif Nat.blt p (b + lo * DIRENT_SIZE) then img p
  else bif Nat.ble (b + hi * DIRENT_SIZE) p then img p
  else bif Nat.blt ((p - b) % DIRENT_SIZE) NAME_OFF then le_byte inum ((p - b) % DIRENT_SIZE)
  else 0

/-- The image with the inodes `lo ≤ n < hi` rewritten: type `T_DIR`, link count
1, `addrs[0] = base + n`, every other byte of the inode zero. -/
def with_dirs (L : Layout) (lo hi base : Nat) (img : Image) : Image := fun p =>
  let tab := L.INODESTART * L.BSIZE
  bif Nat.blt p (tab + lo * L.DINODE_SIZE) then img p
  else bif Nat.ble (tab + hi * L.DINODE_SIZE) p then img p
  else
    let n := (p - tab) / L.DINODE_SIZE
    let k := (p - tab) % L.DINODE_SIZE
    bif Nat.blt k 2 then le_byte L.T_DIR k
    else bif Nat.blt k NLINK_OFF then 0
    else bif Nat.blt k (NLINK_OFF + 2) then le_byte 1 (k - NLINK_OFF)
    else bif Nat.blt k ADDRS_OFF then 0
    else bif Nat.blt k (ADDRS_OFF + 4) then le_byte (base + n) (k - ADDRS_OFF)
    else 0

/-- The root directory (block 59), the directories 2 to 9 (blocks 60 to 67),
and 255 counted entries naming inode 1: the slots 2 to 16 of the root, and all
slots of the blocks 60 to 67, thirty of which from slot 2 on in each block. -/
def img_wrap : Image :=
  with_entries xv6 59 2 17 1 (with_entries xv6 60 0 256 1 (with_dirs xv6 2 10 58 img_root))

/-- As `img_root`, with slot 2 of the root holding the inode number 60000. -/
def img_stray : Image := with_dirent xv6 59 2 60000 [97] img_root

/-- As `img_two`, with 2000 as the first direct address of the regular file 2. -/
def img_beyond : Image := with_inode xv6 2 2 1 2000 0 img_two

/-- As `img_root`, with slot 1 of the root, its parent slot, holding 2. -/
def img_parent : Image := with_dirent xv6 59 1 2 dotdot img_root

/-- As `img_orphan 1`, with the slots 2 to 30 of `lost_found` holding inode
number 2, so that slot 31 alone is free, and the regular file 10 that no entry
names. -/
def img_full : Image :=
  with_inode xv6 10 2 1 0 0 (with_entries xv6 60 2 31 2 (img_orphan 1))

/-- As `img_full`, and directory 3 (block 63), named by slot 3 of the root,
whose parent slot holds 60000. -/
def img_full_abort : Image :=
  with_dirent xv6 63 0 3 dot (with_dirent xv6 63 1 60000 dotdot (with_inode xv6 3 1 1 63 0
    (with_dirent xv6 59 3 3 [97] img_full)))

/-- As `img_twice`, with directory 2 naming the root and itself. -/
def img_loop : Image := with_dirent xv6 60 2 1 [97] (with_dirent xv6 60 3 2 [98] img_twice)

/-! # Theorems -/

/-! ## The result monad -/

namespace Res

variable {α β : Type}

@[simp]
theorem pure_eq (a : α) : (pure a : Res α) = ok [] a := rfl

@[simp]
theorem bind_eq (x : Res α) (f : α → Res β) : x >>= f = Res.bind x f := rfl

@[simp]
theorem bind_ok (o : List Msg) (a : α) (f : α → Res β) :
    Res.bind (ok o a) f = pre o (f a) := rfl

@[simp]
theorem bind_stop (o : List Msg) (s : Stop) (f : α → Res β) :
    Res.bind (stop o s) f = stop o s := rfl

@[simp]
theorem pre_ok (o o2 : List Msg) (a : α) : pre o (ok o2 a) = ok (o ++ o2) a := rfl

@[simp]
theorem pre_stop (o o2 : List Msg) (s : Stop) :
    pre o (stop o2 s : Res α) = stop (o ++ o2) s := rfl

@[simp]
theorem pre_nil (x : Res α) : pre [] x = x := by cases x <;> rfl

theorem pre_pre (o o2 : List Msg) (x : Res α) : pre o (pre o2 x) = pre (o ++ o2) x := by
  cases x <;> simp

@[simp]
theorem out_pre (o : List Msg) (x : Res α) : (pre o x).out = o ++ x.out := by
  cases x <;> rfl

@[simp]
theorem why_pre (o : List Msg) (x : Res α) : (pre o x).why = x.why := by
  cases x <;> rfl

@[simp]
theorem out_ok (o : List Msg) (a : α) : (ok o a).out = o := rfl
@[simp]
theorem out_stop (o : List Msg) (s : Stop) : (stop o s : Res α).out = o := rfl
@[simp]
theorem why_ok (o : List Msg) (a : α) : (ok o a).why = none := rfl
@[simp]
theorem why_stop (o : List Msg) (s : Stop) : (stop o s : Res α).why = some s := rfl

theorem pre_bind (o : List Msg) (x : Res α) (f : α → Res β) :
    Res.bind (pre o x) f = pre o (Res.bind x f) := by
  cases x <;> simp [pre_pre]

/-- A computation that stopped keeps its lines in every continuation. -/
theorem out_bind (x : Res α) (f : α → Res β) :
    (Res.bind x f).out = x.out ++ (match x with | ok _ a => (f a).out | stop _ _ => []) := by
  cases x <;> simp

theorem why_bind (x : Res α) (f : α → Res β) :
    (Res.bind x f).why = (match x with | ok _ a => (f a).why | stop _ s => some s) := by
  cases x <;> simp

theorem eq_ok_of_why (x : Res α) (h : x.why = none) : ∃ o a, x = ok o a := by
  cases x with
  | ok o a => exact ⟨o, a, rfl⟩
  | stop o s => simp at h

theorem total_bind {x : Res α} {f : α → Res β} (hx : x.why = none)
    (hf : ∀ a, (f a).why = none) : (x >>= f).why = none := by
  obtain ⟨o, a, rfl⟩ := eq_ok_of_why x hx
  simpa using hf a

theorem soft_bind {x : Res α} {f : α → Res β} (hx : Soft x) (hf : ∀ a, Soft (f a)) :
    Soft (x >>= f) := by
  cases x with
  | ok o a => simpa [Soft] using hf a
  | stop o s => simpa [Soft] using hx

theorem soft_of_total {x : Res α} (hx : x.why = none) : Soft x := Or.inl hx

theorem mem_out_bind {x : Res α} {f : α → Res β} {m : Msg} :
    m ∈ (x >>= f).out ↔ m ∈ x.out ∨ ∃ o a, x = ok o a ∧ m ∈ (f a).out := by
  cases x with
  | ok o a =>
    simp only [bind_eq, bind_ok, out_pre, List.mem_append, out_ok, ok.injEq]
    constructor
    · rintro (h | h)
      · exact Or.inl h
      · exact Or.inr ⟨o, a, ⟨rfl, rfl⟩, h⟩
    · rintro (h | ⟨_, _, ⟨rfl, rfl⟩, h⟩)
      · exact Or.inl h
      · exact Or.inr h
  | stop o s => simp

end Res

@[simp]
theorem error_repair (m : Msg) : error true m = .ok [m] () := rfl
@[simp]
theorem error_strict (m : Msg) : error false m = .stop [m] .exit1 := rfl
@[simp]
theorem assert_true : assert true = .ok [] () := rfl
@[simp]
theorem assert_false : assert false = .stop [] .abort := rfl
@[simp]
theorem inside_true : inside true = .ok [] () := rfl
@[simp]
theorem inside_false : inside false = .stop [] .undefined := rfl

theorem get_nth_inode_of_lt (L : Layout) {n : Nat} (h : n < L.NINODES) :
    get_nth_inode L n = .ok [] (inode_at L n) := by
  simp [get_nth_inode, inode_at, h]

theorem get_nth_inode_of_ge (L : Layout) {n : Nat} (h : L.NINODES ≤ n) :
    get_nth_inode L n = .stop [] .abort := by
  simp [get_nth_inode, Nat.not_lt.mpr h]

theorem get_nth_dirent_of_lt (L : Layout) (img : Image) (ip : Nat) {n : Nat} (h : n < L.NDIRENT) :
    get_nth_dirent L img ip n = .ok [] (xshort (daddr img ip 0) * L.BSIZE + n * DIRENT_SIZE) := by
  simp [get_nth_dirent, h]

theorem mem_upto {lo hi i : Nat} : i ∈ upto lo hi ↔ lo ≤ i ∧ i < hi := by
  simp only [upto, List.mem_range'_1]
  omega

/-! ## Loops -/

theorem forM_nil_eq (f : Nat → Res Unit) : ([] : List Nat).forM f = .ok [] () := rfl

theorem forM_cons_eq (f : Nat → Res Unit) (x : Nat) (xs : List Nat) :
    (x :: xs).forM f = Res.bind (f x) (fun _ => xs.forM f) := rfl

theorem foldlM_nil_eq {σ : Type} (f : σ → Nat → Res σ) (s : σ) :
    ([] : List Nat).foldlM f s = .ok [] s := rfl

theorem foldlM_cons_eq {σ : Type} (f : σ → Nat → Res σ) (s : σ) (x : Nat) (xs : List Nat) :
    (x :: xs).foldlM f s = Res.bind (f s x) (fun s2 => xs.foldlM f s2) := rfl

/-- A loop whose body never stops returns, having written the lines of its turns. -/
theorem forM_ok {f : Nat → Res Unit} {g : Nat → List Msg} :
    ∀ (xs : List Nat), (∀ i ∈ xs, f i = .ok (g i) ()) →
      xs.forM f = .ok (xs.flatMap g) ()
  | [], _ => rfl
  | x :: xs, h => by
    have hx := h x (List.mem_cons_self _ _)
    have ih := forM_ok xs (fun i hi => h i (List.mem_cons_of_mem _ hi))
    simp [forM_cons_eq, hx, ih]

/-- A loop with state whose body never stops returns. -/
theorem foldlM_total {σ : Type} {f : σ → Nat → Res σ} :
    ∀ (xs : List Nat) (s : σ), (∀ s, ∀ i ∈ xs, (f s i).why = none) →
      (xs.foldlM f s).why = none
  | [], _, _ => rfl
  | x :: xs, s, h => by
    obtain ⟨o, a, hx⟩ := Res.eq_ok_of_why _ (h s x (List.mem_cons_self _ _))
    have ih := foldlM_total xs a (fun s i hi => h s i (List.mem_cons_of_mem _ hi))
    simp [foldlM_cons_eq, hx, ih]

theorem forM_total {f : Nat → Res Unit} :
    ∀ (xs : List Nat), (∀ i ∈ xs, (f i).why = none) → (xs.forM f).why = none
  | [], _ => rfl
  | x :: xs, h => by
    obtain ⟨o, a, hx⟩ := Res.eq_ok_of_why _ (h x (List.mem_cons_self _ _))
    have ih := forM_total xs (fun i hi => h i (List.mem_cons_of_mem _ hi))
    simp [forM_cons_eq, hx, ih]

/-- The lines of a loop are lines of its turns. -/
theorem forM_out_mem {f : Nat → Res Unit} {m : Msg} :
    ∀ (xs : List Nat), m ∈ (xs.forM f).out → ∃ i ∈ xs, m ∈ (f i).out
  | [], h => by simp [forM_nil_eq] at h
  | x :: xs, h => by
    simp only [forM_cons_eq, Res.out_bind, List.mem_append] at h
    rcases h with h | h
    · exact ⟨x, List.mem_cons_self _ _, h⟩
    · cases hx : f x with
      | ok o a =>
        rw [hx] at h
        obtain ⟨i, hi, hm⟩ := forM_out_mem xs h
        exact ⟨i, List.mem_cons_of_mem _ hi, hm⟩
      | stop o s => rw [hx] at h; simp at h

theorem foldlM_out_mem {σ : Type} {f : σ → Nat → Res σ} {m : Msg} :
    ∀ (xs : List Nat) (s : σ), m ∈ (xs.foldlM f s).out → ∃ s, ∃ i ∈ xs, m ∈ (f s i).out
  | [], s, h => by simp [foldlM_nil_eq] at h
  | x :: xs, s, h => by
    simp only [foldlM_cons_eq, Res.out_bind, List.mem_append] at h
    rcases h with h | h
    · exact ⟨s, x, List.mem_cons_self _ _, h⟩
    · cases hx : f s x with
      | ok o a =>
        rw [hx] at h
        obtain ⟨s2, i, hi, hm⟩ := foldlM_out_mem xs a h
        exact ⟨s2, i, List.mem_cons_of_mem _ hi, hm⟩
      | stop o s => rw [hx] at h; simp at h

/-- A turn that is reached and writes a line: the loop writes it. -/
theorem forM_out_of_total {f : Nat → Res Unit} {m : Msg} :
    ∀ (xs : List Nat), (∀ i ∈ xs, (f i).why = none) → ∀ i ∈ xs, m ∈ (f i).out →
      m ∈ (xs.forM f).out
  | [], _, i, hi, _ => by simp at hi
  | x :: xs, h, i, hi, hm => by
    obtain ⟨o, a, hx⟩ := Res.eq_ok_of_why _ (h x (List.mem_cons_self _ _))
    simp only [forM_cons_eq, Res.out_bind, List.mem_append, hx]
    rcases List.mem_cons.mp hi with rfl | hi
    · left; simpa [hx] using hm
    · right; exact forM_out_of_total xs (fun j hj => h j (List.mem_cons_of_mem _ hj)) i hi hm

open Res

/-! ## Bitmaps -/

theorem is_nth_bit_1_eq (bm : Nat → Nat) (n : Nat) :
    is_nth_bit_1 bm n = (bm (n / 8)).testBit (n % 8) := by
  unfold is_nth_bit_1
  rw [Nat.one_shiftLeft, Nat.and_two_pow]
  cases h : (bm (n / 8)).testBit (n % 8) <;> simp [h]

theorem testBit_mask : ∀ k < 8, ∀ j < 8, (255 - 2 ^ k).testBit j = decide (j ≠ k) := by
  decide

theorem is_nth_bit_1_set_1 (bm : Nat → Nat) (n m : Nat) :
    is_nth_bit_1 (set_nth_bit_1 bm n) m = (decide (m = n) || is_nth_bit_1 bm m) := by
  simp only [is_nth_bit_1_eq, set_nth_bit_1]
  have hm : m % 8 < 8 := Nat.mod_lt _ (by decide)
  by_cases hq : m / 8 = n / 8
  · rw [if_pos hq, show (256 : Nat) = 2 ^ 8 from rfl, Nat.testBit_mod_two_pow, Nat.testBit_or,
      Nat.one_shiftLeft, Nat.testBit_two_pow, hq]
    by_cases hr : n % 8 = m % 8
    · have : m = n := by omega
      simp [hm, hr, this]
    · have : m ≠ n := fun h => hr (by rw [h])
      simp [hm, hr, this]
  · rw [if_neg hq]
    have : m ≠ n := fun h => hq (by rw [h])
    simp [this]

theorem is_nth_bit_1_set_0 (bm : Nat → Nat) (n m : Nat) :
    is_nth_bit_1 (set_nth_bit_0 bm n) m = (decide (m ≠ n) && is_nth_bit_1 bm m) := by
  simp only [is_nth_bit_1_eq, set_nth_bit_0]
  have hm : m % 8 < 8 := Nat.mod_lt _ (by decide)
  have hn : n % 8 < 8 := Nat.mod_lt _ (by decide)
  by_cases hq : m / 8 = n / 8
  · rw [if_pos hq, show (256 : Nat) = 2 ^ 8 from rfl, Nat.testBit_mod_two_pow, Nat.testBit_and,
      Nat.one_shiftLeft, testBit_mask _ hn _ hm, hq]
    by_cases hr : m % 8 = n % 8
    · have : m = n := by omega
      simp [hm, hr, this]
    · have : m ≠ n := fun h => hr (by rw [h])
      simp [hm, hr, this, Bool.and_comm]
  · rw [if_neg hq]
    have : m ≠ n := fun h => hq (by rw [h])
    simp [this]

theorem is_nth_bit_1_zero (n : Nat) : is_nth_bit_1 (fun _ => 0) n = false := by
  simp [is_nth_bit_1_eq]

/-- Clearing the bits of a list of addresses. -/
theorem is_nth_bit_1_foldl_set_0 (xs : List Nat) (bm : Nat → Nat) (n : Nat) :
    is_nth_bit_1 (xs.foldl (fun b addr => set_nth_bit_0 b addr) bm) n
      = (decide (n ∉ xs) && is_nth_bit_1 bm n) := by
  induction xs generalizing bm with
  | nil => simp
  | cons x xs ih =>
    rw [List.foldl_cons, ih, is_nth_bit_1_set_0]
    by_cases h1 : n = x <;> by_cases h2 : n ∈ xs <;> simp [h1, h2]

theorem mem_counted (L : Layout) (refs : Nat → Nat) (a : Nat) :
    a ∈ counted L refs ↔ a < L.FSSIZE ∧ refs a ≠ 0 := by
  simp [counted, mem_upto]

theorem is_nth_bit_1_residual (L : Layout) (img : Image) (t : Tables) (n : Nat) :
    is_nth_bit_1 (residual L img t) n =
      (is_nth_bit_1 (disk_bitmap L img) n &&
        !(decide (n < L.FSSIZE) && (decide (t.direct n ≠ 0) || decide (t.indirect n ≠ 0)))) := by
  simp only [residual, clear_counted, is_nth_bit_1_foldl_set_0, mem_counted]
  by_cases h1 : n < L.FSSIZE <;> by_cases h2 : t.direct n = 0 <;> by_cases h3 : t.indirect n = 0 <;>
    simp [h1, h2, h3]

/-! ## The passes in repair mode -/

theorem why_ite {α : Type} (c : Prop) [Decidable c] (x y : Res α) :
    (if c then x else y).why = if c then x.why else y.why := by
  split <;> rfl

theorem out_ite {α : Type} (c : Prop) [Decidable c] (x y : Res α) :
    (if c then x else y).out = if c then x.out else y.out := by
  split <;> rfl

theorem check_types_total (L : Layout) (img : Image) : (check_types L img true).why = none := by
  unfold check_types
  apply forM_total
  intro i hi
  rw [get_nth_inode_of_lt L (mem_upto.mp hi).2]
  simp only [Res.bind_eq, Res.bind_ok, Res.pre_nil]
  split <;> rfl

theorem check_bounds_total (L : Layout) (refs : Nat → Nat) (m : Msg) :
    (check_bounds L true refs m).why = none := by
  unfold check_bounds
  apply forM_total
  intro i _
  split <;> rfl

theorem check_marked_total (L : Layout) (bitmap refs : Nat → Nat) :
    (check_marked L true bitmap refs).why = none := by
  unfold check_marked
  apply forM_total
  intro i _
  split <;> rfl

theorem check_residual_total (L : Layout) (ub : Nat → Nat) :
    (check_residual L true ub).why = none := by
  unfold check_residual
  apply Res.total_bind
  · split <;> rfl
  · intro _
    apply forM_total
    intro i _
    split <;> rfl

theorem check_aliasing_total (L : Layout) (t : Tables) :
    (check_aliasing L true t).why = none := by
  unfold check_aliasing
  apply Res.total_bind
  · apply forM_total
    intro i _
    split <;> rfl
  · intro _
    apply forM_total
    intro i _
    split <;> rfl

theorem check_usage_total (L : Layout) (t : Tables) : (check_usage L true t).why = none := by
  unfold check_usage
  apply foldlM_total
  intro s i _
  apply Res.total_bind
  · split <;> rfl
  · intro used
    apply Res.total_bind
    · split
      · rfl
      · rfl
    · intro req
      apply Res.total_bind
      · split <;> rfl
      · intro _
        rfl

theorem check_nlink_total (L : Layout) (img : Image) (t : Tables) :
    (check_nlink L img true t).why = none := by
  unfold check_nlink
  apply forM_total
  intro i hi
  rw [get_nth_inode_of_lt L (mem_upto.mp hi).2]
  simp only [Res.bind_eq, Res.bind_ok, Res.pre_nil]
  split <;> rfl

theorem check_dirlink_total (L : Layout) (img : Image) (t : Tables) :
    (check_dirlink L img true t).why = none := by
  unfold check_dirlink
  apply forM_total
  intro i hi
  rw [get_nth_inode_of_lt L (mem_upto.mp hi).2]
  simp only [Res.bind_eq, Res.bind_ok, Res.pre_nil]
  split <;> rfl

/-! ## Passes that read through pointers -/

namespace Res

variable {α β : Type}

theorem quiet_bind {x : Res α} {f : α → Res β} (hx : Quiet x) (hf : ∀ a, Quiet (f a)) :
    Quiet (x >>= f) := by
  rcases hx with ⟨a, rfl⟩ | rfl
  · simpa using hf a
  · right; rfl

theorem quiet_pure (a : α) : Quiet (pure a : Res α) := Or.inl ⟨a, rfl⟩

theorem quiet_ok (a : α) : Quiet (ok [] a : Res α) := Or.inl ⟨a, rfl⟩

theorem Quiet.soft {x : Res α} (h : Quiet x) : Soft x := by
  rcases h with ⟨a, rfl⟩ | rfl
  · left; rfl
  · right; rfl

theorem Quiet.out {x : Res α} (h : Quiet x) : x.out = [] := by
  rcases h with ⟨a, rfl⟩ | rfl <;> rfl

theorem quiet_ite (c : Prop) [Decidable c] {x y : Res α} (hx : Quiet x) (hy : Quiet y) :
    Quiet (if c then x else y) := by
  split <;> assumption

theorem soft_ite (c : Prop) [Decidable c] {x y : Res α} (hx : Soft x) (hy : Soft y) :
    Soft (if c then x else y) := by
  split <;> assumption

theorem soft_error (m : Msg) : Soft (error true m) := Or.inl rfl

theorem soft_pure (a : α) : Soft (pure a : Res α) := Or.inl rfl

end Res

theorem foldlM_quiet {σ : Type} {f : σ → Nat → Res σ} :
    ∀ (xs : List Nat) (s : σ), (∀ s, ∀ i ∈ xs, Quiet (f s i)) → Quiet (xs.foldlM f s)
  | [], s, _ => Or.inl ⟨s, rfl⟩
  | x :: xs, s, h => by
    rw [foldlM_cons_eq]
    exact quiet_bind (h s x (List.mem_cons_self _ _))
      (fun a => foldlM_quiet xs a (fun s i hi => h s i (List.mem_cons_of_mem _ hi)))

theorem forM_soft {f : Nat → Res Unit} :
    ∀ (xs : List Nat), (∀ i ∈ xs, Soft (f i)) → Soft (xs.forM f)
  | [], _ => Or.inl rfl
  | x :: xs, h => by
    rw [forM_cons_eq]
    exact soft_bind (h x (List.mem_cons_self _ _))
      (fun _ => forM_soft xs (fun i hi => h i (List.mem_cons_of_mem _ hi)))

theorem inside_quiet (c : Bool) : Quiet (inside c) := by
  cases c
  · right; rfl
  · left; exact ⟨(), rfl⟩

theorem bump_quiet (size modulus : Nat) (t : Nat → Nat) (k : Nat) :
    Quiet (bump size modulus t k) :=
  quiet_bind (inside_quiet _) (fun _ => quiet_pure _)

theorem de_inum_quiet (L : Layout) (img : Image) (de : Nat) : Quiet (de_inum L img de) :=
  quiet_bind (inside_quiet _) (fun _ => quiet_pure _)

theorem ld8_quiet (L : Layout) (img : Image) (p : Nat) : Quiet (ld8 L img p) :=
  quiet_bind (inside_quiet _) (fun _ => quiet_pure _)

theorem streq_quiet (L : Layout) (img : Image) : ∀ (s : List Nat) (p : Nat), Quiet (streq L img p s)
  | [], p => quiet_bind (ld8_quiet L img p) (fun _ => quiet_pure _)
  | x :: xs, p => by
    unfold streq
    exact quiet_bind (ld8_quiet L img p)
      (fun c => quiet_ite _ (streq_quiet L img xs (p + 1)) (quiet_pure _))

theorem get_nth_dirent_quiet (L : Layout) (img : Image) (ip : Nat) {n : Nat} (h : n < L.NDIRENT) :
    Quiet (get_nth_dirent L img ip n) := by
  rw [get_nth_dirent_of_lt L img ip h]; exact quiet_ok _

theorem get_nth_inode_quiet (L : Layout) {n : Nat} (h : n < L.NINODES) :
    Quiet (get_nth_inode L n) := by
  rw [get_nth_inode_of_lt L h]; exact quiet_ok _

theorem count_dirents_quiet (L : Layout) (img : Image) (ip : Nat) (r : Nat → Nat) :
    Quiet (count_dirents L img ip r) := by
  unfold count_dirents
  apply foldlM_quiet
  intro s j hj
  exact quiet_bind (get_nth_dirent_quiet L img ip (mem_upto.mp hj).2) (fun de =>
    quiet_bind (de_inum_quiet L img de) (fun inum =>
      quiet_ite _ (bump_quiet _ _ _ _) (quiet_pure _)))

theorem count_direct_quiet (L : Layout) (img : Image) (ip : Nat) (d : Nat → Nat) :
    Quiet (count_direct L img ip d) := by
  unfold count_direct
  apply foldlM_quiet
  intro s j _
  exact quiet_ite _ (bump_quiet _ _ _ _) (quiet_pure _)

theorem count_indirect_quiet (L : Layout) (img : Image) (b : Nat) (d : Nat → Nat) :
    Quiet (count_indirect L img b d) := by
  unfold count_indirect
  apply foldlM_quiet
  intro s j _
  exact quiet_ite _ (bump_quiet _ _ _ _) (quiet_pure _)

theorem scan_inode_quiet (L : Layout) (img : Image) (t : Tables) {i : Nat} (h : i < L.NINODES) :
    Quiet (scan_inode L img t i) := by
  unfold scan_inode
  refine quiet_bind (get_nth_inode_quiet L h) (fun ip => ?_)
  refine quiet_ite _ (quiet_pure _) ?_
  refine quiet_bind (quiet_ite _ ?_ (quiet_pure _)) (fun t1 => ?_)
  · exact quiet_bind (count_dirents_quiet L img ip _) (fun _ => quiet_pure _)
  refine quiet_bind (count_direct_quiet L img ip _) (fun d => ?_)
  refine quiet_bind (bump_quiet _ _ _ _) (fun d2 => ?_)
  refine quiet_bind (quiet_ite _ (count_indirect_quiet L img _ _) (quiet_pure _)) (fun ind => ?_)
  exact quiet_pure _

theorem analyse_quiet (L : Layout) (img : Image) : Quiet (analyse L img) := by
  unfold analyse
  refine quiet_bind (bump_quiet _ _ _ _) (fun r => ?_)
  apply foldlM_quiet
  intro s i hi
  exact scan_inode_quiet L img s (mem_upto.mp hi).2

theorem check_root_soft (L : Layout) (img : Image) (hn : 2 ≤ L.NINODES) (he : 2 ≤ L.NDIRENT) :
    Soft (check_root L img true) := by
  unfold check_root
  refine soft_bind (get_nth_inode_quiet L (by omega)).soft (fun ip => ?_)
  refine soft_bind (soft_ite _ (soft_error _) (soft_pure _)) (fun _ => ?_)
  refine soft_bind (get_nth_dirent_quiet L img ip (by omega)).soft (fun de => ?_)
  refine soft_bind (de_inum_quiet L img _).soft (fun a => ?_)
  refine soft_bind (de_inum_quiet L img _).soft (fun b => ?_)
  refine soft_bind (soft_ite _ (soft_error _) (soft_pure _)) (fun _ => ?_)
  exact soft_pure _

theorem check_format_soft (L : Layout) (img : Image) (he : 2 ≤ L.NDIRENT) :
    Soft (check_format L img true) := by
  unfold check_format
  apply forM_soft
  intro i hi
  refine soft_bind (get_nth_inode_quiet L (mem_upto.mp hi).2).soft (fun ip => ?_)
  refine soft_ite _ ?_ (soft_pure _)
  refine soft_bind (get_nth_dirent_quiet L img ip (by omega)).soft (fun dp0 => ?_)
  refine soft_bind (de_inum_quiet L img _).soft (fun inum => ?_)
  refine soft_bind (get_nth_dirent_quiet L img ip (by omega)).soft (fun dp1 => ?_)
  refine soft_bind ?_ (fun bad => ?_)
  · refine soft_ite _ (soft_pure _) ?_
    refine soft_bind (streq_quiet L img _ _).soft (fun a => ?_)
    refine soft_ite _ (soft_pure _) ?_
    exact soft_bind (streq_quiet L img _ _).soft (fun b => soft_pure _)
  · exact soft_ite _ (soft_error _) (soft_pure _)

theorem Res.eq_ok_out {α : Type} (x : Res α) (h : x.why = none) : ∃ a, x = ok x.out a := by
  cases x with
  | ok o a => exact ⟨a, rfl⟩
  | stop o s => simp at h

theorem Res.soft_cases {α : Type} {x : Res α} (h : Soft x) :
    (∃ a, x = ok x.out a) ∨ x = stop x.out .undefined := by
  cases x with
  | ok o a => exact Or.inl ⟨a, rfl⟩
  | stop o s =>
    rcases h with h | h
    · simp at h
    · simp at h; subst h; exact Or.inr rfl

/-- In repair mode, a validation that does not leave defined behaviour runs
every pass up to the parent pass. -/
theorem validate_reach (L : Layout) (img : Image) (hn : 2 ≤ L.NINODES) (he : 2 ≤ L.NDIRENT)
    (hsafe : (validate L img true).why ≠ some .undefined) :
    ∃ t root u, analyse L img = .ok [] t ∧ (∃ o, check_root L img true = .ok o root) ∧
      (∃ o, check_usage L true t = .ok o u) ∧
      validate L img true = Res.pre (early_out L img t)
        (check_parents L img true >>= fun _ => check_tree L img true t.tdir >>= fun _ =>
          pure (Verdict.mk root u.1 u.2)) := by
  obtain ⟨o1, a1, h1⟩ := Res.eq_ok_of_why _ (check_types_total L img)
  rcases analyse_quiet L img with ⟨t, h2⟩ | h2
  swap
  · exfalso; apply hsafe
    simp only [validate, h1, h2, Res.bind_eq, Res.bind_ok, Res.bind_stop, Res.pre_stop, Res.why_stop]
  obtain ⟨o3, a3, h3⟩ := Res.eq_ok_of_why _ (check_bounds_total L t.direct .badDirect)
  obtain ⟨o4, a4, h4⟩ := Res.eq_ok_of_why _ (check_bounds_total L t.indirect .badIndirect)
  rcases Res.soft_cases (check_root_soft L img hn he) with ⟨root, h5⟩ | h5
  swap
  · exfalso; apply hsafe
    generalize (check_root L img true).out = o5 at h5
    simp only [validate, h1, h2, h3, h4, h5, Res.bind_eq, Res.bind_ok, Res.bind_stop, Res.pre_stop,
      Res.why_stop]
  rcases Res.soft_cases (check_format_soft L img he) with ⟨a6, h6⟩ | h6
  swap
  · exfalso; apply hsafe
    generalize (check_root L img true).out = o5 at h5
    generalize (check_format L img true).out = o6 at h6
    simp only [validate, h1, h2, h3, h4, h5, h6, Res.bind_eq, Res.bind_ok, Res.bind_stop,
      Res.pre_stop, Res.why_stop]
  obtain ⟨o7, a7, h7⟩ := Res.eq_ok_of_why _ (check_marked_total L (disk_bitmap L img) t.direct)
  obtain ⟨o8, a8, h8⟩ := Res.eq_ok_of_why _ (check_marked_total L (disk_bitmap L img) t.indirect)
  obtain ⟨o9, a9, h9⟩ := Res.eq_ok_of_why _ (check_residual_total L (residual L img t))
  obtain ⟨o10, a10, h10⟩ := Res.eq_ok_of_why _ (check_aliasing_total L t)
  obtain ⟨o11, u, h11⟩ := Res.eq_ok_of_why _ (check_usage_total L t)
  obtain ⟨o12, a12, h12⟩ := Res.eq_ok_of_why _ (check_nlink_total L img t)
  obtain ⟨o13, a13, h13⟩ := Res.eq_ok_of_why _ (check_dirlink_total L img t)
  generalize (check_root L img true).out = o5 at h5
  generalize (check_format L img true).out = o6 at h6
  refine ⟨t, root, u, h2, ⟨o5, h5⟩, ⟨o11, h11⟩, ?_⟩
  simp only [validate, early_out, h1, h2, h3, h4, h5, h6, h7, h8, h9, h10, h11, h12, h13,
    Res.bind_eq, Res.bind_ok, Res.pre_pre, Res.out_ok, List.nil_append, List.append_assoc]

/-! ## The run and the validation -/

theorem Res.silent_bind {α β : Type} {x : Res α} {f : α → Res β} (hx : x.out = [])
    (hf : ∀ a, (f a).out = []) : (x >>= f).out = [] := by
  cases x with
  | ok o a => simp at hx; subst hx; simpa using hf a
  | stop o s => simpa using hx

theorem assert_silent (c : Bool) : (assert c).out = [] := by cases c <;> rfl

theorem inside_silent (c : Bool) : (inside c).out = [] := by cases c <;> rfl

theorem get_nth_inode_silent (L : Layout) (n : Nat) : (get_nth_inode L n).out = [] :=
  Res.silent_bind (assert_silent _) (fun _ => rfl)

theorem get_nth_dirent_silent (L : Layout) (img : Image) (ip n : Nat) :
    (get_nth_dirent L img ip n).out = [] :=
  Res.silent_bind (assert_silent _) (fun _ => rfl)

theorem de_inum_silent (L : Layout) (img : Image) (de : Nat) : (de_inum L img de).out = [] :=
  (de_inum_quiet L img de).out

theorem streq_silent (L : Layout) (img : Image) (p : Nat) (s : List Nat) :
    (streq L img p s).out = [] :=
  (streq_quiet L img s p).out

theorem find_lost_found_silent (L : Layout) (img : Image) (root_ip : Nat) :
    ∀ xs : List Nat, (find_lost_found L img root_ip xs).out = []
  | [] => rfl
  | x :: xs => by
    unfold find_lost_found
    refine Res.silent_bind (get_nth_dirent_silent _ _ _ _) (fun de => ?_)
    refine Res.silent_bind (streq_silent _ _ _ _) (fun same => ?_)
    cases same
    · exact find_lost_found_silent L img root_ip xs
    · exact Res.silent_bind (de_inum_silent _ _ _) (fun inum =>
        Res.silent_bind (get_nth_inode_silent _ _) (fun _ => rfl))

theorem next_free_silent (L : Layout) (img : Image) :
    ∀ (xs : List Nat) (de : Nat), (next_free L img de xs).out = []
  | [], _ => rfl
  | _ :: xs, de => by
    unfold next_free
    refine Res.silent_bind (de_inum_silent _ _ _) (fun inum => ?_)
    split
    · rfl
    · exact next_free_silent L img xs _

theorem get_next_free_dirent_silent (L : Layout) (img : Image) (ip n : Nat) :
    (get_next_free_dirent L img ip n).out = [] := by
  unfold get_next_free_dirent
  split
  · rfl
  · exact Res.silent_bind (get_nth_dirent_silent _ _ _ _) (fun de => next_free_silent _ _ _ _)

theorem relocate_out (L : Layout) (used : Nat → Nat) (lf : Nat) :
    ∀ (xs : List Nat) (img : Image), ∀ m ∈ (relocate L used lf xs img).1.out, m = .lostFoundFull
  | [], _, m, h => by simp [relocate] at h
  | x :: xs, img, m, h => by
    unfold relocate at h
    split at h
    · exact relocate_out L used lf xs img m h
    · have hs := get_next_free_dirent_silent L img lf 0
      split at h
      · rename_i o s e
        rw [e] at hs; simp at hs; subst hs
        simp at h
      · simpa using h
      · exact relocate_out L used lf xs _ m h

/-- What the run writes: the lines of the validation, then at most one line of
the repair. -/
theorem main_stderr (L : Layout) (img : Image) (r : Bool) :
    ∃ extra, (main L img r).stderr = (validate L img r).out ++ extra ∧
      ∀ m ∈ extra, m = .noLostFound ∨ m = .lostFoundFull := by
  unfold main
  cases hv : validate L img r with
  | stop o s => exact ⟨[], by simp, by simp⟩
  | ok o v =>
    simp only [Res.out_ok]
    split
    · exact ⟨[], by simp, by simp⟩
    · split
      · exact ⟨[], by simp, by simp⟩
      · unfold repair
        have hs := find_lost_found_silent L img v.root_ip (upto 0 L.NDIRENT)
        split
        · rename_i o2 s e
          rw [e] at hs; simp at hs; subst hs
          exact ⟨[], by simp, by simp⟩
        · exact ⟨[.noLostFound], rfl, by simp⟩
        · rename_i lf e
          have hr := relocate_out L v.used lf (upto 0 L.NINODES) img
          split
          · rename_i o2 s img2 e2
            rw [e2] at hr
            exact ⟨o2, rfl, fun m hm => Or.inr (hr m (by simpa using hm))⟩
          · exact ⟨[], by simp, by simp⟩

/-- A line of the validation is a line of the run. -/
theorem mem_main_of_validate (L : Layout) (img : Image) (r : Bool) {m : Msg}
    (h : m ∈ (validate L img r).out) : m ∈ (main L img r).stderr := by
  obtain ⟨extra, e, _⟩ := main_stderr L img r
  rw [e]; exact List.mem_append_left _ h

/-- A line of the run other than the two of the repair is a line of the validation. -/
theorem mem_validate_of_main (L : Layout) (img : Image) (r : Bool) {m : Msg}
    (h : m ∈ (main L img r).stderr) (h1 : m ≠ .noLostFound) (h2 : m ≠ .lostFoundFull) :
    m ∈ (validate L img r).out := by
  obtain ⟨extra, e, he⟩ := main_stderr L img r
  rw [e] at h
  rcases List.mem_append.mp h with h | h
  · exact h
  · rcases he m h with h | h
    · exact absurd h h1
    · exact absurd h h2

/-- A validation that stops is the whole run. -/
theorem main_of_validate_stop (L : Layout) (img : Image) (r : Bool) {o : List Msg} {s : Stop}
    (h : validate L img r = .stop o s) :
    (main L img r).halt = some s ∧ (main L img r).stderr = o ∧ (main L img r).image = img := by
  unfold main; rw [h]; exact ⟨rfl, rfl, rfl⟩

theorem validate_defined (L : Layout) (img : Image) (r : Bool)
    (h : (main L img r).halt ≠ some .undefined) : (validate L img r).why ≠ some .undefined := by
  intro hv
  cases hx : validate L img r with
  | ok o v => rw [hx] at hv; simp at hv
  | stop o s =>
    rw [hx] at hv; simp at hv; subst hv
    exact h (main_of_validate_stop L img r hx).1

/-! ## Which pass writes which line -/

theorem Res.all_bind {α β : Type} {P : Msg → Prop} {x : Res α} {f : α → Res β}
    (hx : ∀ m ∈ x.out, P m) (hf : ∀ a, ∀ m ∈ (f a).out, P m) : ∀ m ∈ (x >>= f).out, P m := by
  intro m hm
  rcases Res.mem_out_bind.mp hm with h | ⟨o, a, _, h⟩
  · exact hx m h
  · exact hf a m h

theorem Res.all_of_silent {α : Type} {P : Msg → Prop} {x : Res α} (hx : x.out = []) :
    ∀ m ∈ x.out, P m := by
  rw [hx]; simp

theorem error_out (r : Bool) (m : Msg) : (error r m).out = [m] := by cases r <;> rfl

theorem all_error {P : Msg → Prop} (r : Bool) {m : Msg} (h : P m) :
    ∀ m2 ∈ (error r m).out, P m2 := by
  rw [error_out]; simpa using h

theorem all_ite {α : Type} {P : Msg → Prop} (c : Prop) [Decidable c] {x y : Res α}
    (hx : ∀ m ∈ x.out, P m) (hy : ∀ m ∈ y.out, P m) : ∀ m ∈ (if c then x else y).out, P m := by
  split <;> assumption

theorem all_pure {α : Type} {P : Msg → Prop} (a : α) : ∀ m ∈ (pure a : Res α).out, P m := by
  simp

theorem forM_all {P : Msg → Prop} {f : Nat → Res Unit} (xs : List Nat)
    (h : ∀ i ∈ xs, ∀ m ∈ (f i).out, P m) : ∀ m ∈ (xs.forM f).out, P m := by
  intro m hm
  obtain ⟨i, hi, h2⟩ := forM_out_mem xs hm
  exact h i hi m h2

theorem foldlM_all {σ : Type} {P : Msg → Prop} {f : σ → Nat → Res σ} (xs : List Nat) (s : σ)
    (h : ∀ s, ∀ i ∈ xs, ∀ m ∈ (f s i).out, P m) : ∀ m ∈ (xs.foldlM f s).out, P m := by
  intro m hm
  obtain ⟨s2, i, hi, h2⟩ := foldlM_out_mem xs s hm
  exact h s2 i hi m h2

theorem check_types_out (L : Layout) (img : Image) (r : Bool) :
    ∀ m ∈ (check_types L img r).out, m = .badInode := by
  unfold check_types
  refine forM_all _ (fun i _ => ?_)
  refine Res.all_bind (Res.all_of_silent (get_nth_inode_silent _ _)) (fun ip => ?_)
  exact all_ite _ (all_pure _) (all_error _ rfl)

theorem analyse_out (L : Layout) (img : Image) : (analyse L img).out = [] :=
  (analyse_quiet L img).out

theorem check_bounds_out (L : Layout) (r : Bool) (refs : Nat → Nat) (m0 : Msg) :
    ∀ m ∈ (check_bounds L r refs m0).out, m = m0 := by
  unfold check_bounds
  refine forM_all _ (fun i _ => ?_)
  exact all_ite _ (all_error _ rfl) (all_pure _)

theorem check_root_out (L : Layout) (img : Image) (r : Bool) :
    ∀ m ∈ (check_root L img r).out, m = .noRoot := by
  unfold check_root
  refine Res.all_bind (Res.all_of_silent (get_nth_inode_silent _ _)) (fun ip => ?_)
  refine Res.all_bind (all_ite _ (all_error _ rfl) (all_pure _)) (fun _ => ?_)
  refine Res.all_bind (Res.all_of_silent (get_nth_dirent_silent _ _ _ _)) (fun de => ?_)
  refine Res.all_bind (Res.all_of_silent (de_inum_silent _ _ _)) (fun a => ?_)
  refine Res.all_bind (Res.all_of_silent (de_inum_silent _ _ _)) (fun b => ?_)
  refine Res.all_bind (all_ite _ (all_error _ rfl) (all_pure _)) (fun _ => ?_)
  exact all_pure _

theorem check_format_out (L : Layout) (img : Image) (r : Bool) :
    ∀ m ∈ (check_format L img r).out, m = .badFormat := by
  unfold check_format
  refine forM_all _ (fun i _ => ?_)
  refine Res.all_bind (Res.all_of_silent (get_nth_inode_silent _ _)) (fun ip => ?_)
  refine all_ite _ ?_ (all_pure _)
  refine Res.all_bind (Res.all_of_silent (get_nth_dirent_silent _ _ _ _)) (fun dp0 => ?_)
  refine Res.all_bind (Res.all_of_silent (de_inum_silent _ _ _)) (fun inum => ?_)
  refine Res.all_bind (Res.all_of_silent (get_nth_dirent_silent _ _ _ _)) (fun dp1 => ?_)
  refine Res.all_bind ?_ (fun bad => all_ite _ (all_error _ rfl) (all_pure _))
  refine all_ite _ (all_pure _) ?_
  refine Res.all_bind (Res.all_of_silent (streq_silent _ _ _ _)) (fun a => ?_)
  refine all_ite _ (all_pure _) ?_
  exact Res.all_bind (Res.all_of_silent (streq_silent _ _ _ _)) (fun b => all_pure _)

theorem check_marked_out (L : Layout) (r : Bool) (bitmap refs : Nat → Nat) :
    ∀ m ∈ (check_marked L r bitmap refs).out, m = .usedButFree := by
  unfold check_marked
  refine forM_all _ (fun i _ => ?_)
  exact all_ite _ (all_error _ rfl) (all_pure _)

theorem check_residual_out (L : Layout) (r : Bool) (ub : Nat → Nat) :
    ∀ m ∈ (check_residual L r ub).out, m = .markedNotUsed := by
  unfold check_residual
  refine Res.all_bind (all_ite _ (all_error _ rfl) (all_pure _)) (fun _ => ?_)
  refine forM_all _ (fun i _ => ?_)
  exact all_ite _ (all_error _ rfl) (all_pure _)

theorem check_aliasing_out (L : Layout) (r : Bool) (t : Tables) :
    ∀ m ∈ (check_aliasing L r t).out, m = .directTwice ∨ m = .indirectTwice := by
  unfold check_aliasing
  refine Res.all_bind ?_ (fun _ => ?_)
  · refine forM_all _ (fun i _ => ?_)
    exact all_ite _ (all_error _ (Or.inl rfl)) (all_pure _)
  · refine forM_all _ (fun i _ => ?_)
    exact all_ite _ (all_error _ (Or.inr rfl)) (all_pure _)

theorem check_usage_out (L : Layout) (r : Bool) (t : Tables) :
    ∀ m ∈ (check_usage L r t).out, m = .notFound ∨ m = .referredFree := by
  unfold check_usage
  refine foldlM_all _ _ (fun s i _ => ?_)
  refine Res.all_bind (all_ite _ (all_pure _) (all_pure _)) (fun used => ?_)
  refine Res.all_bind ?_ (fun req => ?_)
  · refine all_ite _ ?_ (all_pure _)
    exact Res.all_bind (all_error _ (Or.inl rfl)) (fun _ => all_pure _)
  · refine Res.all_bind (all_ite _ (all_error _ (Or.inr rfl)) (all_pure _)) (fun _ => ?_)
    exact all_pure _

theorem check_nlink_out (L : Layout) (img : Image) (r : Bool) (t : Tables) :
    ∀ m ∈ (check_nlink L img r t).out, m = .badRefCount := by
  unfold check_nlink
  refine forM_all _ (fun i _ => ?_)
  refine Res.all_bind (Res.all_of_silent (get_nth_inode_silent _ _)) (fun ip => ?_)
  exact all_ite _ (all_error _ rfl) (all_pure _)

theorem check_dirlink_out (L : Layout) (img : Image) (r : Bool) (t : Tables) :
    ∀ m ∈ (check_dirlink L img r t).out, m = .dirTwice := by
  unfold check_dirlink
  refine forM_all _ (fun i _ => ?_)
  refine Res.all_bind (Res.all_of_silent (get_nth_inode_silent _ _)) (fun ip => ?_)
  exact all_ite _ (all_error _ rfl) (all_pure _)

theorem parent_names_silent (L : Layout) (img : Image) (parent_ip i : Nat) :
    (parent_names L img parent_ip i).out = [] := by
  have h : ∀ m ∈ (parent_names L img parent_ip i).out, False := by
    unfold parent_names
    refine foldlM_all _ _ (fun s j _ => ?_)
    refine Res.all_bind (Res.all_of_silent (get_nth_dirent_silent _ _ _ _)) (fun de => ?_)
    exact Res.all_bind (Res.all_of_silent (de_inum_silent _ _ _)) (fun a => all_pure _)
  exact List.eq_nil_iff_forall_not_mem.mpr (fun m hm => h m hm)

theorem check_parent_out (L : Layout) (img : Image) (r : Bool) (i : Nat) :
    ∀ m ∈ (check_parent L img r i).out, m = .parentNotDir ∨ m = .parentMismatch := by
  unfold check_parent
  refine Res.all_bind (Res.all_of_silent (get_nth_inode_silent _ _)) (fun ip => ?_)
  refine all_ite _ (all_pure _) ?_
  refine Res.all_bind (Res.all_of_silent (get_nth_dirent_silent _ _ _ _)) (fun de => ?_)
  refine Res.all_bind (Res.all_of_silent (de_inum_silent _ _ _)) (fun p => ?_)
  refine Res.all_bind (Res.all_of_silent (get_nth_inode_silent _ _)) (fun pip => ?_)
  refine Res.all_bind (all_ite _ (all_error _ (Or.inl rfl)) (all_pure _)) (fun _ => ?_)
  refine Res.all_bind (Res.all_of_silent (parent_names_silent _ _ _ _)) (fun b => ?_)
  exact all_ite _ (all_error _ (Or.inr rfl)) (all_pure _)

theorem check_parents_out (L : Layout) (img : Image) (r : Bool) :
    ∀ m ∈ (check_parents L img r).out, m = .parentNotDir ∨ m = .parentMismatch := by
  unfold check_parents
  exact forM_all _ (fun i _ => check_parent_out L img r i)

theorem scan_children_silent (L : Layout) (img : Image)
    (visit : (Nat → Nat) → Nat → Res (Bool × (Nat → Nat)))
    (hv : ∀ tdir inum, (visit tdir inum).out = []) (ip : Nat) :
    ∀ (xs : List Nat) (tdir : Nat → Nat), (scan_children L img visit ip xs tdir).out = []
  | [], _ => rfl
  | x :: xs, tdir => by
    unfold scan_children
    refine Res.silent_bind (get_nth_dirent_silent _ _ _ _) (fun de => ?_)
    refine Res.silent_bind (de_inum_silent _ _ _) (fun inum => ?_)
    refine Res.silent_bind (hv _ _) (fun r => ?_)
    split
    · rfl
    · exact scan_children_silent L img visit hv ip xs _

theorem has_directory_cycle_silent (L : Layout) (img : Image) :
    ∀ (fuel : Nat) (tdir : Nat → Nat) (inum : Nat),
      (has_directory_cycle L img fuel tdir inum).out = []
  | 0, _, _ => rfl
  | fuel + 1, tdir, inum => by
    unfold has_directory_cycle
    refine Res.silent_bind (get_nth_inode_silent _ _) (fun ip => ?_)
    split
    · rfl
    · split
      · rfl
      · exact scan_children_silent L img _ (has_directory_cycle_silent L img fuel) ip _ _

theorem check_tree_out (L : Layout) (img : Image) (r : Bool) (tdir : Nat → Nat) :
    ∀ m ∈ (check_tree L img r tdir).out, m = .cycle ∨ m = .inaccessible := by
  unfold check_tree
  refine Res.all_bind (Res.all_of_silent (has_directory_cycle_silent _ _ _ _ _)) (fun x => ?_)
  refine Res.all_bind (all_ite _ (all_error _ (Or.inl rfl)) (all_pure _)) (fun _ => ?_)
  refine forM_all _ (fun i _ => ?_)
  exact all_ite _ (all_error _ (Or.inr rfl)) (all_pure _)

/-! ## The residual bitmap (lines 192-212) -/

/-- The lines of the passes after the link passes. -/
theorem late_out (L : Layout) (img : Image) (r : Bool) (tdir : Nat → Nat) (v : Verdict) :
    ∀ m ∈ (check_parents L img r >>= fun _ => check_tree L img r tdir >>= fun _ =>
        (pure v : Res Verdict)).out,
      m = .parentNotDir ∨ m = .parentMismatch ∨ m = .cycle ∨ m = .inaccessible := by
  refine Res.all_bind ?_ (fun _ => Res.all_bind ?_ (fun _ => all_pure _))
  · intro m hm
    rcases check_parents_out L img r m hm with h | h
    · exact Or.inl h
    · exact Or.inr (Or.inl h)
  · intro m hm
    rcases check_tree_out L img r tdir m hm with h | h
    · exact Or.inr (Or.inr (Or.inl h))
    · exact Or.inr (Or.inr (Or.inr h))

theorem mem_check_residual (L : Layout) (ub : Nat → Nat) :
    Msg.markedNotUsed ∈ (check_residual L true ub).out ↔
      ub 7 ≠ 7 ∨ ∃ i, 8 ≤ i ∧ i < L.BMAPSIZE ∧ ub i ≠ 0 := by
  unfold check_residual
  rw [Res.mem_out_bind]
  constructor
  · rintro (h | ⟨o, a, _, h⟩)
    · left
      by_contra hc
      rw [if_neg (not_not.mpr hc)] at h
      simp at h
    · right
      obtain ⟨i, hi, hm⟩ := forM_out_mem _ h
      refine ⟨i, (mem_upto.mp hi).1, (mem_upto.mp hi).2, ?_⟩
      intro hc
      rw [if_neg (not_not.mpr hc)] at hm
      simp at hm
  · intro h
    by_cases h7 : ub 7 ≠ 7
    · left; rw [if_pos h7]; simp
    · right
      rcases h with h | ⟨i, h8, hb, hi⟩
      · exact absurd h h7
      · refine ⟨[], (), by rw [if_neg h7]; rfl, ?_⟩
        refine forM_out_of_total _ (fun j _ => ?_) i (mem_upto.mpr ⟨h8, hb⟩) ?_
        · split <;> rfl
        · rw [if_pos hi]; simp

theorem mem_early_out_marked (L : Layout) (img : Image) (t : Tables) :
    Msg.markedNotUsed ∈ early_out L img t ↔
      Msg.markedNotUsed ∈ (check_residual L true (residual L img t)).out := by
  unfold early_out
  simp only [List.mem_append]
  constructor
  · intro h
    rcases h with (((((((((((h | h) | h) | h) | h) | h) | h) | h) | h) | h) | h) | h)
    · exact absurd (check_types_out _ _ _ _ h) (by decide)
    · exact absurd (check_bounds_out _ _ _ _ _ h) (by decide)
    · exact absurd (check_bounds_out _ _ _ _ _ h) (by decide)
    · exact absurd (check_root_out _ _ _ _ h) (by decide)
    · exact absurd (check_format_out _ _ _ _ h) (by decide)
    · exact absurd (check_marked_out _ _ _ _ _ h) (by decide)
    · exact absurd (check_marked_out _ _ _ _ _ h) (by decide)
    · exact h
    · rcases check_aliasing_out _ _ _ _ h with h | h <;> exact absurd h (by decide)
    · rcases check_usage_out _ _ _ _ h with h | h <;> exact absurd h (by decide)
    · exact absurd (check_nlink_out _ _ _ _ _ h) (by decide)
    · exact absurd (check_dirlink_out _ _ _ _ _ h) (by decide)
  · intro h
    exact Or.inl (Or.inl (Or.inl (Or.inl (Or.inr h))))

/-- C10. Marked implies used: in repair mode, on a run that stays within defined
behaviour, a block of the data region whose bit is set in the persisted bitmap
and whose direct and indirect counts are both zero makes the run report
"bitmap marks block in use but it is not in use"; that line is reported only
if the residual bitmap is not byte 7 equal to 7 and bytes 8 to BMAPSIZE - 1
equal to 0; and the residual bitmap is the persisted bitmap with the bit
cleared for every address below FSSIZE that has a non-zero count. -/
theorem marked_implies_used (L : Layout) (img : Image) (hd : 59 ≤ L.DATASTART)
    (hf : L.FSSIZE ≤ 8 * L.BMAPSIZE) (hn : 2 ≤ L.NINODES) (he : 2 ≤ L.NDIRENT)
    (hsafe : (main L img true).halt ≠ some .undefined) :
    ∃ t, analyse L img = .ok [] t ∧
      (∀ a, L.DATASTART ≤ a → a < L.FSSIZE → is_nth_bit_1 (disk_bitmap L img) a = true →
        t.direct a = 0 → t.indirect a = 0 → Msg.markedNotUsed ∈ (main L img true).stderr) ∧
      (Msg.markedNotUsed ∈ (main L img true).stderr →
        residual L img t 7 ≠ 7 ∨ ∃ i, 8 ≤ i ∧ i < L.BMAPSIZE ∧ residual L img t i ≠ 0) ∧
      (∀ n, is_nth_bit_1 (residual L img t) n =
        (is_nth_bit_1 (disk_bitmap L img) n &&
          !(decide (n < L.FSSIZE) && (decide (t.direct n ≠ 0) || decide (t.indirect n ≠ 0))))) := by
  obtain ⟨t, root, u, ht, _, _, hv⟩ := validate_reach L img hn he (validate_defined L img true hsafe)
  refine ⟨t, ht, ?_, ?_, is_nth_bit_1_residual L img t⟩
  · intro a ha1 ha2 hbit hd0 hi0
    apply mem_main_of_validate
    rw [hv, Res.out_pre]
    apply List.mem_append_left
    rw [mem_early_out_marked, mem_check_residual]
    have hb : is_nth_bit_1 (residual L img t) a = true := by
      rw [is_nth_bit_1_residual, hbit]; simp [hd0, hi0]
    rw [is_nth_bit_1_eq] at hb
    by_cases h7 : a / 8 = 7
    · left
      intro h
      rw [h7, h] at hb
      have h3 : 3 ≤ a % 8 := by omega
      have h8 : a % 8 < 8 := Nat.mod_lt _ (by decide)
      have : ∀ k, 3 ≤ k → k < 8 → Nat.testBit 7 k = false := by decide
      rw [this _ h3 h8] at hb
      exact Bool.noConfusion hb
    · right
      refine ⟨a / 8, by omega, by omega, ?_⟩
      intro h
      rw [h] at hb
      simp at hb
  · intro h
    have h2 := mem_validate_of_main L img true h (by decide) (by decide)
    rw [hv, Res.out_pre] at h2
    rcases List.mem_append.mp h2 with h3 | h3
    · rw [mem_early_out_marked, mem_check_residual] at h3
      exact h3
    · rcases late_out L img true t.tdir _ _ h3 with h | h | h | h <;> exact absurd h (by decide)

/-! ## The reference tables -/

theorem Res.bind_eq_ok {α β : Type} {x : Res α} {f : α → Res β} {o : List Msg} {b : β}
    (h : x >>= f = .ok o b) : ∃ o1 a o2, x = .ok o1 a ∧ f a = .ok o2 b ∧ o = o1 ++ o2 := by
  cases x with
  | ok o1 a =>
    cases hf : f a with
    | ok o2 b2 =>
      simp [hf] at h
      exact ⟨o1, a, o2, rfl, by rw [hf, h.2], h.1.symm⟩
    | stop o2 s => simp [hf] at h
  | stop o1 s => simp at h

/-- A quiet computation that returns: its value. -/
theorem Res.Quiet.eq_ok {α : Type} {x : Res α} (hq : Quiet x) {o : List Msg} {a : α}
    (h : x = .ok o a) : x = .ok [] a := by
  rcases hq with ⟨b, hb⟩ | hb
  · rw [hb] at h; cases h; exact hb
  · rw [hb] at h; cases h

theorem bump_ok {size modulus : Nat} {t t2 : Nat → Nat} {k : Nat} {o : List Msg}
    (h : bump size modulus t k = .ok o t2) :
    k < size ∧ t2 = fun a => if a = k then (t a + 1) % modulus else t a := by
  unfold bump at h
  by_cases hk : k < size
  · simp [hk] at h
    exact ⟨hk, h.2.symm⟩
  · simp [hk] at h

theorem de_inum_ok {L : Layout} {img : Image} {de v : Nat} {o : List Msg}
    (h : de_inum L img de = .ok o v) : v = xshort (ld16 img de) := by
  unfold de_inum at h
  by_cases hk : de + 2 ≤ L.IMGSIZE
  · simp [hk] at h
    exact h.2.symm
  · simp [hk] at h

/-- A loop with state that returns, by an invariant over the turns taken. -/
theorem foldlM_inv {σ : Type} {f : σ → Nat → Res σ} (I : List Nat → σ → Prop)
    (step : ∀ (done : List Nat) (x : Nat) (s s2 : σ) (o : List Msg),
      I done s → f s x = .ok o s2 → I (done ++ [x]) s2) :
    ∀ (xs done : List Nat) (s s2 : σ) (o : List Msg),
      I done s → xs.foldlM f s = .ok o s2 → I (done ++ xs) s2
  | [], done, s, s2, o, hI, h => by
    rw [foldlM_nil_eq] at h
    cases h
    simpa using hI
  | x :: xs, done, s, s2, o, hI, h => by
    rw [foldlM_cons_eq] at h
    obtain ⟨o1, a, o2, h1, h2, _⟩ := Res.bind_eq_ok h
    have := foldlM_inv I step xs (done ++ [x]) a s2 o2 (step done x s a o1 hI h1) h2
    simpa using this

/-- The entries of one directory, lines 100-105: every count stays a byte, and
the count of `n ≥ 1` grows by the number of slots holding `n`. -/
theorem count_dirents_ok (L : Layout) (img : Image) (d : Nat) (r r2 : Nat → Nat) (o : List Msg)
    (hr : ∀ n, r n < 256) (h0 : r 0 = 0)
    (h : count_dirents L img (inode_at L d) r = .ok o r2) :
    (∀ n, r2 n < 256) ∧ r2 0 = 0 ∧
      ∀ n, 1 ≤ n → r2 n = (r n + slots_naming L img d n) % 256 := by
  unfold count_dirents at h
  have key := foldlM_inv
    (fun done (s : Nat → Nat) => (∀ n, s n < 256) ∧ s 0 = 0 ∧
      ∀ n, 1 ≤ n → s n = (r n + done.countP (fun j => decide (slot_inum L img d j = n))) % 256)
    ?_ (upto 2 L.NDIRENT) [] r r2 o ?_ h
  · simpa [slots_naming] using key
  · intro done x s s2 o2 ⟨hb, hz, hc⟩ hs
    obtain ⟨o1, de, o3, e1, e2, _⟩ := Res.bind_eq_ok hs
    obtain ⟨o4, inum, o5, e3, e4, _⟩ := Res.bind_eq_ok e2
    have hde : de = slot_at L img d x := by
      unfold get_nth_dirent at e1
      by_cases hx : x < L.NDIRENT
      · simp [hx] at e1
        rw [← e1.2]; rfl
      · simp [hx] at e1
    have hin : inum = slot_inum L img d x := by
      rw [de_inum_ok e3, hde]; rfl
    by_cases hz2 : inum = 0
    · simp [hz2] at e4
      obtain ⟨_, rfl⟩ := e4
      refine ⟨hb, hz, fun n hn => ?_⟩
      rw [hc n hn, List.countP_append]
      have : slot_inum L img d x ≠ n := by rw [← hin, hz2]; omega
      simp [this]
    · simp only [ne_eq, hz2, not_false_eq_true, if_true] at e4
      obtain ⟨_, rfl⟩ := bump_ok e4
      refine ⟨fun n => ?_, ?_, fun n hn => ?_⟩
      · by_cases hn : n = inum
        · simp only [hn, if_true]; exact Nat.mod_lt _ (by decide)
        · simp only [hn, if_false]; exact hb n
      · simp [Ne.symm hz2, hz]
      · rw [List.countP_append]
        by_cases hn2 : n = inum
        · subst hn2
          simp only [if_true, hc n hn, ← hin, List.countP_cons, List.countP_nil, decide_True,
            Nat.zero_add]
          omega
        · have : slot_inum L img d x ≠ n := by rw [← hin]; exact Ne.symm hn2
          simp [hn2, this, hc n hn]
  · exact ⟨hr, h0, fun n _ => by simp [Nat.mod_eq_of_lt (hr n)]⟩

theorem is_dir_itype {L : Layout} {img : Image} {i : Nat} (h : is_dir L img i = true) :
    itype L img i = L.T_DIR := by
  simpa [is_dir] using h

/-- What one turn of the reference loop does to the inode tables. -/
theorem scan_inode_ok (L : Layout) (img : Image) (t t2 : Tables) (i : Nat) (o : List Msg)
    (hi : i < L.NINODES) (h : scan_inode L img t i = .ok o t2) :
    (itype L img i = 0 → t2 = t) ∧
    (itype L img i ≠ 0 → t2.used = set_nth_bit_1 t.used i ∧
      (is_dir L img i = true → t2.tdir = set_nth_bit_1 t.tdir i ∧
        ∃ o2, count_dirents L img (inode_at L i) t.irefs = .ok o2 t2.irefs) ∧
      (is_dir L img i = false → t2.tdir = t.tdir ∧ t2.irefs = t.irefs)) := by
  unfold scan_inode at h
  rw [get_nth_inode_of_lt L hi] at h
  simp only [Res.bind_eq, Res.bind_ok, Res.pre_nil] at h
  change (if itype L img i = 0 then _ else _) = _ at h
  by_cases hz : itype L img i = 0
  · rw [if_pos hz] at h
    simp at h
    exact ⟨fun _ => h.2.symm, fun hc => absurd hz hc⟩
  · rw [if_neg hz] at h
    refine ⟨fun hc => absurd hc hz, fun _ => ?_⟩
    obtain ⟨o1, t1, o2, e1, e2, _⟩ := Res.bind_eq_ok h
    obtain ⟨o3, d, o4, e3, e4, _⟩ := Res.bind_eq_ok e2
    obtain ⟨o5, d2, o6, e5, e6, _⟩ := Res.bind_eq_ok e4
    obtain ⟨o7, ind, o8, e7, e8, _⟩ := Res.bind_eq_ok e6
    simp at e8
    obtain ⟨_, rfl⟩ := e8
    change (if itype L img i = L.T_DIR then _ else _) = _ at e1
    by_cases hd : itype L img i = L.T_DIR
    · rw [if_pos hd] at e1
      obtain ⟨o9, r, o10, e9, e10, _⟩ := Res.bind_eq_ok e1
      simp at e10
      obtain ⟨_, rfl⟩ := e10
      refine ⟨rfl, fun _ => ⟨rfl, o9, e9⟩, fun hc => ?_⟩
      simp [is_dir, hd] at hc
    · rw [if_neg hd] at e1
      simp at e1
      obtain ⟨_, rfl⟩ := e1
      refine ⟨rfl, fun hc => absurd (is_dir_itype hc) hd, fun _ => ⟨rfl, rfl⟩⟩

theorem entries_in_append (L : Layout) (img : Image) (ds : List Nat) (x n : Nat) :
    entries_in L img (ds ++ [x]) n =
      entries_in L img ds n + (if is_dir L img x then slots_naming L img x n else 0) := by
  simp [entries_in]

/-- The inode tables after the reference loop (lines 86-130). -/
theorem analyse_ok (L : Layout) (img : Image) (t : Tables) (o : List Msg) (hT : L.T_DIR ≠ 0)
    (h : analyse L img = .ok o t) :
    (∀ n, is_nth_bit_1 t.used n = decide (n < L.NINODES ∧ itype L img n ≠ 0)) ∧
    (∀ n, is_nth_bit_1 t.tdir n = decide (n < L.NINODES ∧ is_dir L img n = true)) ∧
    (∀ n, t.irefs n < 256) ∧ t.irefs 0 = 0 ∧
    (∀ n, 1 ≤ n → t.irefs n = (entry_count L img n + (if n = 1 then 1 else 0)) % 256) ∧
    1 < L.NINODES := by
  unfold analyse at h
  obtain ⟨o1, r, o2, e1, e2, _⟩ := Res.bind_eq_ok h
  obtain ⟨h1, rfl⟩ := bump_ok e1
  have key := foldlM_inv
    (fun done (s : Tables) => (∀ i ∈ done, i < L.NINODES) →
      (∀ n, is_nth_bit_1 s.used n = decide (n ∈ done ∧ itype L img n ≠ 0)) ∧
      (∀ n, is_nth_bit_1 s.tdir n = decide (n ∈ done ∧ is_dir L img n = true)) ∧
      (∀ n, s.irefs n < 256) ∧ s.irefs 0 = 0 ∧
      (∀ n, 1 ≤ n → s.irefs n = (entries_in L img done n + (if n = 1 then 1 else 0)) % 256))
    ?_ (upto 0 L.NINODES) [] _ t o2 ?_ e2
  · have := key (by intro i hi; exact (mem_upto.mp (by simpa using hi)).2)
    simp only [List.nil_append, mem_upto, Nat.zero_le, true_and] at this
    exact ⟨this.1, this.2.1, this.2.2.1, this.2.2.2.1, this.2.2.2.2, h1⟩
  · intro done x s s2 o3 hI hs hdone
    have hx : x < L.NINODES := hdone x (by simp)
    obtain ⟨hu, hd, hb, hz, hc⟩ := hI (fun i hi => hdone i (by simp [hi]))
    obtain ⟨hzero, hnz⟩ := scan_inode_ok L img s s2 x o3 hx hs
    by_cases hty : itype L img x = 0
    · have := hzero hty
      subst this
      have hnd : is_dir L img x = false := by
        cases hc2 : is_dir L img x
        · rfl
        · exact absurd ((is_dir_itype hc2).symm.trans hty) hT
      refine ⟨fun n => ?_, fun n => ?_, hb, hz, fun n hn => ?_⟩
      · rw [hu n]
        by_cases hnx : n = x
        · subst hnx; simp [hty]
        · simp [hnx]
      · rw [hd n]
        by_cases hnx : n = x
        · subst hnx; simp [hnd]
        · simp [hnx]
      · rw [hc n hn, entries_in_append, hnd]; simp
    · obtain ⟨e1, e2, e3⟩ := hnz hty
      have hused : ∀ n, is_nth_bit_1 s2.used n = decide (n ∈ done ++ [x] ∧ itype L img n ≠ 0) := by
        intro n
        rw [e1, is_nth_bit_1_set_1, hu n]
        by_cases hnx : n = x
        · subst hnx; simp [hty]
        · simp [hnx]
      cases hdx : is_dir L img x
      · obtain ⟨e4, e5⟩ := e3 hdx
        refine ⟨hused, fun n => ?_, by rw [e5]; exact hb, by rw [e5]; exact hz, fun n hn => ?_⟩
        · rw [e4, hd n]
          by_cases hnx : n = x
          · subst hnx; simp [hdx]
          · simp [hnx]
        · rw [e5, hc n hn, entries_in_append, hdx]; simp
      · obtain ⟨e4, o4, e5⟩ := e2 hdx
        obtain ⟨c1, c2, c3⟩ := count_dirents_ok L img x s.irefs s2.irefs o4 hb hz e5
        refine ⟨hused, fun n => ?_, c1, c2, fun n hn => ?_⟩
        · rw [e4, is_nth_bit_1_set_1, hd n]
          by_cases hnx : n = x
          · subst hnx; simp [hdx]
          · simp [hnx]
        · rw [c3 n hn, hc n hn, entries_in_append, hdx]
          simp only [if_true]
          omega
  · intro _
    refine ⟨fun n => by simp [Tables.zero, is_nth_bit_1_zero],
      fun n => by simp [Tables.zero, is_nth_bit_1_zero], fun n => ?_, by simp [Tables.zero],
      fun n hn => ?_⟩
    · simp only [Tables.zero]
      split <;> simp
    · simp only [Tables.zero, entries_in, List.map_nil, List.sum_nil, Nat.zero_add]
      by_cases hn1 : n = 1 <;> simp [hn1]

/-! ## Usage and link counts (lines 226-246) -/

theorem bit_clear_if (bm : Nat → Nat) (x n : Nat) (c : Bool) :
    is_nth_bit_1 (if (is_nth_bit_1 bm x && c) = true then set_nth_bit_0 bm x else bm) n =
      (is_nth_bit_1 bm n && !(decide (n = x) && c)) := by
  cases c
  · simp
  · cases hx : is_nth_bit_1 bm x
    · by_cases hn : n = x
      · subst hn; simp [hx]
      · simp [hn]
    · simp only [Bool.and_self, if_true, is_nth_bit_1_set_0]
      by_cases hn : n = x
      · subst hn; simp
      · simp [hn]

theorem pure_eq_ok {α : Type} {a b : α} {o : List Msg} (h : (pure a : Res α) = .ok o b) :
    a = b := by
  cases h; rfl

/-- The state of the usage loop: bits are cleared for the referenced inodes met
so far, `repair_required` is set once an unreferenced used inode is met; without
`-r` the loop returns only if it met none. -/
theorem check_usage_ok (L : Layout) (r : Bool) (t : Tables) (o : List Msg)
    (u : (Nat → Nat) × Bool) (h : check_usage L r t = .ok o u) :
    (∀ n, is_nth_bit_1 u.1 n =
      (is_nth_bit_1 t.used n && !(decide (n < L.NINODES) && decide (t.irefs n > 0)))) ∧
    (u.2 = true ↔ ∃ i, i < L.NINODES ∧ is_nth_bit_1 t.used i = true ∧ t.irefs i = 0) ∧
    (r = false → ∀ i, i < L.NINODES → ¬(is_nth_bit_1 t.used i = true ∧ t.irefs i = 0)) := by
  unfold check_usage at h
  have key := foldlM_inv
    (fun done (s : (Nat → Nat) × Bool) =>
      (∀ n, is_nth_bit_1 s.1 n =
        (is_nth_bit_1 t.used n && !(decide (n ∈ done) && decide (t.irefs n > 0)))) ∧
      (s.2 = true ↔ ∃ i, i ∈ done ∧ is_nth_bit_1 t.used i = true ∧ t.irefs i = 0) ∧
      (r = false → ∀ i, i ∈ done → ¬(is_nth_bit_1 t.used i = true ∧ t.irefs i = 0)))
    ?_ (upto 0 L.NINODES) [] (t.used, false) u o ?_ h
  · simpa [mem_upto] using key
  · intro done x s s2 o2 ⟨hb, hq, hs⟩ hx
    obtain ⟨o0, used, o00, e0, e00, _⟩ := Res.bind_eq_ok hx
    obtain ⟨o3, req, o4, e1, e2, _⟩ := Res.bind_eq_ok e00
    obtain ⟨o5, _, o6, e3, e4, _⟩ := Res.bind_eq_ok e2
    have e5 := pure_eq_ok e4
    subst e5
    have eused : used = (if (is_nth_bit_1 s.1 x && decide (t.irefs x > 0)) = true
        then set_nth_bit_0 s.1 x else s.1) := by
      by_cases hc : (is_nth_bit_1 s.1 x && decide (t.irefs x > 0)) = true
      · rw [if_pos hc] at e0 ⊢
        exact (pure_eq_ok e0).symm
      · rw [if_neg hc] at e0 ⊢
        exact (pure_eq_ok e0).symm
    subst eused
    have hbx : is_nth_bit_1 s.1 x = (is_nth_bit_1 t.used x &&
        !(decide (x ∈ done) && decide (t.irefs x > 0))) := hb x
    refine ⟨fun n => ?_, ?_, ?_⟩
    · show is_nth_bit_1 (if (is_nth_bit_1 s.1 x && decide (t.irefs x > 0)) = true
        then set_nth_bit_0 s.1 x else s.1) n = _
      rw [bit_clear_if, hb n]
      by_cases hnx : n = x
      · subst hnx
        cases decide (t.irefs n > 0) <;> simp
      · simp [hnx]
    · show req = true ↔ _
      by_cases hr : t.irefs x > 0
      · have e1' : req = s.2 := by
          have : decide (t.irefs x > 0) = true := by simpa using hr
          rw [this] at e1
          simp only [Bool.not_true, Bool.and_false, Bool.false_eq_true, if_false] at e1
          exact (pure_eq_ok e1).symm
        rw [e1', hq]
        constructor
        · rintro ⟨i, hi, h1, h2⟩; exact ⟨i, by simp [hi], h1, h2⟩
        · rintro ⟨i, hi, h1, h2⟩
          rcases List.mem_append.mp hi with hi | hi
          · exact ⟨i, hi, h1, h2⟩
          · simp at hi; subst hi; omega
      · have hr0 : t.irefs x = 0 := by omega
        have hd : decide (t.irefs x > 0) = false := by simpa using hr
        have hbx2 : is_nth_bit_1 s.1 x = is_nth_bit_1 t.used x := by
          rw [hbx, hd]; simp
        rw [hd, hbx2] at e1
        cases hux : is_nth_bit_1 t.used x
        · rw [hux] at e1
          simp only [Bool.false_and, Bool.false_eq_true, if_false] at e1
          rw [← pure_eq_ok e1, hq]
          constructor
          · rintro ⟨i, hi, h1, h2⟩; exact ⟨i, by simp [hi], h1, h2⟩
          · rintro ⟨i, hi, h1, h2⟩
            rcases List.mem_append.mp hi with hi | hi
            · exact ⟨i, hi, h1, h2⟩
            · simp at hi; subst hi; rw [hux] at h1; exact Bool.noConfusion h1
        · rw [hux] at e1
          simp only [Bool.not_false, Bool.and_self, if_true] at e1
          obtain ⟨o7, _, o8, _, e6, _⟩ := Res.bind_eq_ok e1
          rw [← pure_eq_ok e6]
          simp only [true_iff]
          exact ⟨x, by simp, hux, hr0⟩
    · intro hrf i hi
      rcases List.mem_append.mp hi with hi | hi
      · exact hs hrf i hi
      · simp at hi; subst hi
        intro ⟨hc, h0⟩
        subst hrf
        have hd : decide (t.irefs i > 0) = false := by simp [h0]
        have hbx2 : is_nth_bit_1 s.1 i = true := by
          rw [hbx, hd, hc]; simp
        rw [hd, hbx2] at e1
        simp only [Bool.not_false, Bool.and_self, if_true] at e1
        obtain ⟨o7, _, o8, e6, _, _⟩ := Res.bind_eq_ok e1
        simp at e6
  · refine ⟨fun n => by simp, by simp, by simp⟩

theorem mem_check_nlink (L : Layout) (img : Image) (t : Tables) :
    Msg.badRefCount ∈ (check_nlink L img true t).out ↔
      ∃ i, i < L.NINODES ∧ itype L img i = L.T_FILE ∧
        xshort (dnlink img (inode_at L i)) ≠ t.irefs i := by
  unfold check_nlink
  constructor
  · intro h
    obtain ⟨i, hi, hm⟩ := forM_out_mem _ h
    have hi2 := (mem_upto.mp hi).2
    rw [get_nth_inode_of_lt L hi2] at hm
    simp only [Res.bind_eq, Res.bind_ok, Res.pre_nil] at hm
    refine ⟨i, hi2, ?_⟩
    by_contra hc
    unfold itype at hc
    rw [if_neg hc] at hm
    simp at hm
  · rintro ⟨i, hi, h1, h2⟩
    refine forM_out_of_total _ (fun j hj => ?_) i (mem_upto.mpr ⟨Nat.zero_le _, hi⟩) ?_
    · rw [get_nth_inode_of_lt L (mem_upto.mp hj).2]
      simp only [Res.bind_eq, Res.bind_ok, Res.pre_nil]
      split <;> rfl
    · rw [get_nth_inode_of_lt L hi]
      simp only [Res.bind_eq, Res.bind_ok, Res.pre_nil]
      unfold itype at h1
      rw [if_pos ⟨h1, h2⟩]
      simp

theorem entries_in_eq_zero (L : Layout) (img : Image) (ds : List Nat) (n : Nat) :
    entries_in L img ds n = 0 ↔
      ∀ d, d ∈ ds → is_dir L img d = true → ∀ j, 2 ≤ j → j < L.NDIRENT →
        slot_inum L img d j ≠ n := by
  unfold entries_in
  rw [List.sum_eq_zero_iff]
  constructor
  · intro h d hd hdir j h2 hj
    have := h _ (List.mem_map.mpr ⟨d, hd, rfl⟩)
    rw [if_pos hdir] at this
    unfold slots_naming at this
    rw [List.countP_eq_zero] at this
    simpa using this j (mem_upto.mpr ⟨h2, hj⟩)
  · intro h x hx
    obtain ⟨d, hd, rfl⟩ := List.mem_map.mp hx
    split
    · rename_i hdir
      unfold slots_naming
      rw [List.countP_eq_zero]
      intro j hj
      simpa using h d hd hdir j (mem_upto.mp hj).1 (mem_upto.mp hj).2
    · rfl

theorem entry_count_eq_zero (L : Layout) (img : Image) (n : Nat) :
    entry_count L img n = 0 ↔
      ∀ d, d < L.NINODES → is_dir L img d = true → ∀ j, 2 ≤ j → j < L.NDIRENT →
        slot_inum L img d j ≠ n := by
  unfold entry_count
  rw [entries_in_eq_zero]
  simp only [mem_upto, Nat.zero_le, true_and]

/-- The link-count pass is reached only through a usage pass that returned. -/
theorem nlink_reached (L : Layout) (img : Image) (r : Bool)
    (h : Msg.badRefCount ∈ (validate L img r).out) :
    ∃ t o u, analyse L img = .ok [] t ∧ check_usage L r t = .ok o u ∧
      Msg.badRefCount ∈ (check_nlink L img r t).out := by
  unfold validate at h
  rcases Res.mem_out_bind.mp h with h | ⟨_, _, _, h⟩
  · exact absurd (check_types_out _ _ _ _ h) (by decide)
  rcases Res.mem_out_bind.mp h with h | ⟨o2, t, e2, h⟩
  · rw [analyse_out] at h; simp at h
  have e2' := (analyse_quiet L img).eq_ok e2
  rcases Res.mem_out_bind.mp h with h | ⟨_, _, _, h⟩
  · exact absurd (check_bounds_out _ _ _ _ _ h) (by decide)
  rcases Res.mem_out_bind.mp h with h | ⟨_, _, _, h⟩
  · exact absurd (check_bounds_out _ _ _ _ _ h) (by decide)
  rcases Res.mem_out_bind.mp h with h | ⟨_, _, _, h⟩
  · exact absurd (check_root_out _ _ _ _ h) (by decide)
  rcases Res.mem_out_bind.mp h with h | ⟨_, _, _, h⟩
  · exact absurd (check_format_out _ _ _ _ h) (by decide)
  rcases Res.mem_out_bind.mp h with h | ⟨_, _, _, h⟩
  · exact absurd (check_marked_out _ _ _ _ _ h) (by decide)
  rcases Res.mem_out_bind.mp h with h | ⟨_, _, _, h⟩
  · exact absurd (check_marked_out _ _ _ _ _ h) (by decide)
  rcases Res.mem_out_bind.mp h with h | ⟨_, _, _, h⟩
  · exact absurd (check_residual_out _ _ _ _ h) (by decide)
  rcases Res.mem_out_bind.mp h with h | ⟨_, _, _, h⟩
  · rcases check_aliasing_out _ _ _ _ h with h | h <;> exact absurd h (by decide)
  rcases Res.mem_out_bind.mp h with h | ⟨o3, u, e3, h⟩
  · rcases check_usage_out _ _ _ _ h with h | h <;> exact absurd h (by decide)
  refine ⟨t, o3, u, e2', e3, ?_⟩
  rcases Res.mem_out_bind.mp h with h | ⟨_, _, _, h⟩
  · exact h
  rcases Res.mem_out_bind.mp h with h | ⟨_, _, _, h⟩
  · exact absurd (check_dirlink_out _ _ _ _ _ h) (by decide)
  rcases late_out L img r t.tdir _ _ h with h | h | h | h <;> exact absurd h (by decide)

/-- C7, as amended. Scenario A: inode 5 is a regular file with link count 2
that no entry in a slot from 2 on of a directory names. In repair mode, on a
run that stays within defined behaviour, "bad reference count for file" is
reported; without `-r` it is never reported, the run stopping at the latest at
"inode marked use but not found in a directory". -/
theorem scenario_a (L : Layout) (img : Image) (hT : L.T_DIR ≠ 0) (hF : L.T_FILE ≠ 0)
    (hn : 5 < L.NINODES) (he : 2 ≤ L.NDIRENT)
    (hfile : itype L img 5 = L.T_FILE) (hnl : xshort (dnlink img (inode_at L 5)) = 2)
    (hno : ∀ d, d < L.NINODES → is_dir L img d = true → ∀ j, 2 ≤ j → j < L.NDIRENT →
      slot_inum L img d j ≠ 5)
    (hsafe : (main L img true).halt ≠ some .undefined) :
    Msg.badRefCount ∈ (main L img true).stderr ∧
      Msg.badRefCount ∉ (main L img false).stderr := by
  have hcount : entry_count L img 5 = 0 := (entry_count_eq_zero L img 5).mpr hno
  have hrefs : ∀ t o, analyse L img = .ok o t → t.irefs 5 = 0 := by
    intro t o ht
    have := (analyse_ok L img t o hT ht).2.2.2.2.1 5 (by decide)
    rw [this, hcount]
    rfl
  constructor
  · obtain ⟨t, root, u, ht, _, _, hv⟩ :=
      validate_reach L img (by omega) he (validate_defined L img true hsafe)
    apply mem_main_of_validate
    rw [hv, Res.out_pre]
    apply List.mem_append_left
    unfold early_out
    apply List.mem_append_left
    apply List.mem_append_right
    rw [mem_check_nlink]
    refine ⟨5, hn, hfile, ?_⟩
    rw [hnl, hrefs t _ ht]
    decide
  · intro h
    have h2 := mem_validate_of_main L img false h (by decide) (by decide)
    obtain ⟨t, o, u, ht, hu, _⟩ := nlink_reached L img false h2
    have hused : is_nth_bit_1 t.used 5 = true := by
      rw [(analyse_ok L img t _ hT ht).1 5]
      simp [hn, hfile, hF]
    exact (check_usage_ok L false t o u hu).2.2 rfl 5 hn ⟨hused, hrefs t _ ht⟩

/-- C8, as amended. Reference counts: on a run in repair mode that stays within
defined behaviour, the count the usage and link-count checks use for inode 0 is
0 (entries holding 0 are not counted), and for every `n ≥ 1` whose number of
naming entries, plus one for `n = 1`, is below 256, the count is exactly that
number. Consequently, for such numbers, a regular file passes the link-count
check only if its stored link count equals the number, and an inode named by
at least one entry has a non-zero count. -/
theorem refcount_exact (L : Layout) (img : Image) (hT : L.T_DIR ≠ 0) (hn : 2 ≤ L.NINODES)
    (he : 2 ≤ L.NDIRENT) (hsafe : (main L img true).halt ≠ some .undefined) :
    ∃ t, analyse L img = .ok [] t ∧ t.irefs 0 = 0 ∧
      (∀ n, 1 ≤ n → entry_count L img n + (if n = 1 then 1 else 0) < 256 →
        t.irefs n = entry_count L img n + (if n = 1 then 1 else 0)) ∧
      (∀ i, 1 ≤ i → i < L.NINODES → itype L img i = L.T_FILE →
        entry_count L img i + (if i = 1 then 1 else 0) < 256 →
        Msg.badRefCount ∉ (main L img true).stderr →
        xshort (dnlink img (inode_at L i)) = entry_count L img i + (if i = 1 then 1 else 0)) ∧
      (∀ n, 1 ≤ n → 0 < entry_count L img n →
        entry_count L img n + (if n = 1 then 1 else 0) < 256 → 0 < t.irefs n) := by
  obtain ⟨t, root, u, ht, _, _, hv⟩ :=
    validate_reach L img hn he (validate_defined L img true hsafe)
  obtain ⟨_, _, _, h0, hc, _⟩ := analyse_ok L img t _ hT ht
  have hex : ∀ n, 1 ≤ n → entry_count L img n + (if n = 1 then 1 else 0) < 256 →
      t.irefs n = entry_count L img n + (if n = 1 then 1 else 0) := by
    intro n hn1 hlt
    rw [hc n hn1, Nat.mod_eq_of_lt hlt]
  refine ⟨t, ht, h0, hex, ?_, ?_⟩
  · intro i hi1 hi hfile hlt hnot
    by_contra hne
    apply hnot
    apply mem_main_of_validate
    rw [hv, Res.out_pre]
    apply List.mem_append_left
    unfold early_out
    apply List.mem_append_left
    apply List.mem_append_right
    rw [mem_check_nlink]
    exact ⟨i, hi, hfile, by rw [hex i hi1 hlt]; exact hne⟩
  · intro n hn1 hpos hlt
    rw [hex n hn1 hlt]
    omega

/-! ## Parent and child (lines 255-273) -/

theorem get_nth_dirent_slot (L : Layout) (img : Image) (d : Nat) {j : Nat} (h : j < L.NDIRENT) :
    get_nth_dirent L img (inode_at L d) j = .ok [] (slot_at L img d j) :=
  get_nth_dirent_of_lt L img _ h

theorem de_inum_slot (L : Layout) (img : Image) (d j : Nat) :
    de_inum L img (slot_at L img d j) = .ok [] (slot_inum L img d j) ∨
      de_inum L img (slot_at L img d j) = .stop [] .undefined := by
  rcases de_inum_quiet L img (slot_at L img d j) with ⟨a, h⟩ | h
  · left; rw [h, de_inum_ok h]; rfl
  · right; exact h

theorem parent_names_quiet (L : Layout) (img : Image) (parent_ip i : Nat) :
    Quiet (parent_names L img parent_ip i) := by
  unfold parent_names
  apply foldlM_quiet
  intro s j hj
  exact quiet_bind (get_nth_dirent_quiet L img _ (mem_upto.mp hj).2) (fun de =>
    quiet_bind (de_inum_quiet L img de) (fun inum => quiet_pure _))

/-- The flag of lines 265-270 is set exactly if a slot from 2 on names `i`. -/
theorem parent_names_ok (L : Layout) (img : Image) (p i : Nat) (o : List Msg) (b : Bool)
    (h : parent_names L img (inode_at L p) i = .ok o b) :
    b = true ↔ ∃ j, 2 ≤ j ∧ j < L.NDIRENT ∧ slot_inum L img p j = i := by
  unfold parent_names at h
  have key := foldlM_inv
    (fun done (s : Bool) => s = true ↔ ∃ j, j ∈ done ∧ slot_inum L img p j = i)
    ?_ (upto 2 L.NDIRENT) [] false b o (by simp) h
  · simpa [mem_upto, and_assoc] using key
  · intro done x s s2 o2 hI hs
    obtain ⟨o1, de, o3, e1, e2, _⟩ := Res.bind_eq_ok hs
    obtain ⟨o4, inum, o5, e3, e4, _⟩ := Res.bind_eq_ok e2
    have hde : de = slot_at L img p x := by
      unfold get_nth_dirent at e1
      by_cases hx : x < L.NDIRENT
      · simp [hx] at e1
        rw [← e1.2]; rfl
      · simp [hx] at e1
    have hin : inum = slot_inum L img p x := by
      rw [de_inum_ok e3, hde]; rfl
    have e5 := pure_eq_ok e4
    subst e5
    by_cases hxi : inum = i
    · simp only [hxi, if_true, true_iff]
      exact ⟨x, by simp, by rw [← hin, hxi]⟩
    · simp only [hxi, if_false, hI]
      constructor
      · rintro ⟨j, hj, h1⟩; exact ⟨j, by simp [hj], h1⟩
      · rintro ⟨j, hj, h1⟩
        rcases List.mem_append.mp hj with hj | hj
        · exact ⟨j, hj, h1⟩
        · simp at hj; subst hj; rw [← hin] at h1; exact absurd h1 hxi

theorem Res.soft_stop_undef {α : Type} (o : List Msg) : Soft (stop o .undefined : Res α) :=
  Or.inr rfl

/-- The body of the parent loop for a directory whose parent slot is in range:
it returns or stops on an access outside the image, and if it returns, each of
its two lines is written exactly on its condition. -/
theorem check_parent_dir (L : Layout) (img : Image) (i : Nat) (hi : i < L.NINODES)
    (he : 2 ≤ L.NDIRENT) (hdir : is_dir L img i = true) (hp : slot_inum L img i 1 < L.NINODES) :
    Soft (check_parent L img true i) ∧
    ((check_parent L img true i).why = none →
      (Msg.parentNotDir ∈ (check_parent L img true i).out ↔
        is_dir L img (slot_inum L img i 1) = false) ∧
      (Msg.parentMismatch ∈ (check_parent L img true i).out ↔
        ∀ j, 2 ≤ j → j < L.NDIRENT → slot_inum L img (slot_inum L img i 1) j ≠ i)) := by
  have hd := is_dir_itype hdir
  unfold itype at hd
  unfold check_parent
  rw [get_nth_inode_of_lt L hi]
  simp only [Res.bind_eq, Res.bind_ok, Res.pre_nil, hd, ne_eq, not_true_eq_false, if_false]
  rw [get_nth_dirent_slot L img i (by omega)]
  simp only [Res.bind_ok, Res.pre_nil]
  rcases de_inum_slot L img i 1 with e | e
  swap
  · rw [e]
    exact ⟨Or.inr rfl, fun h => by simp at h⟩
  rw [e, Res.bind_ok, Res.pre_nil, get_nth_inode_of_lt L hp, Res.bind_ok, Res.pre_nil]
  rcases parent_names_quiet L img (inode_at L (slot_inum L img i 1)) i with ⟨b, e2⟩ | e2
  swap
  · rw [e2]
    constructor
    · by_cases hpd : xshort (dtype img (inode_at L (slot_inum L img i 1))) = L.T_DIR
      · simp [hpd, Soft]
      · simp [hpd, Soft]
    · intro h
      by_cases hpd : xshort (dtype img (inode_at L (slot_inum L img i 1))) = L.T_DIR
      · simp [hpd] at h
      · simp [hpd] at h
  have hb := parent_names_ok L img _ i _ b e2
  rw [e2]
  have hpd_iff : is_dir L img (slot_inum L img i 1) = false ↔
      ¬ xshort (dtype img (inode_at L (slot_inum L img i 1))) = L.T_DIR := by
    simp [is_dir, itype]
  have hm_iff : (∀ j, 2 ≤ j → j < L.NDIRENT → slot_inum L img (slot_inum L img i 1) j ≠ i) ↔
      b = false := by
    constructor
    · intro h
      cases hb2 : b
      · rfl
      · obtain ⟨j, h2, hj, e3⟩ := hb.mp hb2
        exact absurd e3 (h j h2 hj)
    · intro h j h2 hj e3
      have := hb.mpr ⟨j, h2, hj, e3⟩
      rw [h] at this
      exact Bool.noConfusion this
  rw [hpd_iff, hm_iff]
  by_cases hpd : xshort (dtype img (inode_at L (slot_inum L img i 1))) = L.T_DIR <;>
    cases b <;> simp [hpd, Soft]

/-- The body of the parent loop never aborts when the parent slot of a
directory is in range. -/
theorem check_parent_soft (L : Layout) (img : Image) (i : Nat) (hi : i < L.NINODES)
    (he : 2 ≤ L.NDIRENT) (hp : is_dir L img i = true → slot_inum L img i 1 < L.NINODES) :
    Soft (check_parent L img true i) := by
  cases hdir : is_dir L img i
  · unfold check_parent
    rw [get_nth_inode_of_lt L hi]
    have : ¬ xshort (dtype img (inode_at L i)) = L.T_DIR := by
      simpa [is_dir, itype] using hdir
    simp [this, Soft]
  · exact (check_parent_dir L img i hi he hdir (hp hdir)).1

/-- A loop of bodies that return or leave defined behaviour, inside a longer
loop that stays within defined behaviour, returns. -/
theorem forM_initial_total {f : Nat → Res Unit} :
    ∀ (xs ys : List Nat), (∀ k ∈ xs, Soft (f k)) → ((xs ++ ys).forM f).why ≠ some .undefined →
      (xs.forM f).why = none
  | [], _, _, _ => rfl
  | x :: xs, ys, hs, hw => by
    rw [List.cons_append, forM_cons_eq] at hw
    rw [forM_cons_eq]
    rcases Res.soft_cases (hs x (List.mem_cons_self _ _)) with ⟨a, e⟩ | e
    · generalize (f x).out = o at e
      rw [e] at hw ⊢
      simp only [Res.bind_ok, Res.why_pre] at hw ⊢
      exact forM_initial_total xs ys (fun k hk => hs k (List.mem_cons_of_mem _ hk)) hw
    · generalize (f x).out = o at e
      rw [e] at hw
      simp at hw

theorem forM_append_eq {f : Nat → Res Unit} :
    ∀ (xs ys : List Nat), (xs ++ ys).forM f = Res.bind (xs.forM f) (fun _ => ys.forM f)
  | [], ys => by
    rw [List.nil_append, forM_nil_eq]
    simp
  | x :: xs, ys => by
    rw [List.cons_append, forM_cons_eq, forM_cons_eq, forM_append_eq xs ys]
    cases f x with
    | ok o a => simp [Res.pre_bind]
    | stop o s => simp

theorem forM_append_out {f : Nat → Res Unit} (xs ys : List Nat) (h : (xs.forM f).why = none) :
    ((xs ++ ys).forM f).out = (xs.forM f).out ++ (ys.forM f).out ∧
      ((xs ++ ys).forM f).why = (ys.forM f).why := by
  rw [forM_append_eq]
  obtain ⟨o, a, e⟩ := Res.eq_ok_of_why _ h
  rw [e]
  simp

theorem upto_split {lo i hi : Nat} (h1 : lo ≤ i) (h2 : i < hi) :
    upto lo hi = upto lo i ++ i :: upto (i + 1) hi := by
  unfold upto
  have e1 : hi - lo = (hi - (i + 1) + 1) + (i - lo) := by omega
  rw [e1, ← List.range'_append _ (i - lo) _ 1, List.range'_succ]
  have e2 : lo + 1 * (i - lo) = i := by omega
  rw [e2]

/-- C9, as amended. Parent and child: in repair mode, on a run that stays within
defined behaviour, for a directory inode `i` with `2 ≤ i < NINODES` whose
parent slot names `p < NINODES`, and provided every directory before `i` (from
2 on) also has its parent slot in range (the run aborts at the first that has
not), the loop body for `i` writes "parent of directory is not a directory"
exactly if `p` is not a directory and "parent directory mismatch" exactly if no
slot from 2 on of the block of `p` holds `i`; what it writes is in the error
stream of the run. -/
theorem parent_child (L : Layout) (img : Image) (hn : 2 ≤ L.NINODES) (he : 2 ≤ L.NDIRENT)
    (hsafe : (main L img true).halt ≠ some .undefined) (i : Nat) (h2 : 2 ≤ i) (hi : i < L.NINODES)
    (hdir : is_dir L img i = true) (hp : slot_inum L img i 1 < L.NINODES)
    (hbefore : ∀ k, 2 ≤ k → k < i → is_dir L img k = true → slot_inum L img k 1 < L.NINODES) :
    (Msg.parentNotDir ∈ (check_parent L img true i).out ↔
      is_dir L img (slot_inum L img i 1) = false) ∧
    (Msg.parentMismatch ∈ (check_parent L img true i).out ↔
      ∀ j, 2 ≤ j → j < L.NDIRENT → slot_inum L img (slot_inum L img i 1) j ≠ i) ∧
    (∀ m ∈ (check_parent L img true i).out, m ∈ (main L img true).stderr) := by
  obtain ⟨t, root, u, ht, _, _, hv⟩ :=
    validate_reach L img hn he (validate_defined L img true hsafe)
  have hvd := validate_defined L img true hsafe
  rw [hv, Res.why_pre] at hvd
  have hcp : (check_parents L img true).why ≠ some .undefined := by
    intro hc
    apply hvd
    cases e : check_parents L img true with
    | ok o a => rw [e] at hc; simp at hc
    | stop o s => rw [e] at hc; simp at hc; subst hc; rfl
  unfold check_parents at hcp
  rw [upto_split h2 hi] at hcp
  have hpre := forM_initial_total (upto 2 i) _ (fun k hk =>
    check_parent_soft L img k (by have := (mem_upto.mp hk).2; omega) he
      (hbefore k (mem_upto.mp hk).1 (mem_upto.mp hk).2)) hcp
  obtain ⟨hout, hwhy⟩ := forM_append_out (upto 2 i) (i :: upto (i + 1) L.NINODES) hpre
  obtain ⟨hsoft, hiff⟩ := check_parent_dir L img i hi he hdir hp
  have hok : (check_parent L img true i).why = none := by
    rcases hsoft with h | h
    · exact h
    · exfalso
      apply hcp
      rw [hwhy, forM_cons_eq]
      cases e : check_parent L img true i with
      | ok o a => rw [e] at h; simp at h
      | stop o s => rw [e] at h; simp at h; subst h; rfl
  refine ⟨(hiff hok).1, (hiff hok).2, fun m hm => ?_⟩
  apply mem_main_of_validate
  rw [hv, Res.out_pre]
  apply List.mem_append_right
  rw [Res.mem_out_bind]
  left
  unfold check_parents
  rw [upto_split h2 hi, hout]
  apply List.mem_append_right
  rw [forM_cons_eq, Res.out_bind]
  exact List.mem_append_left _ hm

/-! ## The traversal (lines 333-346) -/

theorem walk_nil (L : Layout) (img : Image) (k : Nat) : walk L img k [] = some k := rfl

theorem walk_cons (L : Layout) (img : Image) (k j : Nat) (js : List Nat) (c : Nat) :
    walk L img k (j :: js) = some c ↔
      node L img k ∧ 2 ≤ j ∧ j < L.NDIRENT ∧ walk L img (slot_inum L img k j) js = some c := by
  unfold node
  rw [walk]
  split
  · rename_i h
    simp only [h.1, h.2.1, h.2.2.1, h.2.2.2, true_and]
  · rename_i h
    constructor
    · intro hc; cases hc
    · rintro ⟨⟨h1, h2⟩, h3, h4, _⟩
      exact absurd ⟨h1, h2, h3, h4⟩ h

/-- Reachability unfolds by the first slot. -/
theorem reach_iff (L : Layout) (img : Image) (k n : Nat) :
    Reach L img k n ↔ (n = k ∧ node L img k) ∨
      (node L img k ∧ ∃ j, 2 ≤ j ∧ j < L.NDIRENT ∧ Reach L img (slot_inum L img k j) n) := by
  constructor
  · rintro ⟨p, hp, hn⟩
    cases p with
    | nil =>
      rw [walk_nil] at hp
      cases hp
      exact Or.inl ⟨rfl, hn⟩
    | cons j js =>
      rw [walk_cons] at hp
      exact Or.inr ⟨hp.1, j, hp.2.1, hp.2.2.1, js, hp.2.2.2, hn⟩
  · rintro (⟨rfl, hn⟩ | ⟨hk, j, h2, hj, p, hp, hn⟩)
    · exact ⟨[], rfl, hn⟩
    · exact ⟨j :: p, (walk_cons L img k j p n).mpr ⟨hk, h2, hj, hp⟩, hn⟩

theorem reach_of_not_node (L : Layout) (img : Image) (k n : Nat) (h : ¬ node L img k) :
    ¬ Reach L img k n := by
  rw [reach_iff]
  rintro (⟨_, hk⟩ | ⟨hk, _⟩) <;> exact h hk

/-- The loop over the slots of directory `k`, given a recursive call that meets
its specification: no re-entry found. -/
theorem scan_children_spec (L : Layout) (img : Image)
    (visit : (Nat → Nat) → Nat → Res (Bool × (Nat → Nat))) (hv : VisitSpec L img visit) (k : Nat) :
    ∀ (js : List Nat) (W : Nat → Nat) (o : List Msg) (b : Bool) (W2 : Nat → Nat),
      js.Nodup → scan_children L img visit (inode_at L k) js W = .ok o (b, W2) →
      (b = false →
        (∀ j ∈ js, ∀ c, Reach L img (slot_inum L img k j) c → is_nth_bit_1 W c = true) ∧
        (∀ j1 ∈ js, ∀ j2 ∈ js, ∀ p q c, walk L img (slot_inum L img k j1) p = some c →
          walk L img (slot_inum L img k j2) q = some c → node L img c → j1 = j2 ∧ p = q) ∧
        (∀ n, is_nth_bit_1 W2 n = true ↔
          (is_nth_bit_1 W n = true ∧ ¬ ∃ j ∈ js, Reach L img (slot_inum L img k j) n))) ∧
      (b = true →
        (∃ j ∈ js, ∃ p c, walk L img (slot_inum L img k j) p = some c ∧ node L img c ∧
          is_nth_bit_1 W2 c = false ∧
          (is_nth_bit_1 W c = false ∨ ∃ j2 ∈ js, ∃ q, ¬(j2 = j ∧ q = p) ∧
            walk L img (slot_inum L img k j2) q = some c)) ∧
        (∀ n, is_nth_bit_1 W2 n = true → is_nth_bit_1 W n = true) ∧
        (∀ n, is_nth_bit_1 W n = true → (¬ ∃ j ∈ js, Reach L img (slot_inum L img k j) n) →
          is_nth_bit_1 W2 n = true))
  | [], W, o, b, W2, _, h => by
    rw [scan_children] at h
    cases h
    simp
  | j :: js, W, o, b, W2, hnd, h => by
    rw [scan_children] at h
    obtain ⟨o1, de, o2, e1, e2, _⟩ := Res.bind_eq_ok h
    obtain ⟨o3, inum, o4, e3, e4, _⟩ := Res.bind_eq_ok e2
    obtain ⟨o5, r, o6, e5, e6, _⟩ := Res.bind_eq_ok e4
    have hde : de = slot_at L img k j := by
      unfold get_nth_dirent at e1
      by_cases hx : j < L.NDIRENT
      · simp [hx] at e1
        rw [← e1.2]; rfl
      · simp [hx] at e1
    have hin : inum = slot_inum L img k j := by
      rw [de_inum_ok e3, hde]; rfl
    subst hin
    obtain ⟨b1, W1⟩ := r
    obtain ⟨hF, hT⟩ := hv W _ o5 b1 W1 e5
    have hjn : j ∉ js := (List.nodup_cons.mp hnd).1
    cases b1 with
    | true =>
      simp only [if_true] at e6
      have e7 := pure_eq_ok e6
      cases e7
      obtain ⟨⟨p, c, hp, hc, hw2, hor⟩, hsub, hstay⟩ := hT rfl
      refine ⟨fun hc => Bool.noConfusion hc, fun _ => ⟨?_, hsub, ?_⟩⟩
      · refine ⟨j, List.mem_cons_self _ _, p, c, hp, hc, hw2, ?_⟩
        rcases hor with h1 | ⟨q, hq, hwq⟩
        · exact Or.inl h1
        · exact Or.inr ⟨j, List.mem_cons_self _ _, q, fun hc2 => hq hc2.2, hwq⟩
      · intro n hn hnot
        exact hstay n hn (fun hr => hnot ⟨j, List.mem_cons_self _ _, hr⟩)
    | false =>
      simp only [Bool.false_eq_true, if_false] at e6
      obtain ⟨hin1, hinj1, hrem1⟩ := hF rfl
      obtain ⟨ihF, ihT⟩ := scan_children_spec L img visit hv k js W1 o6 b W2
        (List.nodup_cons.mp hnd).2 e6
      constructor
      · intro hb
        obtain ⟨hin2, hinj2, hrem2⟩ := ihF hb
        refine ⟨?_, ?_, ?_⟩
        · intro j' hj' c hr
          rcases List.mem_cons.mp hj' with rfl | hj'
          · exact hin1 c hr
          · exact ((hrem1 c).mp (hin2 j' hj' c hr)).1
        · intro j1 hj1 j2 hj2 p q c hp hq hc
          rcases List.mem_cons.mp hj1 with e1 | m1 <;> rcases List.mem_cons.mp hj2 with e2 | m2
          · subst e1; subst e2
            refine ⟨rfl, ?_⟩
            by_contra hne
            exact hinj1 ⟨p, q, c, hne, hp, hq, hc⟩
          · exfalso
            subst e1
            exact ((hrem1 c).mp (hin2 j2 m2 c ⟨q, hq, hc⟩)).2 ⟨p, hp, hc⟩
          · exfalso
            subst e2
            exact ((hrem1 c).mp (hin2 j1 m1 c ⟨p, hp, hc⟩)).2 ⟨q, hq, hc⟩
          · exact hinj2 j1 m1 j2 m2 p q c hp hq hc
        · intro n
          rw [hrem2 n, hrem1 n]
          constructor
          · rintro ⟨⟨h1, h2⟩, h3⟩
            refine ⟨h1, ?_⟩
            rintro ⟨j', hj', hr⟩
            rcases List.mem_cons.mp hj' with rfl | hj'
            · exact h2 hr
            · exact h3 ⟨j', hj', hr⟩
          · rintro ⟨h1, h2⟩
            exact ⟨⟨h1, fun hr => h2 ⟨j, List.mem_cons_self _ _, hr⟩⟩,
              fun ⟨j', hj', hr⟩ => h2 ⟨j', List.mem_cons_of_mem _ hj', hr⟩⟩
      · intro hb
        obtain ⟨⟨j', hj', p, c, hp, hc, hw2, hor⟩, hsub, hstay⟩ := ihT hb
        refine ⟨?_, ?_, ?_⟩
        · refine ⟨j', List.mem_cons_of_mem _ hj', p, c, hp, hc, hw2, ?_⟩
          rcases hor with h1 | ⟨j2, hj2, q, hne, hq⟩
          · by_cases hwc : is_nth_bit_1 W c = true
            · right
              have : Reach L img (slot_inum L img k j) c := by
                by_contra hnr
                have := (hrem1 c).mpr ⟨hwc, hnr⟩
                rw [h1] at this
                exact Bool.noConfusion this
              obtain ⟨q, hq, _⟩ := this
              refine ⟨j, List.mem_cons_self _ _, q, ?_, hq⟩
              rintro ⟨hjj, _⟩
              exact hjn (hjj ▸ hj')
            · left
              simpa using hwc
          · exact Or.inr ⟨j2, List.mem_cons_of_mem _ hj2, q, hne, hq⟩
        · intro n hn
          exact ((hrem1 n).mp (hsub n hn)).1
        · intro n hn hnot
          apply hstay n
          · exact (hrem1 n).mpr ⟨hn, fun hr => hnot ⟨j, List.mem_cons_self _ _, hr⟩⟩
          · rintro ⟨j', hj', hr⟩
            exact hnot ⟨j', List.mem_cons_of_mem _ hj', hr⟩

theorem nodup_upto (lo hi : Nat) : (upto lo hi).Nodup := List.nodup_range' _ _

/-- Every call of `has_directory_cycle` that returns meets its specification. -/
theorem has_directory_cycle_spec (L : Layout) (img : Image) :
    ∀ fuel, VisitSpec L img (has_directory_cycle L img fuel)
  | 0 => by
    intro W k o b W2 h
    rw [has_directory_cycle] at h
    cases h
  | fuel + 1 => by
    intro W k o b W2 h
    rw [has_directory_cycle] at h
    obtain ⟨o1, ip, o2, e1, e2, _⟩ := Res.bind_eq_ok h
    have hk : k < L.NINODES := by
      by_contra hc
      rw [get_nth_inode_of_ge L (Nat.not_lt.mp hc)] at e1
      cases e1
    rw [get_nth_inode_of_lt L hk] at e1
    cases e1
    change (if itype L img k ≠ L.T_DIR then _ else _) = _ at e2
    by_cases hd : itype L img k = L.T_DIR
    swap
    · rw [if_pos hd] at e2
      cases pure_eq_ok e2
      have hnn : ¬ node L img k := fun hn => hd (is_dir_itype hn.2)
      refine ⟨fun _ => ⟨?_, ?_, ?_⟩, fun hc => Bool.noConfusion hc⟩
      · intro c hr; exact absurd hr (reach_of_not_node L img k c hnn)
      · rintro ⟨p, q, c, _, hp, _, hc⟩
        exact reach_of_not_node L img k c hnn ⟨p, hp, hc⟩
      · intro n
        exact ⟨fun h1 => ⟨h1, reach_of_not_node L img k n hnn⟩, fun h1 => h1.1⟩
    rw [if_neg (not_not.mpr hd)] at e2
    have hnode : node L img k := ⟨hk, by simp [is_dir, hd]⟩
    by_cases hbit : is_nth_bit_1 W k = true
    swap
    · have hb0 : is_nth_bit_1 W k = false := by simpa using hbit
      rw [hb0] at e2
      simp only [Bool.not_false, if_true] at e2
      cases pure_eq_ok e2
      refine ⟨fun hc => Bool.noConfusion hc, fun _ => ⟨?_, fun n h1 => h1, fun n h1 _ => h1⟩⟩
      exact ⟨[], k, rfl, hnode, hb0, Or.inl hb0⟩
    rw [hbit] at e2
    simp only [Bool.not_true, Bool.false_eq_true, if_false] at e2
    obtain ⟨sF, sT⟩ := scan_children_spec L img _ (has_directory_cycle_spec L img fuel) k
      (upto 2 L.NDIRENT) (set_nth_bit_0 W k) o2 b W2 (nodup_upto _ _) e2
    have hW1 : ∀ n, is_nth_bit_1 (set_nth_bit_0 W k) n = true ↔
        (n ≠ k ∧ is_nth_bit_1 W n = true) := by
      intro n
      rw [is_nth_bit_1_set_0]
      simp
    constructor
    · intro hb
      obtain ⟨hin, hinj, hrem⟩ := sF hb
      refine ⟨?_, ?_, ?_⟩
      · intro c hr
        rcases (reach_iff L img k c).mp hr with ⟨rfl, _⟩ | ⟨_, j, h2, hj, hr2⟩
        · exact hbit
        · exact ((hW1 c).mp (hin j (mem_upto.mpr ⟨h2, hj⟩) c hr2)).2
      · rintro ⟨p, q, c, hne, hp, hq, hc⟩
        cases p with
        | nil =>
          cases q with
          | nil => exact hne rfl
          | cons j q =>
            rw [walk_nil] at hp
            cases hp
            rw [walk_cons] at hq
            have := (hW1 k).mp (hin j (mem_upto.mpr ⟨hq.2.1, hq.2.2.1⟩) k ⟨q, hq.2.2.2, hc⟩)
            exact this.1 rfl
        | cons j p =>
          rw [walk_cons] at hp
          cases q with
          | nil =>
            rw [walk_nil] at hq
            cases hq
            have := (hW1 k).mp (hin j (mem_upto.mpr ⟨hp.2.1, hp.2.2.1⟩) k ⟨p, hp.2.2.2, hc⟩)
            exact this.1 rfl
          | cons j2 q =>
            rw [walk_cons] at hq
            obtain ⟨e1, e2⟩ := hinj j (mem_upto.mpr ⟨hp.2.1, hp.2.2.1⟩) j2
              (mem_upto.mpr ⟨hq.2.1, hq.2.2.1⟩) p q c hp.2.2.2 hq.2.2.2 hc
            exact hne (by rw [e1, e2])
      · intro n
        rw [hrem n, hW1 n]
        constructor
        · rintro ⟨⟨h1, h2⟩, h3⟩
          refine ⟨h2, fun hr => ?_⟩
          rcases (reach_iff L img k n).mp hr with ⟨e, _⟩ | ⟨_, j, h4, hj, hr2⟩
          · exact h1 e
          · exact h3 ⟨j, mem_upto.mpr ⟨h4, hj⟩, hr2⟩
        · rintro ⟨h1, h2⟩
          refine ⟨⟨fun e => h2 ((reach_iff L img k n).mpr (Or.inl ⟨e, hnode⟩)), h1⟩, ?_⟩
          rintro ⟨j, hj, hr⟩
          exact h2 ((reach_iff L img k n).mpr
            (Or.inr ⟨hnode, j, (mem_upto.mp hj).1, (mem_upto.mp hj).2, hr⟩))
    · intro hb
      obtain ⟨⟨j, hj, p, c, hp, hc, hw2, hor⟩, hsub, hstay⟩ := sT hb
      have hjv := mem_upto.mp hj
      have hpk : walk L img k (j :: p) = some c :=
        (walk_cons L img k j p c).mpr ⟨hnode, hjv.1, hjv.2, hp⟩
      refine ⟨⟨j :: p, c, hpk, hc, hw2, ?_⟩, ?_, ?_⟩
      · rcases hor with h1 | ⟨j2, hj2, q, hne, hq⟩
        · by_cases hck : c = k
          · right
            exact ⟨[], by simp, by rw [hck]; rfl⟩
          · left
            by_contra hc2
            have : is_nth_bit_1 (set_nth_bit_0 W k) c = true :=
              (hW1 c).mpr ⟨hck, by simpa using hc2⟩
            rw [h1] at this
            exact Bool.noConfusion this
        · right
          have hj2v := mem_upto.mp hj2
          refine ⟨j2 :: q, ?_, (walk_cons L img k j2 q c).mpr ⟨hnode, hj2v.1, hj2v.2, hq⟩⟩
          intro e
          cases e
          exact hne ⟨rfl, rfl⟩
      · intro n hn
        exact ((hW1 n).mp (hsub n hn)).2
      · intro n hn hnr
        apply hstay n
        · refine (hW1 n).mpr ⟨fun e => hnr ((reach_iff L img k n).mpr (Or.inl ⟨e, hnode⟩)), hn⟩
        · rintro ⟨j2, hj2, hr⟩
          exact hnr ((reach_iff L img k n).mpr
            (Or.inr ⟨hnode, j2, (mem_upto.mp hj2).1, (mem_upto.mp hj2).2, hr⟩))

/-- What a call that returns leaves in the working set is part of what it found. -/
theorem has_directory_cycle_subset (L : Layout) (img : Image) (fuel : Nat) (W : Nat → Nat)
    (k : Nat) (o : List Msg) (b : Bool) (W2 : Nat → Nat)
    (h : has_directory_cycle L img fuel W k = .ok o (b, W2)) :
    ∀ n, is_nth_bit_1 W2 n = true → is_nth_bit_1 W n = true := by
  obtain ⟨hF, hT⟩ := has_directory_cycle_spec L img fuel W k o b W2 h
  cases b with
  | false => exact fun n hn => (((hF rfl).2.2 n).mp hn).1
  | true => exact (hT rfl).2.1

/-! ## The depth of the recursion -/

theorem Res.why_bind_some {α β : Type} {x : Res α} {f : α → Res β} {s : Stop}
    (h : (x >>= f).why = some s) : x.why = some s ∨ ∃ o a, x = .ok o a ∧ (f a).why = some s := by
  cases x with
  | ok o a => right; exact ⟨o, a, rfl, by simpa using h⟩
  | stop o s2 => left; simpa using h

theorem live_mono (L : Layout) (W W2 : Nat → Nat)
    (h : ∀ n, is_nth_bit_1 W2 n = true → is_nth_bit_1 W n = true) : live L W2 ≤ live L W := by
  unfold live
  exact List.countP_mono_left (fun n _ hn => h n hn)

theorem countP_clear (p : Nat → Bool) (k : Nat) (hk : p k = true) :
    ∀ xs : List Nat, xs.Nodup → k ∈ xs →
      xs.countP (fun n => !decide (n = k) && p n) + 1 = xs.countP p
  | [], _, h => by simp at h
  | x :: xs, hnd, h => by
    have hnd2 := List.nodup_cons.mp hnd
    by_cases hx : x = k
    · subst hx
      have : xs.countP (fun n => !decide (n = x) && p n) = xs.countP p := by
        apply List.countP_congr
        intro n hn
        have : n ≠ x := fun e => hnd2.1 (e ▸ hn)
        simp [this]
      rw [List.countP_cons, List.countP_cons, this]
      simp [hk]
    · have hmem : k ∈ xs := by
        rcases List.mem_cons.mp h with e | e
        · exact absurd e.symm hx
        · exact e
      have ih := countP_clear p k hk xs hnd2.2 hmem
      rw [List.countP_cons, List.countP_cons]
      simp only [hx, decide_False, Bool.not_false, Bool.true_and]
      omega

theorem live_clear (L : Layout) (W : Nat → Nat) (k : Nat) (hk : k < L.NINODES)
    (hb : is_nth_bit_1 W k = true) : live L (set_nth_bit_0 W k) + 1 = live L W := by
  unfold live
  have := countP_clear (fun n => is_nth_bit_1 W n) k hb (upto 0 L.NINODES) (nodup_upto _ _)
    (mem_upto.mpr ⟨Nat.zero_le _, hk⟩)
  rw [← this]
  congr 2
  funext n
  rw [is_nth_bit_1_set_0]
  simp

theorem scan_children_fuel (L : Layout) (img : Image) (fuel : Nat)
    (hv : ∀ W k, live L W < fuel → (has_directory_cycle L img fuel W k).why ≠ some .fuel)
    (ip : Nat) :
    ∀ (js : List Nat) (W : Nat → Nat), live L W < fuel →
      (scan_children L img (has_directory_cycle L img fuel) ip js W).why ≠ some .fuel
  | [], _, _ => by simp [scan_children]
  | j :: js, W, hW => by
    rw [scan_children]
    intro h
    rcases Res.why_bind_some h with h | ⟨_, de, _, h⟩
    · unfold get_nth_dirent at h
      by_cases hj : j < L.NDIRENT <;> simp [hj] at h
    rcases Res.why_bind_some h with h | ⟨_, inum, _, h⟩
    · rcases de_inum_quiet L img de with ⟨a, e⟩ | e <;> rw [e] at h <;> simp at h
    rcases Res.why_bind_some h with h | ⟨o, r, e, h⟩
    · exact hv W inum hW h
    obtain ⟨b, W1⟩ := r
    cases b with
    | true => simp at h
    | false =>
      simp only [Bool.false_eq_true, if_false] at h
      have hsub := has_directory_cycle_subset L img fuel W inum o false W1 e
      exact scan_children_fuel L img fuel hv ip js W1
        (Nat.lt_of_le_of_lt (live_mono L W W1 hsub) hW) h

/-- A call with more fuel than inodes left in the working set does not run out
of fuel. -/
theorem has_directory_cycle_fuel (L : Layout) (img : Image) :
    ∀ (fuel : Nat) (W : Nat → Nat) (k : Nat), live L W < fuel →
      (has_directory_cycle L img fuel W k).why ≠ some .fuel
  | 0, _, _, h => by omega
  | fuel + 1, W, k, hW => by
    rw [has_directory_cycle]
    intro h
    rcases Res.why_bind_some h with h | ⟨_, ip, _, h⟩
    · unfold get_nth_inode at h
      by_cases hk : k < L.NINODES <;> simp [hk] at h
    have hk : k < L.NINODES := by
      by_contra hc
      rename_i e
      rw [get_nth_inode_of_ge L (Nat.not_lt.mp hc)] at e
      cases e
    by_cases hd : xshort (dtype img ip) ≠ L.T_DIR
    · rw [if_pos hd] at h; simp at h
    rw [if_neg hd] at h
    by_cases hbit : is_nth_bit_1 W k = true
    · rw [hbit] at h
      simp only [Bool.not_true, Bool.false_eq_true, if_false] at h
      have := live_clear L W k hk hbit
      exact scan_children_fuel L img fuel (has_directory_cycle_fuel L img fuel) ip _ _
        (by omega) h
    · have hb0 : is_nth_bit_1 W k = false := by simpa using hbit
      rw [hb0] at h
      simp at h

theorem live_le (L : Layout) (W : Nat → Nat) : live L W ≤ L.NINODES := by
  unfold live
  have := @List.countP_le_length Nat (fun n => is_nth_bit_1 W n) (upto 0 L.NINODES)
  simpa [upto] using this

/-! ## What the tree pass writes (lines 275-282) -/

theorem check_tree_ok (L : Layout) (img : Image) (tdir : Nat → Nat) (o : List Msg) (b : Bool)
    (W2 : Nat → Nat) (h : has_directory_cycle L img (L.NINODES + 1) tdir 1 = .ok o (b, W2)) :
    check_tree L img true tdir = .ok ((if b then [Msg.cycle] else []) ++
      (upto 0 L.INODEBMAPSIZE).flatMap (fun i => if W2 i ≠ 0 then [Msg.inaccessible] else [])) () := by
  have ho : o = [] := by
    have := has_directory_cycle_silent L img (L.NINODES + 1) tdir 1
    rw [h] at this
    exact this
  subst ho
  unfold check_tree
  rw [h]
  have hloop : (upto 0 L.INODEBMAPSIZE).forM (fun i =>
      if W2 i ≠ 0 then error true .inaccessible else (pure () : Res Unit)) =
      .ok ((upto 0 L.INODEBMAPSIZE).flatMap
        (fun i => if W2 i ≠ 0 then [Msg.inaccessible] else [])) () := by
    apply forM_ok
    intro i _
    split <;> rfl
  simp only [Res.bind_eq, Res.bind_ok, Res.pre_nil]
  rw [hloop]
  cases b <;> simp

theorem check_tree_stop (L : Layout) (img : Image) (r : Bool) (tdir : Nat → Nat) (o : List Msg)
    (s : Stop) (h : has_directory_cycle L img (L.NINODES + 1) tdir 1 = .stop o s) :
    check_tree L img r tdir = .stop [] s := by
  have ho : o = [] := by
    have := has_directory_cycle_silent L img (L.NINODES + 1) tdir 1
    rw [h] at this
    exact this
  subst ho
  unfold check_tree
  rw [h]
  rfl

/-- A validation in repair mode that returns ran every pass. -/
theorem validate_returns (L : Layout) (img : Image) (hn : 2 ≤ L.NINODES) (he : 2 ≤ L.NDIRENT)
    (h : (validate L img true).why = none) :
    ∃ t root u b W2 op, analyse L img = .ok [] t ∧ (∃ o, check_usage L true t = .ok o u) ∧
      check_parents L img true = .ok op () ∧
      has_directory_cycle L img (L.NINODES + 1) t.tdir 1 = .ok [] (b, W2) ∧
      validate L img true =
        .ok (early_out L img t ++ (op ++ tree_out L b W2)) (Verdict.mk root u.1 u.2) := by
  obtain ⟨t, root, u, ht, _, hu, hv⟩ := validate_reach L img hn he (by rw [h]; simp)
  rw [hv, Res.why_pre] at h
  cases hp : check_parents L img true with
  | stop o s => rw [hp] at h; simp at h
  | ok op a =>
    rw [hp] at h
    simp only [Res.bind_eq, Res.bind_ok, Res.why_pre] at h
    cases hc : has_directory_cycle L img (L.NINODES + 1) t.tdir 1 with
    | stop o s =>
      rw [check_tree_stop L img true t.tdir o s hc] at h
      simp at h
    | ok o r =>
      obtain ⟨b, W2⟩ := r
      have ho : o = [] := by
        have := has_directory_cycle_silent L img (L.NINODES + 1) t.tdir 1
        rw [hc] at this
        exact this
      subst ho
      refine ⟨t, root, u, b, W2, op, ht, hu, rfl, hc, ?_⟩
      rw [hv, hp, check_tree_ok L img t.tdir [] b W2 hc]
      simp [tree_out]

theorem walk_append (L : Layout) (img : Image) :
    ∀ (p q : List Nat) (k c d : Nat), walk L img k p = some c → walk L img c q = some d →
      walk L img k (p ++ q) = some d
  | [], q, k, c, d, hp, hq => by
    rw [walk_nil] at hp
    cases hp
    exact hq
  | j :: p, q, k, c, d, hp, hq => by
    rw [walk_cons] at hp
    rw [List.cons_append, walk_cons]
    exact ⟨hp.1, hp.2.1, hp.2.2.1, walk_append L img p q _ c d hp.2.2.2 hq⟩

/-- A directed cycle reachable from `k` gives two slot sequences to one directory. -/
theorem meets_twice_of_cycle (L : Layout) (img : Image) (k : Nat) (h : HasCycle L img k) :
    MeetsTwice L img k := by
  obtain ⟨p, q, c, hp, hc, hq, hcq⟩ := h
  refine ⟨p ++ q, p, c, ?_, walk_append L img p q k c c hp hcq, hp, hc⟩
  intro e
  have := congrArg List.length e
  rw [List.length_append] at this
  have : q.length = 0 := by omega
  exact hq (List.length_eq_zero.mp this)

/-- C5, as amended. The traversal from inode 1 on the working set of all
directory inodes never runs out of the recursion depth `NINODES + 1`, and when
it returns, it returns true exactly if some directory inode is the end of two
different slot sequences from inode 1. A directed cycle reachable from inode 1
is one way for that to happen (a directory named by two entries is another). In
repair mode, when the validation returns, "file directory contains a cycle" is
in the error stream exactly in that case. -/
theorem cycle_detection (L : Layout) (img : Image) (hT : L.T_DIR ≠ 0) (hn : 2 ≤ L.NINODES)
    (he : 2 ≤ L.NDIRENT) (t : Tables) (o : List Msg) (ht : analyse L img = .ok o t) :
    (has_directory_cycle L img (L.NINODES + 1) t.tdir 1).why ≠ some .fuel ∧
    (HasCycle L img 1 → MeetsTwice L img 1) ∧
    (∀ o2 b W2, has_directory_cycle L img (L.NINODES + 1) t.tdir 1 = .ok o2 (b, W2) →
      (b = true ↔ MeetsTwice L img 1)) ∧
    ((validate L img true).why = none →
      (Msg.cycle ∈ (main L img true).stderr ↔ MeetsTwice L img 1)) := by
  have hfuel := has_directory_cycle_fuel L img (L.NINODES + 1) t.tdir 1
    (Nat.lt_succ_of_le (live_le L t.tdir))
  have hres : ∀ o2 b W2, has_directory_cycle L img (L.NINODES + 1) t.tdir 1 = .ok o2 (b, W2) →
      (b = true ↔ MeetsTwice L img 1) := by
    intro o2 b W2 hr
    obtain ⟨hF, hTr⟩ := has_directory_cycle_spec L img _ _ _ _ _ _ hr
    cases b with
    | false =>
      simp only [Bool.false_eq_true, false_iff]
      exact (hF rfl).2.1
    | true =>
      simp only [true_iff]
      obtain ⟨⟨p, c, hp, hc, _, hor⟩, _, _⟩ := hTr rfl
      rcases hor with h1 | ⟨q, hq, hwq⟩
      · have := (analyse_ok L img t o hT ht).2.1 c
        rw [h1] at this
        have hc2 : c < L.NINODES ∧ is_dir L img c = true := hc
        simp [hc2] at this
      · exact ⟨q, p, c, hq, hwq, hp, hc⟩
  refine ⟨hfuel, meets_twice_of_cycle L img 1, hres, ?_⟩
  intro hval
  obtain ⟨t2, root, u, b, W2, op, ht2, _, hp, hc, hv⟩ := validate_returns L img hn he hval
  have ht3 := (analyse_quiet L img).eq_ok ht
  rw [ht3] at ht2
  cases ht2
  rw [← hres [] b W2 hc]
  constructor
  · intro hm
    have h2 := mem_validate_of_main L img true hm (by decide) (by decide)
    rw [hv, Res.out_ok] at h2
    rcases List.mem_append.mp h2 with h3 | h3
    · exfalso
      unfold early_out at h3
      simp only [List.mem_append] at h3
      rcases h3 with (((((((((((h | h) | h) | h) | h) | h) | h) | h) | h) | h) | h) | h)
      · exact absurd (check_types_out _ _ _ _ h) (by decide)
      · exact absurd (check_bounds_out _ _ _ _ _ h) (by decide)
      · exact absurd (check_bounds_out _ _ _ _ _ h) (by decide)
      · exact absurd (check_root_out _ _ _ _ h) (by decide)
      · exact absurd (check_format_out _ _ _ _ h) (by decide)
      · exact absurd (check_marked_out _ _ _ _ _ h) (by decide)
      · exact absurd (check_marked_out _ _ _ _ _ h) (by decide)
      · exact absurd (check_residual_out _ _ _ _ h) (by decide)
      · rcases check_aliasing_out _ _ _ _ h with h | h <;> exact absurd h (by decide)
      · rcases check_usage_out _ _ _ _ h with h | h <;> exact absurd h (by decide)
      · exact absurd (check_nlink_out _ _ _ _ _ h) (by decide)
      · exact absurd (check_dirlink_out _ _ _ _ _ h) (by decide)
    · rcases List.mem_append.mp h3 with h4 | h4
      · exfalso
        have := check_parents_out L img true .cycle (by rw [hp]; exact h4)
        rcases this with h | h <;> exact absurd h (by decide)
      · unfold tree_out at h4
        rcases List.mem_append.mp h4 with h5 | h5
        · cases b
          · simp at h5
          · rfl
        · exfalso
          obtain ⟨i, _, hi⟩ := List.mem_flatMap.mp h5
          split at hi <;> simp at hi
  · intro hb
    apply mem_main_of_validate
    rw [hv, Res.out_ok]
    apply List.mem_append_right
    apply List.mem_append_right
    unfold tree_out
    apply List.mem_append_left
    rw [hb]
    simp

/-! ## What is left after the traversal -/

/-- The lines the passes before the parent pass can write. -/
theorem early_out_msgs (L : Layout) (img : Image) (t : Tables) :
    ∀ m ∈ early_out L img t, m ∈ [Msg.badInode, .badDirect, .badIndirect, .noRoot, .badFormat,
      .usedButFree, .markedNotUsed, .directTwice, .indirectTwice, .notFound, .referredFree,
      .badRefCount, .dirTwice] := by
  intro m h3
  unfold early_out at h3
  simp only [List.mem_append] at h3
  rcases h3 with (((((((((((h | h) | h) | h) | h) | h) | h) | h) | h) | h) | h) | h)
  · rw [check_types_out _ _ _ _ h]; decide
  · rw [check_bounds_out _ _ _ _ _ h]; decide
  · rw [check_bounds_out _ _ _ _ _ h]; decide
  · rw [check_root_out _ _ _ _ h]; decide
  · rw [check_format_out _ _ _ _ h]; decide
  · rw [check_marked_out _ _ _ _ _ h]; decide
  · rw [check_marked_out _ _ _ _ _ h]; decide
  · rw [check_residual_out _ _ _ _ h]; decide
  · rcases check_aliasing_out _ _ _ _ h with h | h <;> rw [h] <;> decide
  · rcases check_usage_out _ _ _ _ h with h | h <;> rw [h] <;> decide
  · rw [check_nlink_out _ _ _ _ _ h]; decide
  · rw [check_dirlink_out _ _ _ _ _ h]; decide

theorem set_nth_bit_0_lt (W : Nat → Nat) (n : Nat) (h : ∀ k, W k < 256) :
    ∀ k, set_nth_bit_0 W n k < 256 := by
  intro k
  unfold set_nth_bit_0
  split
  · exact Nat.mod_lt _ (by decide)
  · exact h k

theorem set_nth_bit_1_lt (W : Nat → Nat) (n : Nat) (h : ∀ k, W k < 256) :
    ∀ k, set_nth_bit_1 W n k < 256 := by
  intro k
  unfold set_nth_bit_1
  split
  · exact Nat.mod_lt _ (by decide)
  · exact h k

theorem scan_children_bytes (L : Layout) (img : Image)
    (visit : (Nat → Nat) → Nat → Res (Bool × (Nat → Nat)))
    (hv : ∀ W k o r, visit W k = .ok o r → (∀ n, W n < 256) → ∀ n, r.2 n < 256) (ip : Nat) :
    ∀ (js : List Nat) (W : Nat → Nat) (o : List Msg) (r : Bool × (Nat → Nat)),
      scan_children L img visit ip js W = .ok o r → (∀ n, W n < 256) → ∀ n, r.2 n < 256
  | [], W, o, r, h, hW => by
    rw [scan_children] at h
    cases pure_eq_ok h
    exact hW
  | j :: js, W, o, r, h, hW => by
    rw [scan_children] at h
    obtain ⟨o1, de, o2, e1, e2, _⟩ := Res.bind_eq_ok h
    obtain ⟨o3, inum, o4, e3, e4, _⟩ := Res.bind_eq_ok e2
    obtain ⟨o5, r1, o6, e5, e6, _⟩ := Res.bind_eq_ok e4
    have h1 := hv W inum o5 r1 e5 hW
    by_cases hb : r1.1 = true
    · rw [if_pos hb] at e6
      cases pure_eq_ok e6
      exact h1
    · rw [if_neg hb] at e6
      exact scan_children_bytes L img visit hv ip js r1.2 o6 r e6 h1

/-- The working set stays an array of bytes. -/
theorem has_directory_cycle_bytes (L : Layout) (img : Image) :
    ∀ (fuel : Nat) (W : Nat → Nat) (k : Nat) (o : List Msg) (r : Bool × (Nat → Nat)),
      has_directory_cycle L img fuel W k = .ok o r → (∀ n, W n < 256) → ∀ n, r.2 n < 256
  | 0, _, _, _, _, h, _ => by
    rw [has_directory_cycle] at h
    cases h
  | fuel + 1, W, k, o, r, h, hW => by
    rw [has_directory_cycle] at h
    obtain ⟨o1, ip, o2, e1, e2, _⟩ := Res.bind_eq_ok h
    by_cases hd : xshort (dtype img ip) ≠ L.T_DIR
    · rw [if_pos hd] at e2
      cases pure_eq_ok e2
      exact hW
    rw [if_neg hd] at e2
    by_cases hbit : (!is_nth_bit_1 W k) = true
    · rw [if_pos hbit] at e2
      cases pure_eq_ok e2
      exact hW
    · rw [if_neg hbit] at e2
      exact scan_children_bytes L img _ (has_directory_cycle_bytes L img fuel) ip _ _ o2 r e2
        (set_nth_bit_0_lt W k hW)

/-- The directory working set after the reference loop is an array of bytes. -/
theorem analyse_tdir_bytes (L : Layout) (img : Image) (t : Tables) (o : List Msg)
    (h : analyse L img = .ok o t) : ∀ n, t.tdir n < 256 := by
  unfold analyse at h
  obtain ⟨o1, r, o2, e1, e2, _⟩ := Res.bind_eq_ok h
  have key := foldlM_inv
    (fun done (s : Tables) => (∀ i ∈ done, i < L.NINODES) → ∀ n, s.tdir n < 256)
    ?_ (upto 0 L.NINODES) [] _ t o2 ?_ e2
  · exact key (by intro i hi; exact (mem_upto.mp (by simpa using hi)).2)
  · intro done x s s2 o3 hI hs hdone
    have hx : x < L.NINODES := hdone x (by simp)
    have hb := hI (fun i hi => hdone i (by simp [hi]))
    obtain ⟨hzero, hnz⟩ := scan_inode_ok L img s s2 x o3 hx hs
    by_cases hty : itype L img x = 0
    · rw [hzero hty]; exact hb
    · obtain ⟨_, e2, e3⟩ := hnz hty
      cases hdx : is_dir L img x
      · rw [(e3 hdx).1]; exact hb
      · rw [(e2 hdx).1]; exact set_nth_bit_1_lt _ _ hb
  · intro _ n
    simp [Tables.zero]

/-- A byte is non-zero exactly if one of its eight bits is set. -/
theorem byte_ne_zero_iff (W : Nat → Nat) (k : Nat) (h : W k < 256) :
    W k ≠ 0 ↔ ∃ j, j < 8 ∧ is_nth_bit_1 W (8 * k + j) = true := by
  constructor
  · intro hne
    obtain ⟨j, hj⟩ := Nat.ne_zero_implies_bit_true hne
    have hj8 : j < 8 := by
      by_contra hc
      have : W k < 2 ^ j := Nat.lt_of_lt_of_le h
        (by calc 256 = 2 ^ 8 := rfl
             _ ≤ 2 ^ j := Nat.pow_le_pow_right (by decide) (Nat.not_lt.mp hc))
      rw [Nat.testBit_lt_two_pow this] at hj
      exact Bool.noConfusion hj
    refine ⟨j, hj8, ?_⟩
    rw [is_nth_bit_1_eq]
    have e1 : (8 * k + j) / 8 = k := by omega
    have e2 : (8 * k + j) % 8 = j := by omega
    rw [e1, e2]
    exact hj
  · rintro ⟨j, hj8, hj⟩ hz
    rw [is_nth_bit_1_eq] at hj
    have e1 : (8 * k + j) / 8 = k := by omega
    rw [e1, hz] at hj
    simp at hj

theorem count_flatMap_ite (m : Msg) (c : Nat → Prop) [DecidablePred c] (xs : List Nat) :
    (xs.flatMap (fun i => if c i then [m] else [])).count m = xs.countP (fun i => decide (c i)) := by
  induction xs with
  | nil => rfl
  | cons x xs ih =>
    rw [List.flatMap_cons, List.count_append, ih, List.countP_cons]
    by_cases hx : c x <;> simp [hx]
    omega

theorem count_eq_zero_of_all {l : List Msg} {m : Msg} (h : ∀ x ∈ l, x ≠ m) : l.count m = 0 :=
  List.count_eq_zero.mpr (fun hm => h m hm rfl)

/-- C6, as amended. Reachability reporting, for a repair-mode run whose
validation returns. After the traversal from inode 1: only directory inodes
are in the working set and every directory inode not reachable from inode 1 is
still in it; if no re-entry was found, a directory inode is in it exactly if it
is not reachable. "inaccessible directory exists" is written once per byte of
the working set that is not zero, that is once per group of eight consecutive
inode numbers holding a directory left in the set (not once per directory). A
cycle is reported at most once, and when it is, the directory that was
re-entered is not in the working set. -/
theorem reachability_report (L : Layout) (img : Image) (hT : L.T_DIR ≠ 0) (hn : 2 ≤ L.NINODES)
    (he : 2 ≤ L.NDIRENT) (hval : (validate L img true).why = none) :
    ∃ t b W2, analyse L img = .ok [] t ∧
      has_directory_cycle L img (L.NINODES + 1) t.tdir 1 = .ok [] (b, W2) ∧
      (∀ c, is_nth_bit_1 W2 c = true → node L img c) ∧
      (∀ c, node L img c → ¬ Reach L img 1 c → is_nth_bit_1 W2 c = true) ∧
      (b = false → ∀ c, node L img c → (is_nth_bit_1 W2 c = true ↔ ¬ Reach L img 1 c)) ∧
      (main L img true).stderr.count .inaccessible =
        (upto 0 L.INODEBMAPSIZE).countP
          (fun k => (upto 0 8).any (fun j => is_nth_bit_1 W2 (8 * k + j))) ∧
      (main L img true).stderr.count .cycle ≤ 1 ∧
      (b = true → ∃ p q c, p ≠ q ∧ walk L img 1 p = some c ∧ walk L img 1 q = some c ∧
        node L img c ∧ is_nth_bit_1 W2 c = false) := by
  obtain ⟨t, root, u, b, W2, op, ht, _, hp, hc, hv⟩ := validate_returns L img hn he hval
  obtain ⟨_, htd, _⟩ := analyse_ok L img t _ hT ht
  have hnode : ∀ c, is_nth_bit_1 t.tdir c = true ↔ node L img c := by
    intro c
    rw [htd c]
    simp [node]
  obtain ⟨hF, hTr⟩ := has_directory_cycle_spec L img _ _ _ _ _ _ hc
  have hsub := has_directory_cycle_subset L img _ _ _ _ _ _ hc
  have hbytes := has_directory_cycle_bytes L img _ _ _ _ _ hc (analyse_tdir_bytes L img t _ ht)
  obtain ⟨extra, hex, hextra⟩ := main_stderr L img true
  have hcount : ∀ m, m ≠ Msg.noLostFound → m ≠ Msg.lostFoundFull →
      m ∉ [Msg.badInode, .badDirect, .badIndirect, .noRoot, .badFormat,
      .usedButFree, .markedNotUsed, .directTwice, .indirectTwice, .notFound, .referredFree,
      .badRefCount, .dirTwice] → m ≠ .parentNotDir → m ≠ .parentMismatch →
      (main L img true).stderr.count m = (tree_out L b W2).count m := by
    intro m h1 h2 h3 h4 h5
    rw [hex, hv, Res.out_ok, List.count_append, List.count_append, List.count_append]
    have c1 : (early_out L img t).count m = 0 :=
      count_eq_zero_of_all (fun x hx e => h3 (e ▸ early_out_msgs L img t x hx))
    have c2 : op.count m = 0 := by
      apply count_eq_zero_of_all
      intro x hx e
      rcases check_parents_out L img true x (by rw [hp]; exact hx) with h | h
      · exact h4 (e ▸ h)
      · exact h5 (e ▸ h)
    have c3 : extra.count m = 0 := by
      apply count_eq_zero_of_all
      intro x hx e
      rcases hextra x hx with h | h
      · exact h1 (e ▸ h)
      · exact h2 (e ▸ h)
    omega
  refine ⟨t, b, W2, ht, hc, fun c hb => (hnode c).mp (hsub c hb), ?_, ?_, ?_, ?_, ?_⟩
  · intro c hcn hnr
    cases b with
    | false => exact ((hF rfl).2.2 c).mpr ⟨(hnode c).mpr hcn, hnr⟩
    | true => exact (hTr rfl).2.2 c ((hnode c).mpr hcn) hnr
  · intro hb c hcn
    rw [(hF hb).2.2 c]
    exact ⟨fun h => h.2, fun h => ⟨(hnode c).mpr hcn, h⟩⟩
  · rw [hcount .inaccessible (by decide) (by decide) (by decide) (by decide) (by decide)]
    unfold tree_out
    rw [List.count_append, count_flatMap_ite]
    have c0 : (if b = true then [Msg.cycle] else []).count Msg.inaccessible = 0 := by
      cases b <;> decide
    rw [c0, Nat.zero_add]
    apply List.countP_congr
    intro k _
    simp only [decide_eq_true_eq, List.any_eq_true, mem_upto, Nat.zero_le, true_and]
    exact byte_ne_zero_iff W2 k (hbytes k)
  · rw [hcount .cycle (by decide) (by decide) (by decide) (by decide) (by decide)]
    unfold tree_out
    rw [List.count_append]
    have c0 : ((upto 0 L.INODEBMAPSIZE).flatMap
        (fun i => if W2 i ≠ 0 then [Msg.inaccessible] else [])).count Msg.cycle = 0 := by
      apply count_eq_zero_of_all
      intro x hx
      obtain ⟨i, _, hi⟩ := List.mem_flatMap.mp hx
      split at hi
      · simp at hi; rw [hi]; decide
      · simp at hi
    rw [c0]
    cases b <;> simp
  · intro hb
    obtain ⟨⟨p, c, hp, hcn, hw2, hor⟩, _, _⟩ := hTr hb
    rcases hor with h1 | ⟨q, hq, hwq⟩
    · rw [(hnode c).mpr hcn] at h1
      exact Bool.noConfusion h1
    · exact ⟨q, p, c, hq, hwq, hp, hcn, hw2⟩

/-! ## Stores into the image -/

theorem byte_lt (img : Image) (o : Nat) : byte img o < 256 := Nat.mod_lt _ (by decide)

theorem ld16_lt (img : Image) (o : Nat) : ld16 img o < 65536 := by
  unfold ld16
  have := byte_lt img o
  have := byte_lt img (o + 1)
  omega

theorem xshort_ld16 (img : Image) (o : Nat) : xshort (ld16 img o) = ld16 img o :=
  Nat.mod_eq_of_lt (ld16_lt img o)

theorem xshort_ld32 (img : Image) (o : Nat) : xshort (ld32 img o) = ld16 img o := by
  unfold xshort ld32
  have := ld16_lt img o
  omega

theorem dir_block_eq (img : Image) (ip : Nat) : dir_block img ip = ld16 img (ip + ADDRS_OFF) := by
  unfold dir_block daddr
  rw [xshort_ld32]
  rfl

theorem ld16_st16_same (img : Image) (o v : Nat) : ld16 (st16 img o v) o = v % 65536 := by
  unfold ld16 byte st16
  simp only [if_true, Nat.succ_ne_self, if_false]
  omega

theorem st16_other (img : Image) (o v p : Nat) (h1 : p ≠ o) (h2 : p ≠ o + 1) :
    st16 img o v p = img p := by
  unfold st16
  rw [if_neg h1, if_neg h2]

theorem ld16_st16_other (img : Image) (o v q : Nat) (h : q + 2 ≤ o ∨ o + 2 ≤ q) :
    ld16 (st16 img o v) q = ld16 img q := by
  unfold ld16 byte
  rw [st16_other img o v q (by omega) (by omega), st16_other img o v (q + 1) (by omega) (by omega)]

theorem block_slot_sep (L : Layout) (B s s2 : Nat) (h : s ≠ s2) :
    block_slot L B s + 2 ≤ block_slot L B s2 ∨ block_slot L B s2 + 2 ≤ block_slot L B s := by
  unfold block_slot DIRENT_SIZE
  omega

/-! ## The search for a free slot (lines 348-360) -/

theorem upto_cons {lo hi : Nat} (h : lo < hi) : upto lo hi = lo :: upto (lo + 1) hi := by
  unfold upto
  have : hi - lo = (hi - (lo + 1)) + 1 := by omega
  rw [this, List.range'_succ]

theorem upto_nil {lo hi : Nat} (h : hi ≤ lo) : upto lo hi = [] := by
  unfold upto
  have : hi - lo = 0 := by omega
  rw [this]; rfl

theorem next_free_eq (L : Layout) (img : Image) (B hi : Nat)
    (hin : block_slot L B hi ≤ L.IMGSIZE) :
    ∀ (n lo : Nat), lo + n = hi →
      next_free L img (block_slot L B lo) (upto lo hi) =
        .ok [] (((upto lo hi).filter
          (fun s => decide (xshort (ld16 img (block_slot L B s)) = 0))).head?.map (block_slot L B))
  | 0, lo, h => by
    rw [upto_nil (by omega)]
    rfl
  | n + 1, lo, h => by
    rw [upto_cons (by omega), next_free]
    have hlo : block_slot L B lo + 2 ≤ L.IMGSIZE := by
      have : block_slot L B lo + 16 ≤ block_slot L B hi := by
        unfold block_slot DIRENT_SIZE; omega
      omega
    have e : de_inum L img (block_slot L B lo) = .ok [] (xshort (ld16 img (block_slot L B lo))) := by
      unfold de_inum
      simp [hlo]
    rw [e]
    simp only [Res.bind_eq, Res.bind_ok, Res.pre_nil]
    by_cases hz : xshort (ld16 img (block_slot L B lo)) = 0
    · rw [if_pos hz, List.filter_cons_of_pos (by simpa using hz)]
      rfl
    · rw [if_neg hz, List.filter_cons_of_neg (by simpa using hz)]
      have : block_slot L B lo + DIRENT_SIZE = block_slot L B (lo + 1) := by
        unfold block_slot; ring
      rw [this]
      exact next_free_eq L img B hi hin n (lo + 1) (by omega)

/-- What `get_next_free_dirent(ip, 0)` returns: the first free slot of the
block of `ip`. -/
theorem get_next_free_dirent_eq (L : Layout) (img : Image) (ip : Nat)
    (hin : block_slot L (dir_block img ip) L.NDIRENT ≤ L.IMGSIZE) :
    get_next_free_dirent L img ip 0 =
      .ok [] ((free_slots L img (dir_block img ip)).head?.map (block_slot L (dir_block img ip))) := by
  unfold get_next_free_dirent free_slots
  by_cases h0 : 0 = L.NDIRENT
  · rw [if_pos h0, upto_nil (by omega)]
    rfl
  · rw [if_neg h0, get_nth_dirent_of_lt L img ip (by omega)]
    simp only [Res.bind_eq, Res.bind_ok, Res.pre_nil]
    have := next_free_eq L img (dir_block img ip) L.NDIRENT hin L.NDIRENT 0 (by omega)
    have e : xshort (daddr img ip 0) * L.BSIZE + 0 * DIRENT_SIZE = block_slot L (dir_block img ip) 0 := by
      unfold block_slot dir_block; rfl
    rw [e]
    exact this

theorem filter_tail {p : Nat → Bool} (s : Nat) :
    ∀ (l F : List Nat), l.Nodup → l.filter p = s :: F →
      l.filter (fun x => p x && !decide (x = s)) = F
  | [], F, _, h => by simp at h
  | x :: l, F, hnd, h => by
    have hnd2 := List.nodup_cons.mp hnd
    by_cases hx : p x = true
    · rw [List.filter_cons_of_pos hx] at h
      cases h
      rw [List.filter_cons_of_neg (by simp)]
      apply List.filter_congr
      intro y hy
      have : y ≠ s := fun e => hnd2.1 (e ▸ hy)
      simp [this]
    · rw [List.filter_cons_of_neg hx] at h
      have hxs : x ≠ s := by
        intro e
        have : s ∈ l.filter p := by rw [h]; exact List.mem_cons_self _ _
        exact hnd2.1 (e ▸ (List.mem_filter.mp this).1)
      rw [List.filter_cons_of_neg (by simp [hx])]
      exact filter_tail s l F hnd2.2 h

/-- A store of a non-zero inode number into the first free slot removes that
slot from the free slots and leaves the others. -/
theorem free_slots_st16 (L : Layout) (img : Image) (B s v : Nat) (F : List Nat)
    (hF : free_slots L img B = s :: F) (hv : v % 65536 ≠ 0) :
    free_slots L (st16 img (block_slot L B s) v) B = F := by
  unfold free_slots at hF ⊢
  rw [← filter_tail s _ F (nodup_upto _ _) hF]
  apply List.filter_congr
  intro y _
  by_cases hy : y = s
  · subst hy
    rw [xshort_ld16, ld16_st16_same]
    simp [hv]
  · rw [ld16_st16_other _ _ _ _ (block_slot_sep L B y s hy)]
    simp [hy]

/-! ## The relocation loop (lines 315-327) -/

theorem place_nil (L : Layout) (B : Nat) (img : Image) : place L B img [] = img := rfl

theorem place_cons (L : Layout) (B : Nat) (img : Image) (a : Nat × Nat) (ps : List (Nat × Nat)) :
    place L B img (a :: ps) = place L B (st16 img (block_slot L B a.2) (xshort a.1)) ps := rfl

/-- The relocation loop: the inodes left in the bitmap go, in ascending order,
into the free slots of the block `B` of `lost_found`, in ascending order, as
far as the slots last; the loop returns if they last and stops with
"lost_found directory is full" if not. -/
theorem relocate_eq (L : Layout) (used : Nat → Nat) (lf B : Nat)
    (hsep : ∀ s, s < L.NDIRENT →
      block_slot L B s + 2 ≤ lf + ADDRS_OFF ∨ lf + ADDRS_OFF + 2 ≤ block_slot L B s)
    (hin : block_slot L B L.NDIRENT ≤ L.IMGSIZE) :
    ∀ (xs : List Nat) (img : Image), dir_block img lf = B →
      (∀ i ∈ xs, is_nth_bit_1 used i = true → xshort i % 65536 ≠ 0) →
      relocate L used lf xs img =
        (if (xs.filter (fun i => is_nth_bit_1 used i)).length ≤ (free_slots L img B).length
          then .ok [] () else .stop [.lostFoundFull] .exit1,
         place L B img ((xs.filter (fun i => is_nth_bit_1 used i)).zip (free_slots L img B)))
  | [], img, _, _ => by
    simp [relocate, place_nil]
  | i :: xs, img, hB, hnz => by
    rw [relocate]
    by_cases hi : is_nth_bit_1 used i = true
    · simp only [hi, Bool.not_true, Bool.false_eq_true, if_false]
      rw [get_next_free_dirent_eq L img lf (by rw [hB]; exact hin), hB,
        List.filter_cons_of_pos hi]
      cases hF : free_slots L img B with
      | nil =>
        simp [place_nil]
      | cons s F =>
        have hs : s < L.NDIRENT := by
          have : s ∈ free_slots L img B := by rw [hF]; exact List.mem_cons_self _ _
          unfold free_slots at this
          exact (mem_upto.mp (List.mem_filter.mp this).1).2
        have hv := hnz i (List.mem_cons_self _ _) hi
        have hB2 : dir_block (st16 img (block_slot L B s) (xshort i)) lf = B := by
          rw [dir_block_eq, ld16_st16_other _ _ _ _ (by have := hsep s hs; omega), ← dir_block_eq, hB]
        have hF2 := free_slots_st16 L img B s (xshort i) F hF hv
        have ih := relocate_eq L used lf B hsep hin xs _ hB2
          (fun j hj => hnz j (List.mem_cons_of_mem _ hj))
        simp only [List.head?_cons, Option.map_some']
        rw [ih, hF2]
        simp only [List.length_cons, Nat.add_le_add_iff_right, List.zip_cons_cons, place_cons]
    · simp only [hi, Bool.not_false, if_true]
      rw [List.filter_cons_of_neg hi]
      exact relocate_eq L used lf B hsep hin xs img hB
        (fun j hj => hnz j (List.mem_cons_of_mem _ hj))

/-- A byte that no store touches keeps its value. -/
theorem place_other (L : Layout) (B : Nat) :
    ∀ (ps : List (Nat × Nat)) (img : Image) (p : Nat),
      (∀ a ∈ ps, p ≠ block_slot L B a.2 ∧ p ≠ block_slot L B a.2 + 1) →
      place L B img ps p = img p
  | [], _, _, _ => rfl
  | a :: ps, img, p, h => by
    rw [place_cons, place_other L B ps _ p (fun b hb => h b (List.mem_cons_of_mem _ hb))]
    have := h a (List.mem_cons_self _ _)
    exact st16_other _ _ _ _ this.1 this.2

theorem ld16_place_other (L : Layout) (B : Nat) (ps : List (Nat × Nat)) (img : Image) (q : Nat)
    (h : ∀ a ∈ ps, q + 2 ≤ block_slot L B a.2 ∨ block_slot L B a.2 + 2 ≤ q) :
    ld16 (place L B img ps) q = ld16 img q := by
  unfold ld16 byte
  rw [place_other L B ps img q (fun a ha => by have := h a ha; omega),
    place_other L B ps img (q + 1) (fun a ha => by have := h a ha; omega)]

/-- A slot that is stored into once holds what was stored. -/
theorem ld16_place_mem (L : Layout) (B : Nat) :
    ∀ (ps : List (Nat × Nat)) (img : Image) (a : Nat × Nat), a ∈ ps →
      (ps.map Prod.snd).Nodup →
      ld16 (place L B img ps) (block_slot L B a.2) = xshort a.1 % 65536
  | [], _, _, h, _ => by simp at h
  | b :: ps, img, a, h, hnd => by
    rw [List.map_cons] at hnd
    have hnd2 := List.nodup_cons.mp hnd
    rw [place_cons]
    rcases List.mem_cons.mp h with e | e
    · subst e
      rw [ld16_place_other L B ps _ _ (fun c hc => by
        have : c.2 ≠ a.2 := fun e2 => hnd2.1 (e2 ▸ List.mem_map_of_mem Prod.snd hc)
        have := block_slot_sep L B a.2 c.2 (Ne.symm this)
        omega), ld16_st16_same]
    · exact ld16_place_mem L B ps _ a e hnd2.2

/-! ## The repair (lines 295-330) -/

theorem zip_snd_nodup : ∀ (a b : List Nat), b.Nodup → ((a.zip b).map Prod.snd).Nodup
  | [], _, _ => by simp
  | _ :: _, [], _ => by simp
  | x :: a, y :: b, h => by
    have h2 := List.nodup_cons.mp h
    rw [List.zip_cons_cons, List.map_cons]
    refine List.nodup_cons.mpr ⟨?_, zip_snd_nodup a b h2.2⟩
    intro hm
    obtain ⟨c, hc, e⟩ := List.mem_map.mp hm
    have := (@List.of_mem_zip Nat Nat c.1 c.2 a b hc).2
    have e2 : c.2 = y := e
    exact h2.1 (by rw [← e2]; exact this)

theorem zip_snd_mem {a b : List Nat} {c : Nat × Nat} (h : c ∈ a.zip b) :
    ∃ k, k < a.length ∧ b[k]? = some c.2 := by
  obtain ⟨k, hk⟩ := List.mem_iff_getElem?.mp h
  have := List.getElem?_zip_eq_some.mp hk
  refine ⟨k, ?_, this.2⟩
  by_contra hc
  rw [List.getElem?_eq_none (Nat.not_lt.mp hc)] at this
  exact Option.noConfusion this.1

/-- The run of the repair, when the validation returned with orphans, the
search found the inode `n` of `lost_found`, the block of that inode lies inside
the image, the inode-number field of none of its slots overlaps the address
field of the inode, and inode 0 is not an orphan. -/
theorem main_repair (L : Layout) (img : Image) (hE : L.NDIRENT * DIRENT_SIZE ≤ L.BSIZE)
    (hN : L.NINODES ≤ 65536) (o : List Msg) (v : Verdict)
    (hv : validate L img true = .ok o v) (hreq : v.repair_required = true)
    (o2 : List Msg) (n : Nat)
    (hlf : find_lost_found L img v.root_ip (upto 0 L.NDIRENT) = .ok o2 (some (inode_at L n)))
    (hsep : ∀ s, s < L.NDIRENT →
      block_slot L (dir_block img (inode_at L n)) s + 2 ≤ inode_at L n + ADDRS_OFF ∨
      inode_at L n + ADDRS_OFF + 2 ≤ block_slot L (dir_block img (inode_at L n)) s)
    (hin : dir_block img (inode_at L n) < L.FSSIZE)
    (h0 : is_nth_bit_1 v.used 0 = false) :
    main L img true =
      Run.mk
        (o ++ (if (orphans L v.used).length ≤
            (free_slots L img (dir_block img (inode_at L n))).length
          then [] else [Msg.lostFoundFull]))
        false
        (if (orphans L v.used).length ≤ (free_slots L img (dir_block img (inode_at L n))).length
          then none else some .exit1)
        (place L (dir_block img (inode_at L n)) img
          ((orphans L v.used).zip (free_slots L img (dir_block img (inode_at L n))))) := by
  have hin2 : block_slot L (dir_block img (inode_at L n)) L.NDIRENT ≤ L.IMGSIZE := by
    have h1 : (dir_block img (inode_at L n) + 1) * L.BSIZE ≤ L.FSSIZE * L.BSIZE :=
      Nat.mul_le_mul_right _ hin
    have h3 : (dir_block img (inode_at L n) + 1) * L.BSIZE =
        dir_block img (inode_at L n) * L.BSIZE + L.BSIZE := by ring
    unfold block_slot Layout.IMGSIZE
    omega
  have hnz : ∀ i ∈ upto 0 L.NINODES, is_nth_bit_1 v.used i = true → xshort i % 65536 ≠ 0 := by
    intro i hi hb
    have hi2 := (mem_upto.mp hi).2
    have : i ≠ 0 := by
      intro e
      rw [e, h0] at hb
      exact Bool.noConfusion hb
    unfold xshort
    omega
  have hrel := relocate_eq L v.used (inode_at L n) _ hsep hin2 (upto 0 L.NINODES) img rfl hnz
  unfold main
  rw [hv]
  simp only [Bool.not_true, Bool.false_eq_true, if_false, hreq]
  unfold repair
  rw [hlf]
  simp only
  unfold orphans
  by_cases hc : (List.filter (fun i => is_nth_bit_1 v.used i) (upto 0 L.NINODES)).length ≤
      (free_slots L img (dir_block img (inode_at L n))).length
  · rw [if_pos hc] at hrel
    rw [hrel, if_pos hc, if_pos hc]
    simp
  · rw [if_neg hc] at hrel
    rw [hrel, if_neg hc, if_neg hc]

/-- The inodes left in the bitmap after the usage pass are the non-free inodes
with reference count 0. -/
theorem orphans_iff (L : Layout) (img : Image) (hT : L.T_DIR ≠ 0) (t : Tables) (o o2 : List Msg)
    (u : (Nat → Nat) × Bool) (ht : analyse L img = .ok o t)
    (hu : check_usage L true t = .ok o2 u) (i : Nat) :
    i ∈ orphans L u.1 ↔ (i < L.NINODES ∧ itype L img i ≠ 0 ∧ t.irefs i = 0) := by
  unfold orphans
  rw [List.mem_filter, mem_upto, (check_usage_ok L true t o2 u hu).1 i,
    (analyse_ok L img t o hT ht).1 i]
  by_cases h1 : i < L.NINODES <;> by_cases h2 : itype L img i = 0 <;>
    by_cases h3 : t.irefs i = 0 <;> simp [h1, h2, h3]

theorem Res.of_holds {α : Type} {x : Res α} {P : α → Bool} (h : x.holds P = true) :
    ∃ o a, x = .ok o a ∧ P a = true := by
  cases x with
  | ok o a => exact ⟨o, a, rfl, h⟩
  | stop o w => simp [Res.holds] at h

theorem ranked_edge {L : Layout} {img : Image} {rank : Nat → Nat}
    (h : ranked L img rank = true) {k j : Nat} (hk : k < L.NINODES)
    (hd : is_dir L img k = true) (h2 : 2 ≤ j) (hj : j < L.NDIRENT)
    (hn : node L img (slot_inum L img k j)) :
    rank (slot_inum L img k j) < rank k := by
  unfold ranked at h
  rw [List.all_eq_true] at h
  have h1 := h k (mem_upto.mpr ⟨Nat.zero_le _, hk⟩)
  rw [hd] at h1
  simp only [Bool.not_true, Bool.false_or, List.all_eq_true] at h1
  have h3 := h1 j (mem_upto.mpr ⟨h2, hj⟩)
  rw [hn.2] at h3
  simpa [hn.1] using h3

theorem ranked_walk {L : Layout} {img : Image} {rank : Nat → Nat}
    (h : ranked L img rank = true) :
    ∀ (q : List Nat) (k c : Nat), q ≠ [] → walk L img k q = some c → node L img c →
      rank c < rank k := by
  intro q
  induction q with
  | nil => intro k c hq; exact absurd rfl hq
  | cons j js ih =>
    intro k c _ hw hc
    rw [walk_cons] at hw
    obtain ⟨⟨hk, hd⟩, h2, hj, hw⟩ := hw
    cases js with
    | nil =>
      rw [walk_nil] at hw
      cases hw
      exact ranked_edge h hk hd h2 hj hc
    | cons j2 js2 =>
      have hm : node L img (slot_inum L img k j) := by
        rw [walk_cons] at hw
        exact hw.1
      have := ih (slot_inum L img k j) c (by simp) hw hc
      have := ranked_edge h hk hd h2 hj hm
      omega

theorem no_cycle_of_ranked {L : Layout} {img : Image} (rank : Nat → Nat)
    (h : ranked L img rank = true) (k : Nat) : ¬ HasCycle L img k := by
  rintro ⟨p, q, c, _, hc, hq, hw⟩
  have := ranked_walk h q c c hq hw hc
  omega

theorem closed_walk {L : Layout} {img : Image} {P : Nat → Bool}
    (h : closed L img P = true) :
    ∀ (p : List Nat) (k c : Nat), P k = true → walk L img k p = some c → P c = true := by
  intro p
  induction p with
  | nil =>
    intro k c hk hw
    rw [walk_nil] at hw
    cases hw
    exact hk
  | cons j js ih =>
    intro k c hP hw
    rw [walk_cons] at hw
    obtain ⟨⟨hk, hd⟩, h2, hj, hw⟩ := hw
    refine ih _ c ?_ hw
    unfold closed at h
    rw [List.all_eq_true] at h
    have h1 := h k (mem_upto.mpr ⟨Nat.zero_le _, hk⟩)
    rw [hP, hd] at h1
    simp only [Bool.and_self, Bool.not_true, Bool.false_or, List.all_eq_true] at h1
    exact h1 j (mem_upto.mpr ⟨h2, hj⟩)

theorem not_reach_of_closed {L : Layout} {img : Image} (P : Nat → Bool)
    (h : closed L img P = true) {k c : Nat} (hk : P k = true) (hc : P c = false) :
    ¬ Reach L img k c := by
  rintro ⟨p, hw, _⟩
  have := closed_walk h p k c hk hw
  rw [hc] at this
  cases this

theorem forall_of_all_upto {a b : Nat} {P : Nat → Bool}
    (h : (upto a b).all P = true) : ∀ j, a ≤ j → j < b → P j = true := by
  intro j h1 h2
  rw [List.all_eq_true] at h
  exact h j (mem_upto.mpr ⟨h1, h2⟩)

/-- C3. An image whose root inode is in use and holds the direct address 65595,
which is not a block of the file system (`FSSIZE` is 1000): the run without
`-r` writes no line and ends with status 0. The address is read into 16 bits,
where it is 59. -/
theorem wide_address_unnoticed :
    itype xv6 img_wide 1 ≠ 0 ∧ xint (daddr img_wide (inode_at xv6 1) 0) = 65595 ∧
    ¬ (65595 < xv6.FSSIZE) ∧ xshort (daddr img_wide (inode_at xv6 1) 0) = 59 ∧
    (main xv6 img_wide false).stderr = [] ∧ (main xv6 img_wide false).halt = none := by
  decide!

/-- C4. An image where every block from 1 on is referenced by at most one
direct address and by no indirect entry, and the two inodes in use have no
indirect block: the run without `-r` reports a direct address used more than
once and ends with status 1. The zero indirect pointers of both inodes are
counted at address 0. -/
theorem zero_pointer_counted :
    (analyse xv6 img_two).holds (fun t => t.direct 0 == 2 &&
      (upto 1 xv6.FSSIZE).all (fun a => decide (t.direct a ≤ 1) && t.indirect a == 0)) = true ∧
    (main xv6 img_two false).stderr = [Msg.directTwice] ∧
    (main xv6 img_two false).halt = some Stop.exit1 := by
  decide!

/-- C1, as stated, fails on `img_abort`: inode 9 is a non-free inode that no
entry names, the root names the directory `lost_found` (inode 2, block 60),
whose block has 30 slots with inode number 0; the repair-mode run reports the
orphan, stops at the assertion of the parent pass, and leaves the first free
slot of `lost_found` at 0. -/
theorem repair_postcondition_fails :
    itype xv6 img_abort 9 ≠ 0 ∧ entry_count xv6 img_abort 9 = 0 ∧
    find_lost_found xv6 img_abort (inode_at xv6 1) (upto 0 xv6.NDIRENT) =
      Res.ok [] (some (inode_at xv6 2)) ∧
    dir_block img_abort (inode_at xv6 2) = 60 ∧
    free_slots xv6 img_abort 60 = upto 2 32 ∧
    Msg.notFound ∈ (main xv6 img_abort true).stderr ∧
    (main xv6 img_abort true).halt = some Stop.abort ∧
    ld16 (main xv6 img_abort true).image (block_slot xv6 60 2) = 0 := by
  decide!

/-- C5, as stated, fails on `img_twice`: the root names directory 2 in two
slots; the repair-mode run reports a cycle, and the directory graph has no
directed cycle. -/
theorem cycle_detection_fails :
    Msg.cycle ∈ (main xv6 img_twice true).stderr ∧ ¬ HasCycle xv6 img_twice 1 := by
  refine ⟨by decide!, ?_⟩
  exact no_cycle_of_ranked (fun k => if k = 1 then 1 else 0) (by decide!) 1

/-- C6, as stated, fails on `img_far`: the directories 8 and 9 are both
unreachable from the root, and the repair-mode run reports one inaccessible
directory. -/
theorem reachability_report_fails :
    node xv6 img_far 8 ∧ node xv6 img_far 9 ∧ ¬ Reach xv6 img_far 1 8 ∧
    ¬ Reach xv6 img_far 1 9 ∧
    (main xv6 img_far true).stderr.count Msg.inaccessible = 1 := by
  have hc : closed xv6 img_far (fun k => decide (k ≤ 1)) = true := by decide!
  exact ⟨by decide!, by decide!, not_reach_of_closed _ hc (by decide) (by decide),
    not_reach_of_closed _ hc (by decide) (by decide), by decide!⟩

/-- C7, as stated, fails on `img_five`: inode 5 is a regular file with link
count 2 that no entry names; the run without `-r` writes the line of the usage
pass alone, and no bad reference count. -/
theorem scenario_a_fails :
    itype xv6 img_five 5 = xv6.T_FILE ∧ xshort (dnlink img_five (inode_at xv6 5)) = 2 ∧
    entry_count xv6 img_five 5 = 0 ∧
    (main xv6 img_five false).stderr = [Msg.notFound] ∧
    Msg.badRefCount ∉ (main xv6 img_five false).stderr := by
  decide!

/-- C8, as stated, fails on `img_root` at n = 0: thirty entries in slots from 2
on of the root directory hold inode number 0, and the count kept for inode 0
is 0. -/
theorem refcount_exact_fails :
    entry_count xv6 img_root 0 = 30 ∧
    (analyse xv6 img_root).holds (fun t => t.irefs 0 == 0) = true := by
  decide!

/-- C9, as stated, fails on `img_lost`: directory 3 has the root as its parent
and no entry of the root names it; the repair-mode run stops at the assertion
for directory 2 and writes no parent mismatch. -/
theorem parent_child_fails :
    is_dir xv6 img_lost 3 = true ∧ slot_inum xv6 img_lost 3 1 = 1 ∧
    is_dir xv6 img_lost 1 = true ∧
    (upto 2 xv6.NDIRENT).all (fun j => decide (slot_inum xv6 img_lost 1 j ≠ 3)) = true ∧
    Msg.parentMismatch ∉ (main xv6 img_lost true).stderr ∧
    (main xv6 img_lost true).halt = some Stop.abort := by
  decide!

/-- The amended C5 at `img_twice` on the small layout: the traversal needs no
more fuel than it is given, it returns true, and directory 2 is the end of two
slot sequences from the root. -/
theorem cycle_detection_witness :
    (∃ t, (analyse mini img_twice).val? = some t ∧
      (has_directory_cycle mini img_twice (mini.NINODES + 1) t.tdir 1).why ≠ some Stop.fuel) ∧
    MeetsTwice mini img_twice 1 := by
  have key : (analyse mini img_twice).holds (fun t =>
      (has_directory_cycle mini img_twice (mini.NINODES + 1) t.tdir 1).holds
        (fun r => r.1)) = true := by decide!
  obtain ⟨o, t, ht, hP⟩ := Res.of_holds key
  obtain ⟨o2, r, hr, hb⟩ := Res.of_holds hP
  have h := cycle_detection mini img_twice (by decide) (by decide) (by decide) t o ht
  exact ⟨⟨t, by rw [ht]; rfl, h.1⟩, (h.2.2.1 o2 r.1 r.2 hr).mp hb⟩

/-- The amended C6 at `img_far` on the small layout: the traversal returns a
working set that still holds the unreachable directories 8 and 9, and the
number of lines about inaccessible directories is the number of non-zero bytes
of that set. -/
theorem reachability_report_witness :
    ∃ W2, is_nth_bit_1 W2 8 = true ∧ is_nth_bit_1 W2 9 = true ∧
      (main mini img_far true).stderr.count Msg.inaccessible =
        (upto 0 mini.INODEBMAPSIZE).countP
          (fun k => (upto 0 8).any (fun j => is_nth_bit_1 W2 (8 * k + j))) := by
  obtain ⟨t, b, W2, _, _, _, h2, _, h4, _⟩ :=
    reachability_report mini img_far (by decide) (by decide) (by decide) (by decide!)
  have hc : closed mini img_far (fun k => decide (k ≤ 1)) = true := by decide!
  exact ⟨W2, h2 8 (by decide!) (not_reach_of_closed _ hc (by decide) (by decide)),
    h2 9 (by decide!) (not_reach_of_closed _ hc (by decide) (by decide)), h4⟩

/-- The amended C7 at `img_five` on the small layout: the repair-mode run
reports the bad reference count, the run without `-r` does not. -/
theorem scenario_a_witness :
    Msg.badRefCount ∈ (main mini img_five true).stderr ∧
    Msg.badRefCount ∉ (main mini img_five false).stderr := by
  have hall : (upto 0 mini.NINODES).all (fun d => !is_dir mini img_five d ||
      (upto 2 mini.NDIRENT).all
        (fun j => decide (slot_inum mini img_five d j ≠ 5))) = true := by decide!
  refine scenario_a mini img_five (by decide) (by decide) (by decide) (by decide) (by decide!)
    (by decide!) ?_ (by decide!)
  intro d hd hdir j h2 hj
  have h1 := forall_of_all_upto hall d (Nat.zero_le d) hd
  rw [hdir] at h1
  exact of_decide_eq_true (forall_of_all_upto h1 j h2 hj)

/-- The amended C8 at `img_two` on the small layout: the count kept for inode 2,
which one entry names, is 1. -/
theorem refcount_exact_witness :
    ∃ t, analyse mini img_two = Res.ok [] t ∧ t.irefs 0 = 0 ∧ t.irefs 2 = 1 := by
  obtain ⟨t, ht, h0, hc, _⟩ :=
    refcount_exact mini img_two (by decide) (by decide) (by decide) (by decide!)
  have he : entry_count mini img_two 2 = 1 := by decide!
  have h2 := hc 2 (by decide) (by rw [he]; decide)
  rw [he] at h2
  exact ⟨t, ht, h0, h2⟩

/-- The amended C9 at directory 4 of `img_child` on the small layout: its parent
3 is a directory without an entry naming 4, and the run reports the parent
mismatch. -/
theorem parent_child_witness :
    Msg.parentMismatch ∈ (main mini img_child true).stderr := by
  have h := parent_child mini img_child (by decide) (by decide) (by decide!) 4 (by decide)
    (by decide) (by decide!) (by decide!)
    (by
      intro k h2 h4 _
      have hk : k = 2 ∨ k = 3 := by omega
      rcases hk with rfl | rfl <;> decide!)
  have hs : slot_inum mini img_child 4 1 = 3 := by decide!
  have hall : (upto 2 mini.NDIRENT).all
      (fun j => decide (slot_inum mini img_child 3 j ≠ 4)) = true := by decide!
  apply h.2.2
  apply h.2.1.mpr
  rw [hs]
  intro j h2 hj
  exact of_decide_eq_true (forall_of_all_upto hall j h2 hj)

/-- C10 at block 60 of `img_marked` on the small layout: the block is marked,
no inode uses it, and the run reports it. -/
theorem marked_implies_used_witness :
    is_nth_bit_1 (disk_bitmap mini img_marked) 60 = true ∧
    Msg.markedNotUsed ∈ (main mini img_marked true).stderr := by
  obtain ⟨t, ht, h1, _⟩ :=
    marked_implies_used mini img_marked (by decide) (by decide) (by decide) (by decide)
      (by decide!)
  have key : (analyse mini img_marked).holds
      (fun t => t.direct 60 == 0 && t.indirect 60 == 0) = true := by decide!
  rw [ht] at key
  simp only [Res.holds, Bool.and_eq_true, beq_iff_eq] at key
  exact ⟨by decide!, h1 60 (by decide) (by decide) (by decide!) key.1 key.2⟩

/-! ## The image after the repair, read again -/

theorem slot_at_eq (L : Layout) (img : Image) (d j : Nat) :
    slot_at L img d j = block_slot L (dir_block img (inode_at L d)) j := rfl

/-- Stores into the slots of a block that holds no part of the inode table
leave the inode table as it was. -/
theorem ld16_place_inode (L : Layout) (B : Nat)
    (htab : block_slot L B L.NDIRENT ≤ L.INODESTART * L.BSIZE ∨
      L.INODESTART * L.BSIZE + L.NINODES * L.DINODE_SIZE ≤ B * L.BSIZE)
    (ps : List (Nat × Nat)) (hps : ∀ a ∈ ps, a.2 < L.NDIRENT) (img : Image) (d off : Nat)
    (hd : d < L.NINODES) (hoff : off + 2 ≤ L.DINODE_SIZE) :
    ld16 (place L B img ps) (inode_at L d + off) = ld16 img (inode_at L d + off) := by
  apply ld16_place_other
  intro a ha
  have h0 := hps a ha
  have h1 : (d + 1) * L.DINODE_SIZE ≤ L.NINODES * L.DINODE_SIZE := Nat.mul_le_mul_right _ hd
  rw [Nat.add_mul, Nat.one_mul] at h1
  unfold inode_at
  unfold block_slot DIRENT_SIZE at htab ⊢
  rcases htab with h | h
  · right; omega
  · left; omega

theorem itype_place (L : Layout) (B : Nat)
    (htab : block_slot L B L.NDIRENT ≤ L.INODESTART * L.BSIZE ∨
      L.INODESTART * L.BSIZE + L.NINODES * L.DINODE_SIZE ≤ B * L.BSIZE)
    (ps : List (Nat × Nat)) (hps : ∀ a ∈ ps, a.2 < L.NDIRENT) (img : Image) (d : Nat)
    (hd : d < L.NINODES) :
    itype L (place L B img ps) d = itype L img d := by
  unfold itype dtype
  have := ld16_place_inode L B htab ps hps img d 0 hd
    (by unfold Layout.DINODE_SIZE ADDRS_OFF; omega)
  rw [Nat.add_zero] at this
  rw [this]

theorem is_dir_place (L : Layout) (B : Nat)
    (htab : block_slot L B L.NDIRENT ≤ L.INODESTART * L.BSIZE ∨
      L.INODESTART * L.BSIZE + L.NINODES * L.DINODE_SIZE ≤ B * L.BSIZE)
    (ps : List (Nat × Nat)) (hps : ∀ a ∈ ps, a.2 < L.NDIRENT) (img : Image) (d : Nat)
    (hd : d < L.NINODES) :
    is_dir L (place L B img ps) d = is_dir L img d := by
  unfold is_dir
  rw [itype_place L B htab ps hps img d hd]

theorem dir_block_place (L : Layout) (B : Nat)
    (htab : block_slot L B L.NDIRENT ≤ L.INODESTART * L.BSIZE ∨
      L.INODESTART * L.BSIZE + L.NINODES * L.DINODE_SIZE ≤ B * L.BSIZE)
    (ps : List (Nat × Nat)) (hps : ∀ a ∈ ps, a.2 < L.NDIRENT) (img : Image) (d : Nat)
    (hd : d < L.NINODES) :
    dir_block (place L B img ps) (inode_at L d) = dir_block img (inode_at L d) := by
  rw [dir_block_eq, dir_block_eq]
  exact ld16_place_inode L B htab ps hps img d ADDRS_OFF hd
    (by unfold Layout.DINODE_SIZE ADDRS_OFF; omega)

/-- A slot of another block is not touched. -/
theorem ld16_place_off (L : Layout) (B : Nat) (hE : L.NDIRENT * DIRENT_SIZE ≤ L.BSIZE)
    (ps : List (Nat × Nat)) (img : Image) (Bd j : Nat) (hj : j < L.NDIRENT) (hne : Bd ≠ B)
    (hps : ∀ a ∈ ps, a.2 < L.NDIRENT) :
    ld16 (place L B img ps) (block_slot L Bd j) = ld16 img (block_slot L Bd j) := by
  apply ld16_place_other
  intro a ha
  have h1 := hps a ha
  unfold block_slot
  unfold DIRENT_SIZE at hE ⊢
  rcases Nat.lt_or_gt_of_ne hne with h | h
  · left
    have h2 : (Bd + 1) * L.BSIZE ≤ B * L.BSIZE := Nat.mul_le_mul_right _ h
    rw [Nat.add_mul, Nat.one_mul] at h2
    omega
  · right
    have h2 : (B + 1) * L.BSIZE ≤ Bd * L.BSIZE := Nat.mul_le_mul_right _ h
    rw [Nat.add_mul, Nat.one_mul] at h2
    omega

/-- A slot of the block that no store names is not touched. -/
theorem ld16_place_miss (L : Layout) (B : Nat) (ps : List (Nat × Nat)) (img : Image) (j : Nat)
    (h : ∀ a ∈ ps, a.2 ≠ j) :
    ld16 (place L B img ps) (block_slot L B j) = ld16 img (block_slot L B j) := by
  apply ld16_place_other
  intro a ha
  exact block_slot_sep L B j a.2 (fun e => h a ha e.symm)

theorem countP_or_one (p : Nat → Bool) (s : Nat) (hp : p s = false) :
    ∀ (l : List Nat), l.Nodup → s ∈ l →
      l.countP (fun j => p j || decide (j = s)) = l.countP p + 1
  | [], _, h => by simp at h
  | x :: l, hnd, h => by
    have hnd2 := List.nodup_cons.mp hnd
    by_cases hx : x = s
    · subst hx
      have hrest : l.countP (fun j => p j || decide (j = x)) = l.countP p := by
        apply List.countP_congr
        intro j hj
        have : j ≠ x := fun e => hnd2.1 (e ▸ hj)
        simp [this]
      rw [List.countP_cons, List.countP_cons, hrest, hp]
      simp
    · have hs : s ∈ l := by
        rcases List.mem_cons.mp h with e | e
        · exact absurd e.symm hx
        · exact e
      rw [List.countP_cons, List.countP_cons, countP_or_one p s hp l hnd2.2 hs]
      simp only [hx, decide_False, Bool.or_false]
      omega

/-- The slots of block `B` from 2 on that hold `n ≠ 0`, after stores of
distinct non-zero numbers into distinct free slots from 2 on: one more if `n`
is among the numbers stored. -/
theorem slots_place (L : Layout) (B : Nat) (ps : List (Nat × Nat)) (img : Image) (n : Nat)
    (hn : n ≠ 0) (hfst : (ps.map Prod.fst).Nodup) (hsnd : (ps.map Prod.snd).Nodup)
    (hps : ∀ a ∈ ps, 2 ≤ a.2 ∧ a.2 < L.NDIRENT ∧ ld16 img (block_slot L B a.2) = 0 ∧
      a.1 < 65536) :
    (upto 2 L.NDIRENT).countP
        (fun j => decide (xshort (ld16 (place L B img ps) (block_slot L B j)) = n)) =
      (upto 2 L.NDIRENT).countP (fun j => decide (xshort (ld16 img (block_slot L B j)) = n)) +
        (if n ∈ ps.map Prod.fst then 1 else 0) := by
  have hval : ∀ a ∈ ps, xshort (ld16 (place L B img ps) (block_slot L B a.2)) = a.1 := by
    intro a ha
    rw [ld16_place_mem L B ps img a ha hsnd]
    have := (hps a ha).2.2.2
    unfold xshort
    omega
  have hold : ∀ a ∈ ps, xshort (ld16 img (block_slot L B a.2)) ≠ n := by
    intro a ha
    rw [(hps a ha).2.2.1]
    exact fun e => hn e.symm
  have hmiss : ∀ j, (∀ a ∈ ps, a.2 ≠ j) →
      xshort (ld16 (place L B img ps) (block_slot L B j)) =
        xshort (ld16 img (block_slot L B j)) := by
    intro j hj
    rw [ld16_place_miss L B ps img j hj]
  by_cases hmem : n ∈ ps.map Prod.fst
  · rw [if_pos hmem]
    obtain ⟨a, ha, rfl⟩ := List.mem_map.mp hmem
    have hs : a.2 ∈ upto 2 L.NDIRENT := mem_upto.mpr ⟨(hps a ha).1, (hps a ha).2.1⟩
    rw [← countP_or_one _ a.2 (by simpa using hold a ha) _ (nodup_upto _ _) hs]
    apply List.countP_congr
    intro j _
    by_cases hj : j = a.2
    · subst hj
      simp [hval a ha]
    · by_cases hex : ∃ b ∈ ps, b.2 = j
      · obtain ⟨b, hb, rfl⟩ := hex
        have hba : b.1 ≠ a.1 := by
          intro e
          have := List.inj_on_of_nodup_map hfst hb ha e
          exact hj (by rw [this])
        have h1 := hval b hb
        have h2 := hold b hb
        simp [h1, hba, h2, hj]
      · have hj2 : ∀ b ∈ ps, b.2 ≠ j := fun b hb e => hex ⟨b, hb, e⟩
        rw [hmiss j hj2]
        simp [hj]
  · rw [if_neg hmem, Nat.add_zero]
    apply List.countP_congr
    intro j _
    by_cases hex : ∃ b ∈ ps, b.2 = j
    · obtain ⟨b, hb, rfl⟩ := hex
      have hbn : b.1 ≠ n := fun e => hmem (List.mem_map.mpr ⟨b, hb, e⟩)
      have h1 := hval b hb
      have h2 := hold b hb
      simp [h1, hbn, h2]
    · have hj2 : ∀ b ∈ ps, b.2 ≠ j := fun b hb e => hex ⟨b, hb, e⟩
      rw [hmiss j hj2]

/-- The slots of any block from 2 on that hold `n ≠ 0`, after the stores. -/
theorem count_block_place (L : Layout) (B : Nat) (hE : L.NDIRENT * DIRENT_SIZE ≤ L.BSIZE)
    (ps : List (Nat × Nat)) (img : Image) (n : Nat)
    (hn : n ≠ 0) (hfst : (ps.map Prod.fst).Nodup) (hsnd : (ps.map Prod.snd).Nodup)
    (hps : ∀ a ∈ ps, 2 ≤ a.2 ∧ a.2 < L.NDIRENT ∧ ld16 img (block_slot L B a.2) = 0 ∧
      a.1 < 65536) (Bd : Nat) :
    (upto 2 L.NDIRENT).countP
        (fun j => decide (xshort (ld16 (place L B img ps) (block_slot L Bd j)) = n)) =
      (upto 2 L.NDIRENT).countP (fun j => decide (xshort (ld16 img (block_slot L Bd j)) = n)) +
        (if n ∈ ps.map Prod.fst ∧ Bd = B then 1 else 0) := by
  by_cases hb : Bd = B
  · subst hb
    rw [slots_place L Bd ps img n hn hfst hsnd hps]
    by_cases hm : n ∈ ps.map Prod.fst
    · rw [if_pos hm, if_pos ⟨hm, rfl⟩]
    · rw [if_neg hm, if_neg (fun h => hm h.1)]
  · rw [if_neg (fun h => hb h.2), Nat.add_zero]
    apply List.countP_congr
    intro j hj
    rw [ld16_place_off L B hE ps img _ j (mem_upto.mp hj).2 hb (fun a ha => (hps a ha).2.1)]

theorem slots_naming_place (L : Layout) (B : Nat) (hE : L.NDIRENT * DIRENT_SIZE ≤ L.BSIZE)
    (htab : block_slot L B L.NDIRENT ≤ L.INODESTART * L.BSIZE ∨
      L.INODESTART * L.BSIZE + L.NINODES * L.DINODE_SIZE ≤ B * L.BSIZE)
    (ps : List (Nat × Nat)) (img : Image) (n : Nat)
    (hn : n ≠ 0) (hfst : (ps.map Prod.fst).Nodup) (hsnd : (ps.map Prod.snd).Nodup)
    (hps : ∀ a ∈ ps, 2 ≤ a.2 ∧ a.2 < L.NDIRENT ∧ ld16 img (block_slot L B a.2) = 0 ∧
      a.1 < 65536) (d : Nat) (hd : d < L.NINODES) :
    slots_naming L (place L B img ps) d n =
      slots_naming L img d n +
        (if n ∈ ps.map Prod.fst ∧ dir_block img (inode_at L d) = B then 1 else 0) := by
  unfold slots_naming slot_inum
  simp only [slot_at_eq, dir_block_place L B htab ps (fun a ha => (hps a ha).2.1) img d hd]
  exact count_block_place L B hE ps img n hn hfst hsnd hps _

/-- The entries naming `n ≠ 0` after the stores: one more for every directory
inode whose block is `B`, if `n` is among the numbers stored. -/
theorem entries_in_place (L : Layout) (B : Nat) (hE : L.NDIRENT * DIRENT_SIZE ≤ L.BSIZE)
    (htab : block_slot L B L.NDIRENT ≤ L.INODESTART * L.BSIZE ∨
      L.INODESTART * L.BSIZE + L.NINODES * L.DINODE_SIZE ≤ B * L.BSIZE)
    (ps : List (Nat × Nat)) (img : Image) (n : Nat)
    (hn : n ≠ 0) (hfst : (ps.map Prod.fst).Nodup) (hsnd : (ps.map Prod.snd).Nodup)
    (hps : ∀ a ∈ ps, 2 ≤ a.2 ∧ a.2 < L.NDIRENT ∧ ld16 img (block_slot L B a.2) = 0 ∧
      a.1 < 65536) :
    ∀ (ds : List Nat), (∀ d ∈ ds, d < L.NINODES) →
      entries_in L (place L B img ps) ds n =
        entries_in L img ds n + (if n ∈ ps.map Prod.fst then
          ds.countP (fun d => is_dir L img d && decide (dir_block img (inode_at L d) = B))
          else 0)
  | [], _ => by simp [entries_in]
  | d :: ds, h => by
    have hd : d < L.NINODES := h d (List.mem_cons_self _ _)
    have ih := entries_in_place L B hE htab ps img n hn hfst hsnd hps ds
      (fun x hx => h x (List.mem_cons_of_mem _ hx))
    have hs := slots_naming_place L B hE htab ps img n hn hfst hsnd hps d hd
    unfold entries_in at ih ⊢
    rw [List.map_cons, List.sum_cons, List.map_cons, List.sum_cons, ih, List.countP_cons,
      is_dir_place L B htab ps (fun a ha => (hps a ha).2.1) img d hd, hs]
    cases hdir : is_dir L img d
    · simp
    · by_cases hmem : n ∈ ps.map Prod.fst
      · by_cases hb : dir_block img (inode_at L d) = B
        · simp only [hmem, hb, if_true, Bool.true_and, decide_True, and_self]
          omega
        · simp only [hmem, hb, if_true, if_false, Bool.true_and, decide_False, and_false,
            Bool.false_eq_true]
          omega
      · simp only [hmem, if_true, if_false, false_and]
        omega

theorem pure_eq_ok_out {α : Type} {a b : α} {o : List Msg} (h : (pure a : Res α) = .ok o b) :
    o = [] := by
  cases h; rfl

/-- A loop with state that returns, by an invariant over the lines written and
the state. -/
theorem foldlM_inv_out {σ : Type} {f : σ → Nat → Res σ} (I : List Msg → σ → Prop)
    (step : ∀ (x : Nat) (s s2 : σ) (o o2 : List Msg),
      I o s → f s x = .ok o2 s2 → I (o ++ o2) s2) :
    ∀ (xs : List Nat) (s s2 : σ) (o0 o : List Msg),
      I o0 s → xs.foldlM f s = .ok o s2 → I (o0 ++ o) s2
  | [], s, s2, o0, o, hI, h => by
    rw [foldlM_nil_eq] at h
    cases h
    simpa using hI
  | x :: xs, s, s2, o0, o, hI, h => by
    rw [foldlM_cons_eq] at h
    obtain ⟨o1, a, o2, h1, h2, e⟩ := Res.bind_eq_ok h
    have := foldlM_inv_out I step xs a s2 (o0 ++ o1) o2 (step x s a o0 o1 hI h1) h2
    rw [e, ← List.append_assoc]
    exact this

/-- The usage pass writes "inode marked used but not found in a directory" only
if it asks for the repair. -/
theorem check_usage_notFound (L : Layout) (t : Tables) (o : List Msg)
    (u : (Nat → Nat) × Bool) (h : check_usage L true t = .ok o u)
    (hm : Msg.notFound ∈ o) : u.2 = true := by
  unfold check_usage at h
  have key := foldlM_inv_out
    (fun out (s : (Nat → Nat) × Bool) => Msg.notFound ∈ out → s.2 = true)
    ?_ (upto 0 L.NINODES) (t.used, false) u [] o (by simp) h
  · exact key (by simpa using hm)
  · intro x s s2 o1 o2 hI hx hmem
    obtain ⟨o0, used, o00, e0, e00, eo⟩ := Res.bind_eq_ok hx
    obtain ⟨o3, req, o4, e1, e2, eo2⟩ := Res.bind_eq_ok e00
    obtain ⟨o5, _, o6, e3, e4, eo3⟩ := Res.bind_eq_ok e2
    have e5 := pure_eq_ok e4
    have e6 := pure_eq_ok_out e4
    subst e5
    show req = true
    have h0 : o0 = [] := by
      split at e0
      · exact pure_eq_ok_out e0
      · exact pure_eq_ok_out e0
    have h5 : Msg.notFound ∉ o5 := by
      split at e3
      · rw [error_repair] at e3
        cases e3
        simp
      · rw [pure_eq_ok_out e3]
        simp
    split at e1
    · obtain ⟨_, _, _, _, e7, _⟩ := Res.bind_eq_ok e1
      exact (pure_eq_ok e7).symm
    · rw [← pure_eq_ok e1]
      apply hI
      have h3 := pure_eq_ok_out e1
      subst eo eo2 eo3 h0 h3 e6
      simp only [List.nil_append, List.append_nil, List.mem_append] at hmem
      rcases hmem with hmem | hmem
      · exact hmem
      · exact absurd hmem h5

theorem notFound_early_out (L : Layout) (img : Image) (t : Tables)
    (h : Msg.notFound ∈ early_out L img t) : Msg.notFound ∈ (check_usage L true t).out := by
  unfold early_out at h
  simp only [List.mem_append] at h
  rcases h with (((((((((((h | h) | h) | h) | h) | h) | h) | h) | h) | h) | h) | h)
  · exact absurd (check_types_out _ _ _ _ h) (by decide)
  · exact absurd (check_bounds_out _ _ _ _ _ h) (by decide)
  · exact absurd (check_bounds_out _ _ _ _ _ h) (by decide)
  · exact absurd (check_root_out _ _ _ _ h) (by decide)
  · exact absurd (check_format_out _ _ _ _ h) (by decide)
  · exact absurd (check_marked_out _ _ _ _ _ h) (by decide)
  · exact absurd (check_marked_out _ _ _ _ _ h) (by decide)
  · exact absurd (check_residual_out _ _ _ _ h) (by decide)
  · rcases check_aliasing_out _ _ _ _ h with h | h <;> exact absurd h (by decide)
  · exact h
  · exact absurd (check_nlink_out _ _ _ _ _ h) (by decide)
  · exact absurd (check_dirlink_out _ _ _ _ _ h) (by decide)

theorem notFound_tree_out (L : Layout) (b : Bool) (W2 : Nat → Nat) :
    Msg.notFound ∉ tree_out L b W2 := by
  unfold tree_out
  intro h
  rcases List.mem_append.mp h with h | h
  · cases b <;> simp at h
  · obtain ⟨i, _, hi⟩ := List.mem_flatMap.mp h
    split at hi <;> simp at hi

theorem length_upto (lo hi : Nat) : (upto lo hi).length = hi - lo := by
  unfold upto
  rw [List.length_range']

/-- C2, as stated, fails on `img_orphan 2`: the repair-mode run reports the
orphan 9, stores it in slot 2 of `lost_found` and ends with status 0; the
second repair-mode run on the resulting image reports a bad reference count,
because the file has link count 2 and one entry. -/
theorem repair_round_trip_fails :
    (main xv6 (img_orphan 2) true).halt = none ∧
    Msg.notFound ∈ (main xv6 (img_orphan 2) true).stderr ∧
    ld16 (main xv6 (img_orphan 2) true).image (block_slot xv6 60 2) = 9 ∧
    (main xv6 (main xv6 (img_orphan 2) true).image true).stderr = [Msg.badRefCount] := by
  decide!

/-! ## The run without `-r` is the repair-mode run cut at its first line -/

theorem Res.cut_of_silent {α : Type} {x : Res α} (h : x.out = []) : x.cut = x := by
  unfold Res.cut
  rw [h]

theorem Res.cut_pure {α : Type} (a : α) : (pure a : Res α).cut = pure a := rfl

theorem cut_error (m : Msg) : (error true m).cut = error false m := rfl

theorem Res.cut_bind {α β : Type} (x : Res α) (f : α → Res β) :
    (x >>= f).cut = x.cut >>= fun a => (f a).cut := by
  cases x with
  | ok o a =>
    cases o with
    | nil =>
      simp only [Res.bind_eq, Res.bind_ok, Res.pre_nil]
      rw [@Res.cut_of_silent α (Res.ok [] a) rfl]
      simp
    | cons m o =>
      cases hf : f a <;> simp [Res.cut, hf]
  | stop o s =>
    cases o with
    | nil => simp [Res.cut]
    | cons m o => simp [Res.cut]

theorem Res.cut_ite {α : Type} (c : Prop) [Decidable c] (x y : Res α) :
    (if c then x else y).cut = if c then x.cut else y.cut := by
  split <;> rfl

theorem Res.out_cut {α : Type} (x : Res α) : x.cut.out = x.out.take 1 := by
  unfold Res.cut
  cases h : x.out with
  | nil => simp [h]
  | cons m o => simp

theorem Res.why_cut {α : Type} (x : Res α) :
    x.cut.why = if x.out = [] then x.why else some .exit1 := by
  unfold Res.cut
  cases h : x.out with
  | nil => simp
  | cons m o => simp

theorem forM_cut {f g : Nat → Res Unit} (h : ∀ i, (f i).cut = g i) :
    ∀ (xs : List Nat), (xs.forM f).cut = xs.forM g
  | [] => rfl
  | x :: xs => by
    rw [forM_cons_eq, forM_cons_eq, ← Res.bind_eq, Res.cut_bind, h x]
    simp only [forM_cut h xs]
    rfl

theorem foldlM_cut {σ : Type} {f g : σ → Nat → Res σ} (h : ∀ s i, (f s i).cut = g s i) :
    ∀ (xs : List Nat) (s : σ), (xs.foldlM f s).cut = xs.foldlM g s
  | [], _ => rfl
  | x :: xs, s => by
    rw [foldlM_cons_eq, foldlM_cons_eq, ← Res.bind_eq, Res.cut_bind, h s x]
    simp only [foldlM_cut h xs]
    rfl

theorem check_types_cut (L : Layout) (img : Image) :
    (check_types L img true).cut = check_types L img false := by
  unfold check_types
  refine forM_cut (fun i => ?_) _
  rw [Res.cut_bind, Res.cut_of_silent (get_nth_inode_silent _ _)]
  simp only [Res.cut_ite, Res.cut_pure, cut_error]

theorem check_bounds_cut (L : Layout) (refs : Nat → Nat) (m : Msg) :
    (check_bounds L true refs m).cut = check_bounds L false refs m := by
  unfold check_bounds
  refine forM_cut (fun i => ?_) _
  simp only [Res.cut_ite, Res.cut_pure, cut_error]

theorem get_nth_inode_cut (L : Layout) (n : Nat) : (get_nth_inode L n).cut = get_nth_inode L n :=
  Res.cut_of_silent (get_nth_inode_silent _ _)

theorem get_nth_dirent_cut (L : Layout) (img : Image) (ip n : Nat) :
    (get_nth_dirent L img ip n).cut = get_nth_dirent L img ip n :=
  Res.cut_of_silent (get_nth_dirent_silent _ _ _ _)

theorem de_inum_cut (L : Layout) (img : Image) (de : Nat) :
    (de_inum L img de).cut = de_inum L img de :=
  Res.cut_of_silent (de_inum_silent _ _ _)

theorem streq_cut (L : Layout) (img : Image) (p : Nat) (s : List Nat) :
    (streq L img p s).cut = streq L img p s :=
  Res.cut_of_silent (streq_silent _ _ _ _)

theorem parent_names_cut (L : Layout) (img : Image) (ip i : Nat) :
    (parent_names L img ip i).cut = parent_names L img ip i :=
  Res.cut_of_silent (parent_names_silent _ _ _ _)

theorem has_directory_cycle_cut (L : Layout) (img : Image) (fuel : Nat) (W : Nat → Nat) (k : Nat) :
    (has_directory_cycle L img fuel W k).cut = has_directory_cycle L img fuel W k :=
  Res.cut_of_silent (has_directory_cycle_silent _ _ _ _ _)

theorem analyse_cut (L : Layout) (img : Image) : (analyse L img).cut = analyse L img :=
  Res.cut_of_silent (analyse_out _ _)

theorem check_root_cut (L : Layout) (img : Image) :
    (check_root L img true).cut = check_root L img false := by
  unfold check_root
  simp only [Res.cut_bind, Res.cut_ite, Res.cut_pure, cut_error, get_nth_inode_cut,
    get_nth_dirent_cut, de_inum_cut]

theorem check_format_cut (L : Layout) (img : Image) :
    (check_format L img true).cut = check_format L img false := by
  unfold check_format
  refine forM_cut (fun i => ?_) _
  simp only [Res.cut_bind, Res.cut_ite, Res.cut_pure, cut_error, get_nth_inode_cut,
    get_nth_dirent_cut, de_inum_cut, streq_cut]

theorem check_marked_cut (L : Layout) (bitmap refs : Nat → Nat) :
    (check_marked L true bitmap refs).cut = check_marked L false bitmap refs := by
  unfold check_marked
  refine forM_cut (fun i => ?_) _
  simp only [Res.cut_ite, Res.cut_pure, cut_error]

theorem check_residual_cut (L : Layout) (ub : Nat → Nat) :
    (check_residual L true ub).cut = check_residual L false ub := by
  unfold check_residual
  rw [Res.cut_bind]
  simp only [Res.cut_ite, Res.cut_pure, cut_error]
  congr 1
  funext _
  refine forM_cut (fun i => ?_) _
  simp only [Res.cut_ite, Res.cut_pure, cut_error]

theorem check_aliasing_cut (L : Layout) (t : Tables) :
    (check_aliasing L true t).cut = check_aliasing L false t := by
  unfold check_aliasing
  rw [Res.cut_bind]
  congr 1
  · refine forM_cut (fun i => ?_) _
    simp only [Res.cut_ite, Res.cut_pure, cut_error]
  · funext _
    refine forM_cut (fun i => ?_) _
    simp only [Res.cut_ite, Res.cut_pure, cut_error]

theorem check_usage_cut (L : Layout) (t : Tables) :
    (check_usage L true t).cut = check_usage L false t := by
  unfold check_usage
  refine foldlM_cut (fun s i => ?_) _ _
  simp only [Res.cut_bind, Res.cut_ite, Res.cut_pure, cut_error]

theorem check_nlink_cut (L : Layout) (img : Image) (t : Tables) :
    (check_nlink L img true t).cut = check_nlink L img false t := by
  unfold check_nlink
  refine forM_cut (fun i => ?_) _
  simp only [Res.cut_bind, Res.cut_ite, Res.cut_pure, cut_error, get_nth_inode_cut]

theorem check_dirlink_cut (L : Layout) (img : Image) (t : Tables) :
    (check_dirlink L img true t).cut = check_dirlink L img false t := by
  unfold check_dirlink
  refine forM_cut (fun i => ?_) _
  simp only [Res.cut_bind, Res.cut_ite, Res.cut_pure, cut_error, get_nth_inode_cut]

theorem check_parents_cut (L : Layout) (img : Image) :
    (check_parents L img true).cut = check_parents L img false := by
  unfold check_parents
  refine forM_cut (fun i => ?_) _
  unfold check_parent
  simp only [Res.cut_bind, Res.cut_ite, Res.cut_pure, cut_error, get_nth_inode_cut,
    get_nth_dirent_cut, de_inum_cut, parent_names_cut]

theorem check_tree_cut (L : Layout) (img : Image) (tdir : Nat → Nat) :
    (check_tree L img true tdir).cut = check_tree L img false tdir := by
  unfold check_tree
  rw [Res.cut_bind, has_directory_cycle_cut]
  congr 1
  funext r
  rw [Res.cut_bind]
  simp only [Res.cut_ite, Res.cut_pure, cut_error]
  congr 1
  funext _
  refine forM_cut (fun i => ?_) _
  simp only [Res.cut_ite, Res.cut_pure, cut_error]

/-- The validation without `-r` is the validation in repair mode cut at its
first line. -/
theorem validate_cut (L : Layout) (img : Image) :
    validate L img false = (validate L img true).cut := by
  unfold validate
  simp only [Res.cut_bind, Res.cut_pure, check_types_cut, analyse_cut, check_bounds_cut,
    check_root_cut, check_format_cut, check_marked_cut, check_residual_cut, check_aliasing_cut,
    check_usage_cut, check_nlink_cut, check_dirlink_cut, check_parents_cut, check_tree_cut]

/-! ## The run without `-r` -/

/-- What `main` leaves without `-r`. -/
theorem main_strict (L : Layout) (img : Image) :
    (main L img false).stderr = (validate L img false).out ∧
    (main L img false).halt = (validate L img false).why ∧
    (main L img false).image = img ∧ (main L img false).confirmed = false := by
  unfold main
  cases validate L img false with
  | ok o v => exact ⟨rfl, rfl, rfl, rfl⟩
  | stop o s => exact ⟨rfl, rfl, rfl, rfl⟩

/-- C13. Fail-fast and exit status without `-r`. The error stream of a run
without `-r` is the first line of what the validation in repair mode, which
runs every pass, writes, if it writes any: at most one line. If a line is
written, the validation stops there with `exit(1)`, so no later pass runs and
the status is 1. The status is 0 if and only if the validation in repair mode
writes no line and is not stopped (by a failed assertion or an access outside
an object): no pass detects a problem. -/
theorem fail_fast (L : Layout) (img : Image) :
    (main L img false).stderr = (validate L img true).out.take 1 ∧
    (main L img false).stderr.length ≤ 1 ∧
    (∀ m, m ∈ (main L img false).stderr →
      validate L img false = .stop [m] .exit1 ∧ (main L img false).halt = some .exit1) ∧
    ((main L img false).halt = none ↔
      ((validate L img true).out = [] ∧ (validate L img true).why = none)) := by
  obtain ⟨h1, h2, _, _⟩ := main_strict L img
  rw [h1, h2, validate_cut, Res.out_cut, Res.why_cut]
  refine ⟨rfl, ?_, ?_, ?_⟩
  · rw [List.length_take]
    omega
  · intro m hm
    unfold Res.cut
    cases ho : (validate L img true).out with
    | nil => rw [ho] at hm; simp at hm
    | cons m2 o =>
      rw [ho] at hm
      simp only [List.take_succ_cons, List.take_zero, List.mem_singleton] at hm
      subst hm
      simp
  · by_cases ho : (validate L img true).out = []
    · rw [if_pos ho]
      exact ⟨fun h => ⟨ho, h⟩, fun h => h.2⟩
    · rw [if_neg ho]
      constructor
      · intro h; cases h
      · intro h; exact absurd h.1 ho

/-! ## The image is written by the repair alone -/

/-- The usage pass asks for the repair only after it wrote "inode marked use
but not found in a directory". -/
theorem check_usage_required (L : Layout) (r : Bool) (t : Tables) (o : List Msg)
    (u : (Nat → Nat) × Bool) (h : check_usage L r t = .ok o u) (hu : u.2 = true) :
    Msg.notFound ∈ o := by
  unfold check_usage at h
  have key := foldlM_inv_out
    (fun out (s : (Nat → Nat) × Bool) => s.2 = true → Msg.notFound ∈ out)
    ?_ (upto 0 L.NINODES) (t.used, false) u [] o (by simp) h
  · simpa using key hu
  · intro x s s2 o1 o2 hI hx hs2
    obtain ⟨o0, used, o00, e0, e00, eo⟩ := Res.bind_eq_ok hx
    obtain ⟨o3, req, o4, e1, e2, eo2⟩ := Res.bind_eq_ok e00
    obtain ⟨o5, _, o6, e3, e4, eo3⟩ := Res.bind_eq_ok e2
    have e5 := pure_eq_ok e4
    subst e5
    have hreq : req = true := hs2
    subst eo eo2
    simp only [List.mem_append]
    split at e1
    · obtain ⟨o7, _, o8, e7, _, eo4⟩ := Res.bind_eq_ok e1
      right; right; left
      subst eo4
      have : (error r Msg.notFound).out = o7 := by rw [e7]; rfl
      rw [error_out] at this
      subst this
      simp
    · left
      apply hI
      rw [pure_eq_ok e1]
      exact hreq

/-- A validation that returns asking for the repair wrote "inode marked use but
not found in a directory". -/
theorem validate_required (L : Layout) (img : Image) (r : Bool) (o : List Msg) (v : Verdict)
    (h : validate L img r = .ok o v) (hv : v.repair_required = true) : Msg.notFound ∈ o := by
  unfold validate at h
  obtain ⟨o1, _, p1, _, h1, e1⟩ := Res.bind_eq_ok h
  obtain ⟨o2, t, p2, _, h2, e2⟩ := Res.bind_eq_ok h1
  obtain ⟨o3, _, p3, _, h3, e3⟩ := Res.bind_eq_ok h2
  obtain ⟨o4, _, p4, _, h4, e4⟩ := Res.bind_eq_ok h3
  obtain ⟨o5, root, p5, _, h5, e5⟩ := Res.bind_eq_ok h4
  obtain ⟨o6, _, p6, _, h6, e6⟩ := Res.bind_eq_ok h5
  obtain ⟨o7, _, p7, _, h7, e7⟩ := Res.bind_eq_ok h6
  obtain ⟨o8, _, p8, _, h8, e8⟩ := Res.bind_eq_ok h7
  obtain ⟨o9, _, p9, _, h9, e9⟩ := Res.bind_eq_ok h8
  obtain ⟨o10, _, p10, _, h10, e10⟩ := Res.bind_eq_ok h9
  obtain ⟨o11, u, p11, hu, h11, e11⟩ := Res.bind_eq_ok h10
  obtain ⟨o12, _, p12, _, h12, e12⟩ := Res.bind_eq_ok h11
  obtain ⟨o13, _, p13, _, h13, e13⟩ := Res.bind_eq_ok h12
  obtain ⟨o14, _, p14, _, h14, e14⟩ := Res.bind_eq_ok h13
  obtain ⟨o15, _, p15, _, h15, e15⟩ := Res.bind_eq_ok h14
  have hvu := pure_eq_ok h15
  subst hvu
  have := check_usage_required L r t o11 u hu hv
  rw [e1, e2, e3, e4, e5, e6, e7, e8, e9, e10, e11]
  simp [this]

/-- C14. No mutation outside an orphan repair. The image after a run without
`-r` is the image before it; the image after a run in repair mode that stays
within defined behaviour and wrote no "inode marked use but not found in a
directory" is the image before it. -/
theorem no_mutation (L : Layout) (img : Image) :
    (main L img false).image = img ∧
    ((main L img true).halt ≠ some .undefined → Msg.notFound ∉ (main L img true).stderr →
      (main L img true).image = img) := by
  refine ⟨(main_strict L img).2.2.1, ?_⟩
  intro _ hno
  cases hv : validate L img true with
  | stop o s => exact (main_of_validate_stop L img true hv).2.2
  | ok o v =>
    cases hreq : v.repair_required with
    | false =>
      unfold main
      rw [hv]
      simp [hreq]
    | true =>
      exfalso
      apply hno
      apply mem_main_of_validate
      rw [hv]
      exact validate_required L img true o v hv hreq

/-! ## The type tags (lines 72-84) -/

/-- The type pass in repair mode: one line for every inode with an illegal tag. -/
theorem check_types_ok (L : Layout) (img : Image) :
    check_types L img true =
      .ok ((upto 0 L.NINODES).flatMap
        (fun i => if bad_type L img i = true then [Msg.badInode] else [])) () := by
  unfold check_types
  refine forM_ok _ (fun i hi => ?_)
  rw [get_nth_inode_of_lt L (mem_upto.mp hi).2]
  simp only [Res.bind_eq, Res.bind_ok, Res.pre_nil]
  unfold bad_type itype
  by_cases hc : xshort (dtype img (inode_at L i)) = 0 ∨
      xshort (dtype img (inode_at L i)) = L.T_DIR ∨
      xshort (dtype img (inode_at L i)) = L.T_FILE ∨
      xshort (dtype img (inode_at L i)) = L.T_DEV
  · rw [if_pos hc]
    simp [hc]
  · rw [if_neg hc]
    simp [hc]

theorem Res.all_ne {α : Type} {x : Res α} {m0 m1 : Msg} (h : ∀ m ∈ x.out, m = m0)
    (hne : m0 ≠ m1) : ∀ m ∈ x.out, m ≠ m1 :=
  fun m hm e => hne ((h m hm).symm.trans e)

theorem Res.all_ne2 {α : Type} {x : Res α} {m0 m1 m2 : Msg}
    (h : ∀ m ∈ x.out, m = m0 ∨ m = m1) (h0 : m0 ≠ m2) (h1 : m1 ≠ m2) : ∀ m ∈ x.out, m ≠ m2 := by
  intro m hm e
  rcases h m hm with h | h
  · exact h0 (h.symm.trans e)
  · exact h1 (h.symm.trans e)

/-- The validation is the type pass followed by passes that do not write
"bad inode". -/
theorem validate_types (L : Layout) (img : Image) (r : Bool) :
    ∃ tail : Res Verdict, validate L img r = (check_types L img r >>= fun _ => tail) ∧
      ∀ m ∈ tail.out, m ≠ Msg.badInode := by
  refine ⟨_, rfl, ?_⟩
  refine Res.all_bind (Res.all_of_silent (analyse_out _ _)) (fun t => ?_)
  refine Res.all_bind (Res.all_ne (check_bounds_out _ _ _ _) (by decide)) (fun _ => ?_)
  refine Res.all_bind (Res.all_ne (check_bounds_out _ _ _ _) (by decide)) (fun _ => ?_)
  refine Res.all_bind (Res.all_ne (check_root_out _ _ _) (by decide)) (fun _ => ?_)
  refine Res.all_bind (Res.all_ne (check_format_out _ _ _) (by decide)) (fun _ => ?_)
  refine Res.all_bind (Res.all_ne (check_marked_out _ _ _ _) (by decide)) (fun _ => ?_)
  refine Res.all_bind (Res.all_ne (check_marked_out _ _ _ _) (by decide)) (fun _ => ?_)
  refine Res.all_bind (Res.all_ne (check_residual_out _ _ _) (by decide)) (fun _ => ?_)
  refine Res.all_bind (Res.all_ne2 (check_aliasing_out _ _ _) (by decide) (by decide))
    (fun _ => ?_)
  refine Res.all_bind (Res.all_ne2 (check_usage_out _ _ _) (by decide) (by decide)) (fun _ => ?_)
  refine Res.all_bind (Res.all_ne (check_nlink_out _ _ _ _) (by decide)) (fun _ => ?_)
  refine Res.all_bind (Res.all_ne (check_dirlink_out _ _ _ _) (by decide)) (fun _ => ?_)
  refine Res.all_bind (Res.all_ne2 (check_parents_out _ _ _) (by decide) (by decide))
    (fun _ => ?_)
  refine Res.all_bind (Res.all_ne2 (check_tree_out _ _ _ _) (by decide) (by decide))
    (fun _ => ?_)
  exact all_pure _

theorem mem_flatMap_bad (L : Layout) (img : Image) :
    Msg.badInode ∈ (upto 0 L.NINODES).flatMap
        (fun i => if bad_type L img i = true then [Msg.badInode] else []) ↔
      ∃ i, i < L.NINODES ∧ bad_type L img i = true := by
  rw [List.mem_flatMap]
  constructor
  · rintro ⟨i, hi, hm⟩
    refine ⟨i, (mem_upto.mp hi).2, ?_⟩
    by_contra hc
    rw [if_neg hc] at hm
    simp at hm
  · rintro ⟨i, hi, hb⟩
    exact ⟨i, mem_upto.mpr ⟨Nat.zero_le _, hi⟩, by rw [if_pos hb]; simp⟩

/-- C16. Inode type legality. In either mode the run writes "bad inode" if and
only if some inode below `NINODES` has a type tag other than 0, `T_DIR`,
`T_FILE` and `T_DEV`; in repair mode the line is written once for every such
inode; without `-r`, if there is such an inode, "bad inode" is the only line of
the run, which ends with status 1. -/
theorem inode_type_legality (L : Layout) (img : Image) :
    (∀ r, Msg.badInode ∈ (main L img r).stderr ↔
      ∃ i, i < L.NINODES ∧ bad_type L img i = true) ∧
    (main L img true).stderr.count Msg.badInode =
      (upto 0 L.NINODES).countP (fun i => bad_type L img i) ∧
    ((∃ i, i < L.NINODES ∧ bad_type L img i = true) →
      (main L img false).stderr = [Msg.badInode] ∧
      (main L img false).halt = some Stop.exit1) := by
  obtain ⟨tail, hval, htail⟩ := validate_types L img true
  rw [check_types_ok] at hval
  simp only [Res.bind_eq, Res.bind_ok] at hval
  have hout : (validate L img true).out = (upto 0 L.NINODES).flatMap
      (fun i => if bad_type L img i = true then [Msg.badInode] else []) ++ tail.out := by
    rw [hval, Res.out_pre]
  have htrue : Msg.badInode ∈ (main L img true).stderr ↔
      ∃ i, i < L.NINODES ∧ bad_type L img i = true := by
    rw [← mem_flatMap_bad]
    constructor
    · intro h
      have h2 := mem_validate_of_main L img true h (by decide) (by decide)
      rw [hout] at h2
      rcases List.mem_append.mp h2 with h3 | h3
      · exact h3
      · exact absurd rfl (htail _ h3)
    · intro h
      apply mem_main_of_validate
      rw [hout]
      exact List.mem_append_left _ h
  have hstrict : (∃ i, i < L.NINODES ∧ bad_type L img i = true) →
      (main L img false).stderr = [Msg.badInode] ∧
      (main L img false).halt = some Stop.exit1 := by
    intro hex
    have hm := (mem_flatMap_bad L img).mpr hex
    obtain ⟨h1, h2, _, _⟩ := main_strict L img
    rw [h1, h2, validate_cut, Res.out_cut, Res.why_cut, hout]
    cases hfl : (upto 0 L.NINODES).flatMap
        (fun i => if bad_type L img i = true then [Msg.badInode] else []) with
    | nil => rw [hfl] at hm; simp at hm
    | cons m o =>
      have hmb : m = Msg.badInode := by
        have hin : m ∈ (check_types L img true).out := by
          rw [check_types_ok, Res.out_ok, hfl]
          exact List.mem_cons_self _ _
        exact check_types_out L img true m hin
      subst hmb
      simp
  refine ⟨?_, ?_, hstrict⟩
  · intro r
    cases r with
    | true => exact htrue
    | false =>
      constructor
      · intro h
        obtain ⟨h1, _, _, _⟩ := main_strict L img
        rw [h1, validate_cut, Res.out_cut, hout] at h
        have h2 := List.mem_of_mem_take h
        rcases List.mem_append.mp h2 with h3 | h3
        · exact (mem_flatMap_bad L img).mp h3
        · exact absurd rfl (htail _ h3)
      · intro hex
        rw [(hstrict hex).1]
        simp
  · obtain ⟨extra, e, hextra⟩ := main_stderr L img true
    rw [e, hout, List.count_append, List.count_append, count_flatMap_ite,
      count_eq_zero_of_all htail, @count_eq_zero_of_all extra Msg.badInode]
    · simp
    · intro x hx
      rcases hextra x hx with h | h <;> rw [h] <;> decide

/-! ## The root (lines 148-158) -/

theorem slot_at_succ (L : Layout) (img : Image) (d j : Nat) :
    slot_at L img d j + DIRENT_SIZE = slot_at L img d (j + 1) := by
  unfold slot_at
  rw [Nat.add_mul, Nat.one_mul, Nat.add_assoc]

/-- The root pass in repair mode: a line if inode 1 is not a directory, a line
if slot 0 or slot 1 of its block does not hold 1; it returns unless one of the
two slots lies outside the image. -/
theorem check_root_cases (L : Layout) (img : Image) (hn : 2 ≤ L.NINODES) (he : 2 ≤ L.NDIRENT) :
    check_root L img true =
        .ok ((if is_dir L img 1 = false then [Msg.noRoot] else []) ++
          (if slot_inum L img 1 0 ≠ 1 ∨ slot_inum L img 1 1 ≠ 1 then [Msg.noRoot] else []))
          (inode_at L 1) ∨
      check_root L img true =
        .stop (if is_dir L img 1 = false then [Msg.noRoot] else []) .undefined := by
  unfold check_root
  rw [get_nth_inode_of_lt L (show 1 < L.NINODES by omega)]
  simp only [Res.bind_eq, Res.bind_ok, Res.pre_nil]
  rw [get_nth_dirent_slot L img 1 (show 0 < L.NDIRENT by omega)]
  have hfirst : (if xshort (dtype img (inode_at L 1)) ≠ L.T_DIR then error true Msg.noRoot
      else (pure () : Res Unit)) =
      .ok (if is_dir L img 1 = false then [Msg.noRoot] else []) () := by
    unfold is_dir itype
    by_cases hc : xshort (dtype img (inode_at L 1)) = L.T_DIR
    · simp [hc]
    · simp [hc]
  rw [hfirst]
  simp only [Res.bind_ok, Res.pre_nil]
  have e1 : slot_at L img 1 0 + DIRENT_SIZE = slot_at L img 1 1 := slot_at_succ L img 1 0
  rw [e1]
  rcases de_inum_slot L img 1 0 with h0 | h0
  · rw [h0]
    simp only [Res.bind_ok, Res.pre_nil]
    rcases de_inum_slot L img 1 1 with h1 | h1
    · rw [h1]
      left
      simp only [Res.bind_ok, Res.pre_nil]
      by_cases hc : slot_inum L img 1 0 ≠ 1 ∨ slot_inum L img 1 1 ≠ 1
      · rw [if_pos hc, if_pos hc]
        simp
      · rw [if_neg hc, if_neg hc]
        simp
    · rw [h1]
      right
      simp
  · rw [h0]
    right
    simp

/-- The validation is the passes up to the root pass followed by passes that
do not write "root directory does not exist". -/
theorem validate_root (L : Layout) (img : Image) (r : Bool) :
    ∃ tail : Tables → Nat → Res Verdict,
      validate L img r = (check_types L img r >>= fun _ => analyse L img >>= fun t =>
        check_bounds L r t.direct .badDirect >>= fun _ =>
        check_bounds L r t.indirect .badIndirect >>= fun _ =>
        check_root L img r >>= fun root => tail t root) ∧
      ∀ t root, ∀ m ∈ (tail t root).out, m ≠ Msg.noRoot := by
  refine ⟨_, rfl, ?_⟩
  intro t root
  refine Res.all_bind (Res.all_ne (check_format_out _ _ _) (by decide)) (fun _ => ?_)
  refine Res.all_bind (Res.all_ne (check_marked_out _ _ _ _) (by decide)) (fun _ => ?_)
  refine Res.all_bind (Res.all_ne (check_marked_out _ _ _ _) (by decide)) (fun _ => ?_)
  refine Res.all_bind (Res.all_ne (check_residual_out _ _ _) (by decide)) (fun _ => ?_)
  refine Res.all_bind (Res.all_ne2 (check_aliasing_out _ _ _) (by decide) (by decide))
    (fun _ => ?_)
  refine Res.all_bind (Res.all_ne2 (check_usage_out _ _ _) (by decide) (by decide)) (fun _ => ?_)
  refine Res.all_bind (Res.all_ne (check_nlink_out _ _ _ _) (by decide)) (fun _ => ?_)
  refine Res.all_bind (Res.all_ne (check_dirlink_out _ _ _ _) (by decide)) (fun _ => ?_)
  refine Res.all_bind (Res.all_ne2 (check_parents_out _ _ _) (by decide) (by decide))
    (fun _ => ?_)
  refine Res.all_bind (Res.all_ne2 (check_tree_out _ _ _ _) (by decide) (by decide))
    (fun _ => ?_)
  exact all_pure _

theorem head_of_all {l : List Msg} {m0 : Msg} {rest : List Msg} (h : ∀ x ∈ l, x = m0)
    (hm : m0 ∉ (l ++ rest).take 1) : l = [] := by
  cases l with
  | nil => rfl
  | cons x l =>
    exfalso
    apply hm
    have := h x (List.mem_cons_self _ _)
    subst this
    simp

/-- C15. Root sanity. In either mode, on a run that stays within defined
behaviour, and, without `-r`, on which no earlier pass stopped the run (no
"bad inode", "bad direct address" or "bad indirect address" was written):
"root directory does not exist" is written if and only if inode 1 is not of
type directory, or the inode number in slot 0 of its block is not 1, or the
inode number in slot 1 of its block is not 1. -/
theorem root_sanity (L : Layout) (img : Image) (r : Bool) (hn : 2 ≤ L.NINODES)
    (he : 2 ≤ L.NDIRENT) (hsafe : (main L img r).halt ≠ some .undefined)
    (hearly : r = false → Msg.badInode ∉ (main L img r).stderr ∧
      Msg.badDirect ∉ (main L img r).stderr ∧ Msg.badIndirect ∉ (main L img r).stderr) :
    Msg.noRoot ∈ (main L img r).stderr ↔
      (is_dir L img 1 = false ∨ slot_inum L img 1 0 ≠ 1 ∨ slot_inum L img 1 1 ≠ 1) := by
  have hA : ∀ c : Prop, [Decidable c] → ∀ m, m ∈ (if c then [Msg.noRoot] else []) →
      m = Msg.noRoot := by
    intro c _ m hm
    split at hm <;> simp at hm
    exact hm
  obtain ⟨tail, hshape, htail⟩ := validate_root L img true
  obtain ⟨o1, _, h1⟩ := Res.eq_ok_of_why _ (check_types_total L img)
  have hty : ∀ m ∈ o1, m = Msg.badInode := by
    have := check_types_out L img true
    rw [h1] at this
    exact this
  rcases analyse_quiet L img with ⟨t, h2⟩ | h2
  swap
  · -- the reference pass leaves defined behaviour
    exfalso
    have hV : validate L img true = .stop o1 .undefined := by
      rw [hshape, h1, h2]; simp
    cases r with
    | true => exact hsafe (main_of_validate_stop L img true hV).1
    | false =>
      obtain ⟨e1, e2, _, _⟩ := main_strict L img
      rw [e2, validate_cut, Res.why_cut, hV] at hsafe
      have hb := (hearly rfl).1
      rw [e1, validate_cut, Res.out_cut, hV] at hb
      simp only [Res.out_stop, Res.why_stop] at hsafe hb
      have : o1 = [] := @head_of_all o1 Msg.badInode [] hty (by simpa using hb)
      rw [if_pos this] at hsafe
      exact hsafe rfl
  obtain ⟨o3, _, h3⟩ := Res.eq_ok_of_why _ (check_bounds_total L t.direct .badDirect)
  obtain ⟨o4, _, h4⟩ := Res.eq_ok_of_why _ (check_bounds_total L t.indirect .badIndirect)
  have hb3 : ∀ m ∈ o3, m = Msg.badDirect := by
    have := check_bounds_out L true t.direct .badDirect
    rw [h3] at this
    exact this
  have hb4 : ∀ m ∈ o4, m = Msg.badIndirect := by
    have := check_bounds_out L true t.indirect .badIndirect
    rw [h4] at this
    exact this
  have hV : validate L img true =
      Res.pre (o1 ++ (o3 ++ o4)) (check_root L img true >>= fun root => tail t root) := by
    rw [hshape, h1, h2]
    simp only [Res.bind_eq, Res.bind_ok, Res.pre_nil, h3, h4, Res.pre_pre, List.nil_append]
  cases r with
  | true =>
    rcases check_root_cases L img hn he with hr | hr
    · rw [hr] at hV
      simp only [Res.bind_eq, Res.bind_ok, Res.pre_pre] at hV
      constructor
      · intro hm
        have hm2 := mem_validate_of_main L img true hm (by decide) (by decide)
        rw [hV, Res.out_pre] at hm2
        simp only [List.mem_append] at hm2
        rcases hm2 with ((h | h | h) | h | h) | h
        · exact absurd (hty _ h) (by decide)
        · exact absurd (hb3 _ h) (by decide)
        · exact absurd (hb4 _ h) (by decide)
        · left
          by_contra hc
          rw [if_neg hc] at h
          simp at h
        · right
          by_contra hc
          rw [if_neg hc] at h
          simp at h
        · exact absurd rfl (htail _ _ _ h)
      · intro hc
        apply mem_main_of_validate
        rw [hV, Res.out_pre]
        simp only [List.mem_append]
        left; right
        rcases hc with hc | hc
        · left; rw [if_pos hc]; simp
        · right; rw [if_pos hc]; simp
    · exfalso
      rw [hr] at hV
      simp only [Res.bind_eq, Res.bind_stop, Res.pre_stop] at hV
      exact hsafe (main_of_validate_stop L img true hV).1
  | false =>
    obtain ⟨e1, e2, _, _⟩ := main_strict L img
    obtain ⟨hn1, hn3, hn4⟩ := hearly rfl
    rw [e1, validate_cut, Res.out_cut, hV, Res.out_pre] at hn1 hn3 hn4 ⊢
    rw [e2, validate_cut, Res.why_cut, hV, Res.out_pre, Res.why_pre] at hsafe
    have ho1 : o1 = [] := by
      rw [List.append_assoc] at hn1
      exact head_of_all hty hn1
    subst ho1
    simp only [List.nil_append] at hn3 hn4 hsafe ⊢
    have ho3 : o3 = [] := by
      rw [List.append_assoc] at hn3
      exact head_of_all hb3 hn3
    subst ho3
    simp only [List.nil_append] at hn4 hsafe ⊢
    have ho4 : o4 = [] := head_of_all hb4 hn4
    subst ho4
    simp only [List.nil_append] at hsafe ⊢
    rcases check_root_cases L img hn he with hr | hr
    · rw [hr]
      simp only [Res.bind_eq, Res.bind_ok, Res.out_pre]
      constructor
      · intro hm
        have hm2 := List.mem_of_mem_take hm
        simp only [List.mem_append] at hm2
        rcases hm2 with (h | h) | h
        · left
          by_contra hc
          rw [if_neg hc] at h
          simp at h
        · right
          by_contra hc
          rw [if_neg hc] at h
          simp at h
        · exact absurd rfl (htail _ _ _ h)
      · intro hc
        by_cases hd : is_dir L img 1 = false
        · rw [if_pos hd]
          simp
        · rw [if_neg hd]
          have hc2 : slot_inum L img 1 0 ≠ 1 ∨ slot_inum L img 1 1 ≠ 1 := by
            rcases hc with hc | hc
            · exact absurd hc hd
            · exact hc
          rw [if_pos hc2]
          simp
    · rw [hr] at hsafe ⊢
      simp only [Res.bind_eq, Res.bind_stop, Res.out_stop, Res.why_stop] at hsafe ⊢
      by_cases hd : is_dir L img 1 = false
      · rw [if_pos hd]
        simp [hd]
      · exfalso
        rw [if_neg hd] at hsafe
        simp at hsafe

/-! ## The search for `lost_found` (lines 295-311) -/

theorem ld8_cases (L : Layout) (img : Image) (p : Nat) :
    ld8 L img p = .ok [] (byte img p) ∨ ld8 L img p = .stop [] .undefined := by
  unfold ld8
  by_cases h : p + 1 ≤ L.IMGSIZE
  · left; simp [h]
  · right; simp [h]

/-- The comparison `strcmp(p, s) == 0` returns what `name_is` says, unless it
reads outside the image. -/
theorem streq_cases (L : Layout) (img : Image) :
    ∀ (s : List Nat) (p : Nat), streq L img p s = .ok [] (name_is img p s) ∨
      streq L img p s = .stop [] .undefined
  | [], p => by
    unfold streq name_is
    rcases ld8_cases L img p with h | h
    · left; rw [h]; rfl
    · right; rw [h]; rfl
  | x :: xs, p => by
    unfold streq name_is
    rcases ld8_cases L img p with h | h
    · rw [h]
      simp only [Res.bind_eq, Res.bind_ok, Res.pre_nil]
      by_cases hc : (byte img p == x) = true
      · rw [if_pos hc, hc, Bool.true_and]
        exact streq_cases L img xs (p + 1)
      · rw [if_neg hc]
        left
        have : (byte img p == x) = false := by simpa using hc
        rw [this, Bool.false_and]
        rfl
    · right; rw [h]; rfl

/-- No slot of the list carries the name: the search returns nothing, unless
it reads outside the image. -/
theorem find_lost_found_none (L : Layout) (img : Image) (d : Nat) :
    ∀ (xs : List Nat), (∀ j ∈ xs, j < L.NDIRENT) →
      (∀ j ∈ xs, name_is img (slot_at L img d j + NAME_OFF) lost_found = false) →
      find_lost_found L img (inode_at L d) xs = .ok [] none ∨
        find_lost_found L img (inode_at L d) xs = .stop [] .undefined
  | [], _, _ => Or.inl rfl
  | x :: xs, hlt, hname => by
    rw [find_lost_found, get_nth_dirent_slot L img d (hlt x (List.mem_cons_self _ _))]
    simp only [Res.bind_eq, Res.bind_ok, Res.pre_nil]
    rcases streq_cases L img lost_found (slot_at L img d x + NAME_OFF) with h | h
    · rw [h, hname x (List.mem_cons_self _ _)]
      simp only [Res.bind_ok, Res.pre_nil, Bool.false_eq_true, if_false]
      exact find_lost_found_none L img d xs (fun j hj => hlt j (List.mem_cons_of_mem _ hj))
        (fun j hj => hname j (List.mem_cons_of_mem _ hj))
    · right; rw [h]; rfl

theorem check_root_ip (L : Layout) (img : Image) (r : Bool) (o : List Msg) (root : Nat)
    (h : check_root L img r = .ok o root) : root = inode_at L 1 := by
  unfold check_root at h
  obtain ⟨o1, ip, p1, e1, h1, _⟩ := Res.bind_eq_ok h
  obtain ⟨o2, _, p2, _, h2, _⟩ := Res.bind_eq_ok h1
  obtain ⟨o3, _, p3, _, h3, _⟩ := Res.bind_eq_ok h2
  obtain ⟨o4, _, p4, _, h4, _⟩ := Res.bind_eq_ok h3
  obtain ⟨o5, _, p5, _, h5, _⟩ := Res.bind_eq_ok h4
  obtain ⟨o6, _, p6, _, h6, _⟩ := Res.bind_eq_ok h5
  have e := pure_eq_ok h6
  subst e
  by_cases hlt : 1 < L.NINODES
  · rw [get_nth_inode_of_lt L hlt] at e1
    cases e1
    rfl
  · rw [get_nth_inode_of_ge L (Nat.not_lt.mp hlt)] at e1
    cases e1

/-- The validation hands the inode of the root to the repair. -/
theorem validate_root_ip (L : Layout) (img : Image) (r : Bool) (o : List Msg) (v : Verdict)
    (h : validate L img r = .ok o v) : v.root_ip = inode_at L 1 := by
  unfold validate at h
  obtain ⟨o1, _, p1, _, h1, e1⟩ := Res.bind_eq_ok h
  obtain ⟨o2, t, p2, _, h2, e2⟩ := Res.bind_eq_ok h1
  obtain ⟨o3, _, p3, _, h3, e3⟩ := Res.bind_eq_ok h2
  obtain ⟨o4, _, p4, _, h4, e4⟩ := Res.bind_eq_ok h3
  obtain ⟨o5, root, p5, hroot, h5, e5⟩ := Res.bind_eq_ok h4
  obtain ⟨o6, _, p6, _, h6, e6⟩ := Res.bind_eq_ok h5
  obtain ⟨o7, _, p7, _, h7, e7⟩ := Res.bind_eq_ok h6
  obtain ⟨o8, _, p8, _, h8, e8⟩ := Res.bind_eq_ok h7
  obtain ⟨o9, _, p9, _, h9, e9⟩ := Res.bind_eq_ok h8
  obtain ⟨o10, _, p10, _, h10, e10⟩ := Res.bind_eq_ok h9
  obtain ⟨o11, u, p11, hu, h11, e11⟩ := Res.bind_eq_ok h10
  obtain ⟨o12, _, p12, _, h12, e12⟩ := Res.bind_eq_ok h11
  obtain ⟨o13, _, p13, _, h13, e13⟩ := Res.bind_eq_ok h12
  obtain ⟨o14, _, p14, _, h14, e14⟩ := Res.bind_eq_ok h13
  obtain ⟨o15, _, p15, _, h15, e15⟩ := Res.bind_eq_ok h14
  have hvu := pure_eq_ok h15
  subst hvu
  exact check_root_ip L img r o5 root hroot

/-- The validation writes neither of the two lines of the repair. -/
theorem validate_msgs (L : Layout) (img : Image) (r : Bool) :
    ∀ m ∈ (validate L img r).out, m ≠ Msg.noLostFound := by
  unfold validate
  refine Res.all_bind (Res.all_ne (check_types_out _ _ _) (by decide)) (fun _ => ?_)
  refine Res.all_bind (Res.all_of_silent (analyse_out _ _)) (fun t => ?_)
  refine Res.all_bind (Res.all_ne (check_bounds_out _ _ _ _) (by decide)) (fun _ => ?_)
  refine Res.all_bind (Res.all_ne (check_bounds_out _ _ _ _) (by decide)) (fun _ => ?_)
  refine Res.all_bind (Res.all_ne (check_root_out _ _ _) (by decide)) (fun _ => ?_)
  refine Res.all_bind (Res.all_ne (check_format_out _ _ _) (by decide)) (fun _ => ?_)
  refine Res.all_bind (Res.all_ne (check_marked_out _ _ _ _) (by decide)) (fun _ => ?_)
  refine Res.all_bind (Res.all_ne (check_marked_out _ _ _ _) (by decide)) (fun _ => ?_)
  refine Res.all_bind (Res.all_ne (check_residual_out _ _ _) (by decide)) (fun _ => ?_)
  refine Res.all_bind (Res.all_ne2 (check_aliasing_out _ _ _) (by decide) (by decide))
    (fun _ => ?_)
  refine Res.all_bind (Res.all_ne2 (check_usage_out _ _ _) (by decide) (by decide)) (fun _ => ?_)
  refine Res.all_bind (Res.all_ne (check_nlink_out _ _ _ _) (by decide)) (fun _ => ?_)
  refine Res.all_bind (Res.all_ne (check_dirlink_out _ _ _ _) (by decide)) (fun _ => ?_)
  refine Res.all_bind (Res.all_ne2 (check_parents_out _ _ _) (by decide) (by decide))
    (fun _ => ?_)
  refine Res.all_bind (Res.all_ne2 (check_tree_out _ _ _ _) (by decide) (by decide))
    (fun _ => ?_)
  exact all_pure _

/-- A validation in repair mode that returns having written "inode marked use
but not found in a directory" asks for the repair. -/
theorem validate_found (L : Layout) (img : Image) (hn : 2 ≤ L.NINODES) (he : 2 ≤ L.NDIRENT)
    (o : List Msg) (v : Verdict) (hv : validate L img true = .ok o v)
    (hm : Msg.notFound ∈ o) : v.repair_required = true := by
  obtain ⟨t, root, u, b, W2, op, _, ⟨ou, hu⟩, hp, _, hval⟩ :=
    validate_returns L img hn he (by rw [hv]; rfl)
  rw [hv] at hval
  injection hval with ho hvv
  subst hvv
  show u.2 = true
  rw [ho] at hm
  rcases List.mem_append.mp hm with h | h
  · have h3 := notFound_early_out L _ t h
    rw [hu] at h3
    exact check_usage_notFound L t ou u hu h3
  · exfalso
    rcases List.mem_append.mp h with h | h
    · have h3 := check_parents_out L img true Msg.notFound (by rw [hp]; exact h)
      rcases h3 with h3 | h3 <;> exact absurd h3 (by decide)
    · exact notFound_tree_out L b W2 h

/-- C12, as amended. Missing `lost_found`. For a repair-mode run that stays
within defined behaviour, wrote "inode marked use but not found in a
directory", and on whose image no slot of the block of inode 1 carries the
name `lost_found`: the image after the run is the image before it, the status
is not 0 and the confirmation is not printed; if the validation returns, the
run writes "root directory does not contain the lost_found directory" as its
last line and ends with `exit(1)`; if the validation is stopped (by a failed
assertion), that line is not written. -/
theorem missing_lost_found (L : Layout) (img : Image) (hn : 2 ≤ L.NINODES) (he : 2 ≤ L.NDIRENT)
    (hfound : Msg.notFound ∈ (main L img true).stderr)
    (hname : ∀ j, j < L.NDIRENT →
      name_is img (slot_at L img 1 j + NAME_OFF) lost_found = false)
    (hsafe : (main L img true).halt ≠ some .undefined) :
    (main L img true).image = img ∧ (main L img true).halt ≠ none ∧
    (main L img true).confirmed = false ∧
    ((validate L img true).why = none →
      (main L img true).stderr = (validate L img true).out ++ [Msg.noLostFound] ∧
      (main L img true).halt = some .exit1) ∧
    ((validate L img true).why ≠ none →
      Msg.noLostFound ∉ (main L img true).stderr ∧
      (main L img true).halt = (validate L img true).why) := by
  cases hv : validate L img true with
  | stop o s =>
    have hmsgs := validate_msgs L img true
    rw [hv] at hmsgs
    have hmain : main L img true = Run.mk o false (some s) img := by
      unfold main; rw [hv]
    rw [hmain]
    refine ⟨rfl, by simp, rfl, ?_, ?_⟩
    · intro h; simp at h
    · intro _
      exact ⟨fun h => hmsgs _ h rfl, rfl⟩
  | ok o v =>
    have hfound2 := mem_validate_of_main L img true hfound (by decide) (by decide)
    rw [hv] at hfound2
    have hreq := validate_found L img hn he o v hv hfound2
    have hroot := validate_root_ip L img true o v hv
    have hmain : main L img true = repair L img o v := by
      unfold main; rw [hv]; simp [hreq]
    rw [hmain] at hsafe ⊢
    unfold repair at hsafe ⊢
    rw [hroot] at hsafe ⊢
    rcases find_lost_found_none L img 1 (upto 0 L.NDIRENT) (fun j hj => (mem_upto.mp hj).2)
      (fun j hj => hname j (mem_upto.mp hj).2) with h | h
    · rw [h]
      refine ⟨rfl, by simp, rfl, ?_, ?_⟩
      · intro _; exact ⟨rfl, rfl⟩
      · intro hc; simp at hc
    · rw [h] at hsafe
      exact absurd rfl hsafe

/-! ## The confirmation (lines 284-293) -/

theorem main_confirmed (L : Layout) (img : Image) (o : List Msg) (v : Verdict)
    (hv : validate L img true = .ok o v) (hreq : v.repair_required = false) :
    main L img true = Run.mk o true none img := by
  unfold main
  rw [hv]
  simp [hreq]

theorem repair_confirmed (L : Layout) (img : Image) (o : List Msg) (v : Verdict) :
    (repair L img o v).confirmed = false := by
  unfold repair
  split
  · rfl
  · rfl
  · split <;> rfl

theorem main_unconfirmed (L : Layout) (img : Image) (o : List Msg) (v : Verdict)
    (hv : validate L img true = .ok o v) (hreq : v.repair_required = true) :
    (main L img true).confirmed = false := by
  have : main L img true = repair L img o v := by
    unfold main
    rw [hv]
    simp [hreq]
  rw [this]
  exact repair_confirmed L img o v

/-- C20. What the confirmation means. For a repair-mode run whose validation
returns, whatever lines it wrote: the run prints "file system image is valid,
no repair required", ends with status 0 and leaves the image as it is if and
only if no inode below `NINODES` is non-free with reference count 0; and the
error stream of such a run is what the validation wrote. -/
theorem confirmation_meaning (L : Layout) (img : Image) (hT : L.T_DIR ≠ 0) (hn : 2 ≤ L.NINODES)
    (he : 2 ≤ L.NDIRENT) (o : List Msg) (v : Verdict)
    (hv : validate L img true = .ok o v) :
    ∃ t, analyse L img = .ok [] t ∧
      (((main L img true).confirmed = true ∧ (main L img true).halt = none ∧
          (main L img true).image = img) ↔
        ∀ i, i < L.NINODES → itype L img i ≠ 0 → t.irefs i ≠ 0) ∧
      ((main L img true).confirmed = true → (main L img true).stderr = o) := by
  obtain ⟨t, root, u, b, W2, op, ht, ⟨ou, hu⟩, _, _, hval⟩ :=
    validate_returns L img hn he (by rw [hv]; rfl)
  rw [hv] at hval
  injection hval with ho hvv
  have hu2 := (check_usage_ok L true t ou u hu).2.1
  have hused := (analyse_ok L img t [] hT ht).1
  have hreq_iff : v.repair_required = true ↔
      ∃ i, i < L.NINODES ∧ itype L img i ≠ 0 ∧ t.irefs i = 0 := by
    rw [hvv]
    show u.2 = true ↔ _
    rw [hu2]
    constructor
    · rintro ⟨i, hi, hb, hz⟩
      rw [hused i] at hb
      exact ⟨i, hi, (of_decide_eq_true hb).2, hz⟩
    · rintro ⟨i, hi, hty, hz⟩
      exact ⟨i, hi, by rw [hused i]; exact decide_eq_true ⟨hi, hty⟩, hz⟩
  refine ⟨t, ht, ?_, ?_⟩
  · constructor
    · rintro ⟨hc, _, _⟩ i hi hty hz
      have hreq : v.repair_required = true := hreq_iff.mpr ⟨i, hi, hty, hz⟩
      rw [main_unconfirmed L img o v hv hreq] at hc
      cases hc
    · intro hall
      have hreq : v.repair_required = false := by
        cases hr : v.repair_required with
        | false => rfl
        | true =>
          obtain ⟨i, hi, hty, hz⟩ := hreq_iff.mp hr
          exact absurd hz (hall i hi hty)
      rw [main_confirmed L img o v hv hreq]
      exact ⟨rfl, rfl, rfl⟩
  · intro hc
    cases hreq : v.repair_required with
    | false => rw [main_confirmed L img o v hv hreq]
    | true =>
      rw [main_unconfirmed L img o v hv hreq] at hc
      cases hc

/-! ## The traversal terminates (lines 333-346) -/

theorem de_inum_inside (L : Layout) (img : Image) (de : Nat) (h : de + 2 ≤ L.IMGSIZE) :
    de_inum L img de = .ok [] (xshort (ld16 img de)) := by
  unfold de_inum
  simp [h]

/-- The loop over the slots, for two recursive calls that agree on every
working set with no more directories than the one the loop starts from. -/
theorem scan_children_congr (L : Layout) (img : Image)
    (v1 v2 : (Nat → Nat) → Nat → Res (Bool × (Nat → Nat))) (bound : Nat)
    (hagree : ∀ W k, live L W ≤ bound → v1 W k = v2 W k)
    (hsub : ∀ W k o b W2, v1 W k = .ok o (b, W2) → live L W2 ≤ live L W) (ip : Nat) :
    ∀ (js : List Nat) (W : Nat → Nat), live L W ≤ bound →
      scan_children L img v1 ip js W = scan_children L img v2 ip js W
  | [], _, _ => rfl
  | j :: js, W, hW => by
    rw [scan_children, scan_children]
    congr 1
    funext de
    congr 1
    funext inum
    rw [← hagree W inum hW]
    cases hr : v1 W inum with
    | stop o s => rfl
    | ok o r =>
      obtain ⟨b, W1⟩ := r
      have := hsub W inum o b W1 hr
      simp only [Res.bind_eq, Res.bind_ok]
      congr 1
      cases b with
      | true => rfl
      | false =>
        simp only [Bool.false_eq_true, if_false]
        exact scan_children_congr L img v1 v2 bound hagree hsub ip js W1 (by omega)

/-- The result of a call does not depend on the bound of the recursion depth,
as long as the bound exceeds the number of directories in the working set. -/
theorem has_directory_cycle_depth (L : Layout) (img : Image) :
    ∀ (fuel fuel2 : Nat) (W : Nat → Nat) (k : Nat), live L W < fuel → live L W < fuel2 →
      has_directory_cycle L img fuel W k = has_directory_cycle L img fuel2 W k
  | 0, _, _, _, h, _ => by omega
  | _ + 1, 0, _, _, _, h => by omega
  | fuel + 1, fuel2 + 1, W, k, h1, h2 => by
    rw [has_directory_cycle, has_directory_cycle]
    by_cases hk : k < L.NINODES
    swap
    · rw [get_nth_inode_of_ge L (Nat.not_lt.mp hk)]
      rfl
    rw [get_nth_inode_of_lt L hk]
    simp only [Res.bind_eq, Res.bind_ok, Res.pre_nil]
    by_cases hd : xshort (dtype img (inode_at L k)) ≠ L.T_DIR
    · rw [if_pos hd, if_pos hd]
    rw [if_neg hd, if_neg hd]
    by_cases hbit : is_nth_bit_1 W k = true
    · rw [hbit]
      simp only [Bool.not_true, Bool.false_eq_true, if_false]
      have hl := live_clear L W k hk hbit
      refine scan_children_congr L img _ _ (live L (set_nth_bit_0 W k)) ?_ ?_ _ _ _
        (Nat.le_refl _)
      · intro W' k' hW'
        exact has_directory_cycle_depth L img fuel fuel2 W' k' (by omega) (by omega)
      · intro W' k' o b W2 e
        exact live_mono L W' W2 (has_directory_cycle_subset L img fuel W' k' o b W2 e)
    · have hb0 : is_nth_bit_1 W k = false := by simpa using hbit
      rw [hb0]
      rfl

theorem slots_fit_spec (L : Layout) (img : Image) (h : slots_fit L img = true) (d : Nat)
    (hd : d < L.NINODES) (hdir : is_dir L img d = true) (j : Nat) (h2 : 2 ≤ j)
    (hj : j < L.NDIRENT) :
    slot_inum L img d j < L.NINODES ∧ slot_at L img d j + 2 ≤ L.IMGSIZE := by
  unfold slots_fit at h
  have h1 := forall_of_all_upto h d (Nat.zero_le d) hd
  rw [hdir] at h1
  simp only [Bool.not_true, Bool.false_or] at h1
  have h3 := forall_of_all_upto h1 j h2 hj
  simpa using h3

/-- The loop over the slots of a directory returns, if the recursive call
returns on every working set the loop can hand to it. -/
theorem scan_children_returns (L : Layout) (img : Image) (hfit : slots_fit L img = true)
    (visit : (Nat → Nat) → Nat → Res (Bool × (Nat → Nat))) (bound : Nat)
    (hv : ∀ W k, k < L.NINODES → live L W ≤ bound →
      ∃ b W2, visit W k = .ok [] (b, W2) ∧ live L W2 ≤ live L W)
    (d : Nat) (hd : d < L.NINODES) (hdir : is_dir L img d = true) :
    ∀ (js : List Nat) (W : Nat → Nat), (∀ j ∈ js, 2 ≤ j ∧ j < L.NDIRENT) → live L W ≤ bound →
      ∃ b W2, scan_children L img visit (inode_at L d) js W = .ok [] (b, W2) ∧
        live L W2 ≤ live L W
  | [], W, _, _ => ⟨false, W, rfl, Nat.le_refl _⟩
  | j :: js, W, hjs, hW => by
    obtain ⟨h2, hj⟩ := hjs j (List.mem_cons_self _ _)
    obtain ⟨hlt, hin⟩ := slots_fit_spec L img hfit d hd hdir j h2 hj
    rw [scan_children, get_nth_dirent_slot L img d hj]
    simp only [Res.bind_eq, Res.bind_ok, Res.pre_nil]
    rw [de_inum_inside L img _ hin]
    simp only [Res.bind_ok, Res.pre_nil]
    obtain ⟨b, W1, e, hl⟩ := hv W (xshort (ld16 img (slot_at L img d j))) hlt hW
    rw [e]
    simp only [Res.bind_ok, Res.pre_nil]
    cases b with
    | true => exact ⟨true, W1, rfl, hl⟩
    | false =>
      simp only [Bool.false_eq_true, if_false]
      obtain ⟨b2, W2, e2, hl2⟩ := scan_children_returns L img hfit visit bound hv d hd hdir js W1
        (fun j hj => hjs j (List.mem_cons_of_mem _ hj)) (by omega)
      exact ⟨b2, W2, e2, by omega⟩

/-- A call on an inode number below `NINODES` returns, whatever the working
set, when the depth bound exceeds the number of directories in it. -/
theorem has_directory_cycle_returns (L : Layout) (img : Image) (hfit : slots_fit L img = true) :
    ∀ (fuel : Nat) (W : Nat → Nat) (k : Nat), k < L.NINODES → live L W < fuel →
      ∃ b W2, has_directory_cycle L img fuel W k = .ok [] (b, W2) ∧ live L W2 ≤ live L W
  | 0, _, _, _, h => by omega
  | fuel + 1, W, k, hk, hW => by
    rw [has_directory_cycle, get_nth_inode_of_lt L hk]
    simp only [Res.bind_eq, Res.bind_ok, Res.pre_nil]
    by_cases hd : xshort (dtype img (inode_at L k)) ≠ L.T_DIR
    · rw [if_pos hd]
      exact ⟨false, W, rfl, Nat.le_refl _⟩
    rw [if_neg hd]
    have hdir : is_dir L img k = true := by
      unfold is_dir itype
      simpa using hd
    by_cases hbit : is_nth_bit_1 W k = true
    · rw [hbit]
      simp only [Bool.not_true, Bool.false_eq_true, if_false]
      have hl := live_clear L W k hk hbit
      obtain ⟨b, W2, e, hl2⟩ := scan_children_returns L img hfit
        (has_directory_cycle L img fuel) (live L (set_nth_bit_0 W k))
        (fun W' k' hk' hW' => has_directory_cycle_returns L img hfit fuel W' k' hk' (by omega))
        k hk hdir (upto 2 L.NDIRENT) (set_nth_bit_0 W k) (fun j hj => mem_upto.mp hj)
        (Nat.le_refl _)
      exact ⟨b, W2, e, by omega⟩
    · have hb0 : is_nth_bit_1 W k = false := by simpa using hbit
      rw [hb0]
      exact ⟨true, W, rfl, Nat.le_refl _⟩

/-- C18. The traversal terminates. On an image where every slot from 2 on of
every directory inode lies inside the image and holds an inode number below
`NINODES`, whatever the entries name (themselves, the root, a cycle): a call of
`has_directory_cycle` on an inode number below `NINODES` returns as soon as the
bound on the recursion depth exceeds the number of directories in the working
set, it leaves no more directories in the set than it found, and its result
does not depend on the bound; a call that recurses first clears the bit of its
directory, which takes exactly one directory out of the working set; no call
sets a bit, so that a directory whose slots were scanned is not scanned again;
and the working set never holds more than `NINODES` directories, so that the
depth `NINODES + 1` is enough for the call from `main`. -/
theorem traversal_terminates (L : Layout) (img : Image) (hfit : slots_fit L img = true) :
    (∀ (fuel : Nat) (W : Nat → Nat) (k : Nat), k < L.NINODES → live L W < fuel →
      ∃ b W2, has_directory_cycle L img fuel W k = .ok [] (b, W2) ∧ live L W2 ≤ live L W) ∧
    (∀ (fuel fuel2 : Nat) (W : Nat → Nat) (k : Nat), live L W < fuel → live L W < fuel2 →
      has_directory_cycle L img fuel W k = has_directory_cycle L img fuel2 W k) ∧
    (∀ (W : Nat → Nat) (k : Nat), k < L.NINODES → is_nth_bit_1 W k = true →
      live L (set_nth_bit_0 W k) + 1 = live L W) ∧
    (∀ (fuel : Nat) (W : Nat → Nat) (k : Nat) (o : List Msg) (b : Bool) (W2 : Nat → Nat),
      has_directory_cycle L img fuel W k = .ok o (b, W2) →
      ∀ n, is_nth_bit_1 W2 n = true → is_nth_bit_1 W n = true) ∧
    (∀ W : Nat → Nat, live L W < L.NINODES + 1) :=
  ⟨has_directory_cycle_returns L img hfit, has_directory_cycle_depth L img, live_clear L,
    has_directory_cycle_subset L img, fun W => Nat.lt_succ_of_le (live_le L W)⟩

/-- In repair mode the validation returns as soon as the reference pass, the
root pass, the format pass, the parent pass and the traversal return. -/
theorem validate_returns_of (L : Layout) (img : Image) (t : Tables)
    (h2 : analyse L img = .ok [] t) (h5 : (check_root L img true).why = none)
    (h6 : (check_format L img true).why = none) (h14 : (check_parents L img true).why = none)
    (h15 : (has_directory_cycle L img (L.NINODES + 1) t.tdir 1).why = none) :
    (validate L img true).why = none := by
  obtain ⟨o1, _, e1⟩ := Res.eq_ok_of_why _ (check_types_total L img)
  obtain ⟨o3, _, e3⟩ := Res.eq_ok_of_why _ (check_bounds_total L t.direct .badDirect)
  obtain ⟨o4, _, e4⟩ := Res.eq_ok_of_why _ (check_bounds_total L t.indirect .badIndirect)
  obtain ⟨o5, root, e5⟩ := Res.eq_ok_of_why _ h5
  obtain ⟨o6, _, e6⟩ := Res.eq_ok_of_why _ h6
  obtain ⟨o7, _, e7⟩ := Res.eq_ok_of_why _ (check_marked_total L (disk_bitmap L img) t.direct)
  obtain ⟨o8, _, e8⟩ := Res.eq_ok_of_why _ (check_marked_total L (disk_bitmap L img) t.indirect)
  obtain ⟨o9, _, e9⟩ := Res.eq_ok_of_why _ (check_residual_total L (residual L img t))
  obtain ⟨o10, _, e10⟩ := Res.eq_ok_of_why _ (check_aliasing_total L t)
  obtain ⟨o11, u, e11⟩ := Res.eq_ok_of_why _ (check_usage_total L t)
  obtain ⟨o12, _, e12⟩ := Res.eq_ok_of_why _ (check_nlink_total L img t)
  obtain ⟨o13, _, e13⟩ := Res.eq_ok_of_why _ (check_dirlink_total L img t)
  obtain ⟨o14, _, e14⟩ := Res.eq_ok_of_why _ h14
  obtain ⟨o15, r, e15⟩ := Res.eq_ok_of_why _ h15
  obtain ⟨b, W2⟩ := r
  have e16 := check_tree_ok L img t.tdir o15 b W2 e15
  simp only [validate, e1, h2, e3, e4, e5, e6, e7, e8, e9, e10, e11, e12, e13, e14, e16,
    Res.bind_eq, Res.bind_ok, Res.pre_ok, Res.pure_eq, Res.why_ok]

/-- C11. On `img_wrap` inode 1 is the root directory and 255 entries in slots
from 2 on of directories name it; its reference count, a byte that starts at 1,
is 0 after the reference pass, and the repair-mode run, whose validation
returns, asks for the repair and hands inode 1 to it among the orphans. -/
theorem root_orphaned :
    itype xv6 img_wrap 1 = xv6.T_DIR ∧ entry_count xv6 img_wrap 1 = 255 ∧
    ∃ t o v, analyse xv6 img_wrap = .ok [] t ∧ t.irefs 1 = 0 ∧
      validate xv6 img_wrap true = .ok o v ∧ v.repair_required = true ∧
      1 ∈ orphans xv6 v.used := by
  have key : (analyse xv6 img_wrap).holds (fun t =>
      (check_usage xv6 true t).holds (fun u => u.2 && is_nth_bit_1 u.1 1) &&
      (has_directory_cycle xv6 img_wrap (xv6.NINODES + 1) t.tdir 1).why == none) = true := by
    decide!
  obtain ⟨o0, t, ht0, hP⟩ := Res.of_holds key
  have ht : analyse xv6 img_wrap = .ok [] t := by
    have := analyse_out xv6 img_wrap
    rw [ht0] at this
    rw [ht0]
    exact congrArg (fun o => Res.ok o t) this
  simp only [Bool.and_eq_true, beq_iff_eq] at hP
  obtain ⟨ou, u, hu, hQ⟩ := Res.of_holds hP.1
  simp only [Bool.and_eq_true] at hQ
  have hret := validate_returns_of xv6 img_wrap t ht (by decide!) (by decide!) (by decide!) hP.2
  obtain ⟨o, v, hv⟩ := Res.eq_ok_of_why _ hret
  obtain ⟨t2, root, u2, b, W2, op, ht2, ⟨ou2, hu2⟩, _, _, hval⟩ :=
    validate_returns xv6 img_wrap (by decide) (by decide) hret
  rw [ht] at ht2
  injection ht2 with _ htt
  subst htt
  rw [hu] at hu2
  injection hu2 with _ huu
  subst huu
  rw [hv] at hval
  injection hval with _ hvv
  have hmem : 1 ∈ orphans xv6 v.used := by
    rw [hvv]
    unfold orphans
    exact List.mem_filter.mpr ⟨mem_upto.mpr ⟨by decide, by decide⟩, hQ.2⟩
  have hmem2 : 1 ∈ orphans xv6 u.1 := by rw [hvv] at hmem; exact hmem
  have hz := ((orphans_iff xv6 img_wrap (by decide) t [] ou u ht hu 1).mp hmem2).2.2
  exact ⟨by decide!, by decide!, t, o, v, ht, hz, hv, by rw [hvv]; exact hQ.1, hmem⟩

/-- C17. On `img_stray` slot 2 of the root holds the inode number 60000, which
is not below `NINODES`; on `img_beyond` the regular file 2 holds the direct
address 2000, which is not below `FSSIZE`. In either mode the run meets no
assertion and writes no line: it increments `inode_references[60000]` (line
104) and `direct_addr_references[2000]` (line 112), outside the arrays. -/
theorem stray_index_unchecked :
    slot_inum xv6 img_stray 1 2 = 60000 ∧ ¬ (60000 < xv6.NINODES) ∧
    (main xv6 img_stray false).stderr = [] ∧
    (main xv6 img_stray false).halt = some Stop.undefined ∧
    (main xv6 img_stray true).stderr = [] ∧
    (main xv6 img_stray true).halt = some Stop.undefined ∧
    xshort (daddr img_beyond (inode_at xv6 2) 0) = 2000 ∧ ¬ (2000 < xv6.FSSIZE) ∧
    (main xv6 img_beyond false).stderr = [] ∧
    (main xv6 img_beyond false).halt = some Stop.undefined ∧
    (main xv6 img_beyond true).stderr = [] ∧
    (main xv6 img_beyond true).halt = some Stop.undefined := by
  decide!

/-- C12, as stated, fails on `img_lost`: the repair-mode run reports orphans,
no slot of the root carries the name `lost_found`, and the run stops at the
assertion of the parent pass without writing "root directory does not contain
the lost_found directory". -/
theorem missing_lost_found_fails :
    Msg.notFound ∈ (main xv6 img_lost true).stderr ∧
    (upto 0 xv6.NDIRENT).all (fun j =>
      !name_is img_lost (slot_at xv6 img_lost 1 j + NAME_OFF) lost_found) = true ∧
    Msg.noLostFound ∉ (main xv6 img_lost true).stderr ∧
    (main xv6 img_lost true).halt = some Stop.abort := by
  decide!

/-- The amended C12 at `img_five` on the small layout: the run ends with
`exit(1)` after "root directory does not contain the lost_found directory" and
leaves the image as it is. -/
theorem missing_lost_found_witness :
    (main mini img_five true).image = img_five ∧
    Msg.noLostFound ∈ (main mini img_five true).stderr ∧
    (main mini img_five true).halt = some Stop.exit1 := by
  have hall : (upto 0 mini.NDIRENT).all (fun j =>
      !name_is img_five (slot_at mini img_five 1 j + NAME_OFF) lost_found) = true := by decide!
  have h := missing_lost_found mini img_five (by decide) (by decide) (by decide!)
    (fun j hj => by simpa using forall_of_all_upto hall j (Nat.zero_le j) hj) (by decide!)
  have hret : (validate mini img_five true).why = none := by decide!
  have h4 := h.2.2.2.1 hret
  refine ⟨h.1, ?_, h4.2⟩
  rw [h4.1]
  simp

/-- C15 at `img_parent` on the small layout, without `-r`: the parent slot of
the root names inode 2, and the run writes "root directory does not exist". -/
theorem root_sanity_witness :
    slot_inum mini img_parent 1 1 = 2 ∧ Msg.noRoot ∈ (main mini img_parent false).stderr := by
  have hs : slot_inum mini img_parent 1 1 = 2 := by decide!
  refine ⟨hs, ?_⟩
  refine (root_sanity mini img_parent false (by decide) (by decide) (by decide!)
    (fun _ => by decide!)).mpr (Or.inr (Or.inr ?_))
  rw [hs]
  decide

/-- C18 at `img_loop` on the small layout, where directory 2 names the root and
itself: the call from the root on the full working set returns. -/
theorem traversal_terminates_witness :
    ∃ b W2, has_directory_cycle mini img_loop (mini.NINODES + 1) (fun _ => 255) 1 =
        .ok [] (b, W2) ∧ live mini W2 ≤ live mini (fun _ => 255) :=
  (traversal_terminates mini img_loop (by decide!)).1 (mini.NINODES + 1) (fun _ => 255) 1
    (by decide) (by decide!)

/-- C19, as stated, fails on `img_full_abort`: the root names `lost_found`
(inode 2, block 60), whose block has one slot with inode number 0, the inodes 9
and 10 are non-free and no entry names them; the repair-mode run reports the
orphans, stops at the assertion of the parent pass, does not write
"lost_found directory is full" and leaves the free slot at 0. -/
theorem full_lost_found_fails :
    find_lost_found xv6 img_full_abort (inode_at xv6 1) (upto 0 xv6.NDIRENT) =
      Res.ok [] (some (inode_at xv6 2)) ∧
    dir_block img_full_abort (inode_at xv6 2) = 60 ∧
    free_slots xv6 img_full_abort 60 = [31] ∧
    itype xv6 img_full_abort 9 ≠ 0 ∧ entry_count xv6 img_full_abort 9 = 0 ∧
    itype xv6 img_full_abort 10 ≠ 0 ∧ entry_count xv6 img_full_abort 10 = 0 ∧
    (main xv6 img_full_abort true).stderr.count Msg.notFound = 2 ∧
    Msg.lostFoundFull ∉ (main xv6 img_full_abort true).stderr ∧
    (main xv6 img_full_abort true).halt = some Stop.abort ∧
    ld16 (main xv6 img_full_abort true).image (block_slot xv6 60 31) = 0 := by
  decide!

/-- C20 at `img_marked` on the small layout: the run reports a line of the
bitmap pass, no inode is an orphan, and the confirmation is printed. -/
theorem confirmation_meaning_witness :
    (main mini img_marked true).stderr = [Msg.markedNotUsed] ∧
    (main mini img_marked true).confirmed = true ∧
    (main mini img_marked true).halt = none := by
  have key : (validate mini img_marked true).holds
      (fun _ => true) = true := by decide!
  obtain ⟨o, v, hv, _⟩ := Res.of_holds key
  obtain ⟨t, ht, hiff, hout⟩ :=
    confirmation_meaning mini img_marked (by decide) (by decide) (by decide) o v hv
  have hrefs : (analyse mini img_marked).holds (fun t =>
      (upto 0 mini.NINODES).all
        (fun i => decide (itype mini img_marked i = 0) || decide (t.irefs i ≠ 0))) = true := by
    decide!
  rw [ht] at hrefs
  have hall : ∀ i, i < mini.NINODES → itype mini img_marked i ≠ 0 → t.irefs i ≠ 0 := by
    intro i hi hty
    have := forall_of_all_upto hrefs i (Nat.zero_le i) hi
    simpa [hty] using this
  have hc := hiff.mpr hall
  refine ⟨?_, hc.1, hc.2.1⟩
  rw [hout hc.1]
  have : (validate mini img_marked true).out = [Msg.markedNotUsed] := by decide!
  rw [hv] at this
  exact this

/-- C14 at `img_marked` on the small layout: the repair-mode run reports a
line of the bitmap pass and no orphan, and leaves the image as it is. -/
theorem no_mutation_witness :
    (main mini img_marked false).image = img_marked ∧
    (main mini img_marked true).image = img_marked :=
  ⟨(no_mutation mini img_marked).1,
    (no_mutation mini img_marked).2 (by decide!) (by decide!)⟩

/-! ## The repair, from the name bytes of the root (lines 295-327) -/

/-- The search over slots of which `j` is the first that carries the name: it
returns the inode that slot `j` names, or stops at the assertion of
`get_nth_inode` if the number in the slot is not below `NINODES`, unless it
reads outside the image. -/
theorem find_lost_found_first (L : Layout) (img : Image) (d j : Nat) (hj : j < L.NDIRENT)
    (hname : name_is img (slot_at L img d j + NAME_OFF) lost_found = true) (post : List Nat) :
    ∀ (front : List Nat), (∀ i ∈ front, i < L.NDIRENT) →
      (∀ i ∈ front, name_is img (slot_at L img d i + NAME_OFF) lost_found = false) →
      find_lost_found L img (inode_at L d) (front ++ j :: post) = .stop [] .undefined ∨
      find_lost_found L img (inode_at L d) (front ++ j :: post) =
        (if slot_inum L img d j < L.NINODES then
          .ok [] (some (inode_at L (slot_inum L img d j)))
        else .stop [] .abort)
  | [], _, _ => by
    rw [List.nil_append, find_lost_found, get_nth_dirent_slot L img d hj]
    simp only [Res.bind_eq, Res.bind_ok, Res.pre_nil]
    rcases streq_cases L img lost_found (slot_at L img d j + NAME_OFF) with h | h
    · rw [h, hname]
      simp only [Res.bind_ok, Res.pre_nil, if_true]
      rcases de_inum_slot L img d j with h2 | h2
      · rw [h2]
        simp only [Res.bind_ok, Res.pre_nil]
        right
        by_cases hlt : slot_inum L img d j < L.NINODES
        · rw [if_pos hlt, get_nth_inode_of_lt L hlt]
          rfl
        · rw [if_neg hlt, get_nth_inode_of_ge L (Nat.not_lt.mp hlt)]
          rfl
      · left
        rw [h2]
        rfl
    · left
      rw [h]
      rfl
  | x :: front, hlt, hno => by
    rw [List.cons_append, find_lost_found,
      get_nth_dirent_slot L img d (hlt x (List.mem_cons_self _ _))]
    simp only [Res.bind_eq, Res.bind_ok, Res.pre_nil]
    rcases streq_cases L img lost_found (slot_at L img d x + NAME_OFF) with h | h
    · rw [h, hno x (List.mem_cons_self _ _)]
      simp only [Res.bind_ok, Res.pre_nil, Bool.false_eq_true, if_false]
      exact find_lost_found_first L img d j hj hname post front
        (fun i hi => hlt i (List.mem_cons_of_mem _ hi))
        (fun i hi => hno i (List.mem_cons_of_mem _ hi))
    · left
      rw [h]
      rfl

/-- The search of `main` over the slots of the root, of which `j` is the first
that carries the name `lost_found`. -/
theorem find_lost_found_root (L : Layout) (img : Image) (j : Nat) (hj : j < L.NDIRENT)
    (hname : name_is img (slot_at L img 1 j + NAME_OFF) lost_found = true)
    (hfirst : ∀ i, i < j → name_is img (slot_at L img 1 i + NAME_OFF) lost_found = false) :
    find_lost_found L img (inode_at L 1) (upto 0 L.NDIRENT) = .stop [] .undefined ∨
    find_lost_found L img (inode_at L 1) (upto 0 L.NDIRENT) =
      (if slot_inum L img 1 j < L.NINODES then
        .ok [] (some (inode_at L (slot_inum L img 1 j)))
      else .stop [] .abort) := by
  rw [upto_split (Nat.zero_le j) hj]
  exact find_lost_found_first L img 1 j hj hname _ _
    (fun i hi => Nat.lt_trans (mem_upto.mp hi).2 hj) (fun i hi => hfirst i (mem_upto.mp hi).2)

/-- With an inode to place and the block of `lost_found` outside the image, the
relocation loop reads outside the image at its first turn. -/
theorem relocate_outside (L : Layout) (used : Nat → Nat) (lf : Nat) (img : Image)
    (he : 0 < L.NDIRENT) (hout : L.FSSIZE ≤ dir_block img lf) :
    ∀ (xs : List Nat), (∃ i ∈ xs, is_nth_bit_1 used i = true) →
      relocate L used lf xs img = (.stop [] .undefined, img)
  | [], h => by
    obtain ⟨i, hi, _⟩ := h
    cases hi
  | x :: xs, h => by
    rw [relocate]
    by_cases hx : is_nth_bit_1 used x = true
    · simp only [hx, Bool.not_true, Bool.false_eq_true, if_false]
      have hnext : get_next_free_dirent L img lf 0 = .stop [] .undefined := by
        unfold get_next_free_dirent
        rw [if_neg (by omega), get_nth_dirent_of_lt L img lf he, upto_cons he]
        simp only [Res.bind_eq, Res.bind_ok, Res.pre_nil, next_free]
        unfold de_inum
        have h1 : L.FSSIZE * L.BSIZE ≤ dir_block img lf * L.BSIZE := Nat.mul_le_mul_right _ hout
        have h2 : ¬ (xshort (daddr img lf 0) * L.BSIZE + 2 ≤ L.IMGSIZE) := by
          unfold dir_block at h1
          unfold Layout.IMGSIZE
          omega
        simp [h2]
      rw [hnext]
    · have hx0 : is_nth_bit_1 used x = false := by simpa using hx
      simp only [hx0, Bool.not_false, if_true]
      apply relocate_outside L used lf img he hout xs
      obtain ⟨i, hi, hb⟩ := h
      rcases List.mem_cons.mp hi with e | e
      · subst e
        exact absurd hb hx
      · exact ⟨i, e, hb⟩

/-- A validation that returns asking for the repair leaves an inode in the
bitmap. -/
theorem orphan_of_required (L : Layout) (img : Image) (hn : 2 ≤ L.NINODES) (he : 2 ≤ L.NDIRENT)
    (o : List Msg) (v : Verdict) (hv : validate L img true = .ok o v)
    (hreq : v.repair_required = true) :
    ∃ i ∈ upto 0 L.NINODES, is_nth_bit_1 v.used i = true := by
  obtain ⟨t, root, u, b, W2, op, _, ⟨ou, hu⟩, _, _, hval⟩ :=
    validate_returns L img hn he (by rw [hv]; rfl)
  rw [hv] at hval
  injection hval with _ hvv
  subst hvv
  obtain ⟨h1, h2, _⟩ := check_usage_ok L true t ou u hu
  obtain ⟨i, hi, hb, hz⟩ := h2.mp hreq
  refine ⟨i, mem_upto.mpr ⟨Nat.zero_le _, hi⟩, ?_⟩
  show is_nth_bit_1 u.1 i = true
  rw [h1 i, hb, hz]
  simp

/-- Inode 0 is left in the bitmap only if it is not free. -/
theorem orphan_zero (L : Layout) (img : Image) (hT : L.T_DIR ≠ 0) (hn : 2 ≤ L.NINODES)
    (he : 2 ≤ L.NDIRENT) (o : List Msg) (v : Verdict) (hv : validate L img true = .ok o v)
    (h0 : itype L img 0 = 0) : is_nth_bit_1 v.used 0 = false := by
  obtain ⟨t, root, u, b, W2, op, ht, ⟨ou, hu⟩, _, _, hval⟩ :=
    validate_returns L img hn he (by rw [hv]; rfl)
  rw [hv] at hval
  injection hval with _ hvv
  subst hvv
  show is_nth_bit_1 u.1 0 = false
  rw [(check_usage_ok L true t ou u hu).1 0, (analyse_ok L img t [] hT ht).1 0]
  simp [h0]

/-- Why the repair stops does not depend on the lines written before it. -/
theorem repair_halt (L : Layout) (img : Image) (o o2 : List Msg) (v : Verdict) :
    (repair L img o v).halt = (repair L img o2 v).halt := by
  unfold repair
  split
  · rfl
  · rfl
  · split <;> rfl

/-- A run whose validation asks for the repair stops where the repair stops. -/
theorem main_halt_repair (L : Layout) (img : Image) (o : List Msg) (v : Verdict)
    (hv : validate L img true = .ok o v) (hreq : v.repair_required = true) :
    (main L img true).halt = (repair L img [] v).halt := by
  have hmain : main L img true = repair L img o v := by
    unfold main
    rw [hv]
    simp [hreq]
  rw [hmain]
  exact repair_halt L img o [] v

/-- The run of the repair when the entry named `lost_found` holds a number that
is not below `NINODES`: the run stops at the assertion of `get_nth_inode` (line
300) and the image is as before. -/
theorem main_lookup_abort (L : Layout) (img : Image) (o : List Msg) (v : Verdict)
    (hv : validate L img true = .ok o v) (hreq : v.repair_required = true)
    (hsafe : (main L img true).halt ≠ some .undefined) (j : Nat) (hj : j < L.NDIRENT)
    (hname : name_is img (slot_at L img 1 j + NAME_OFF) lost_found = true)
    (hfirst : ∀ i, i < j → name_is img (slot_at L img 1 i + NAME_OFF) lost_found = false)
    (hge : L.NINODES ≤ slot_inum L img 1 j) :
    main L img true = Run.mk o false (some .abort) img := by
  have hroot := validate_root_ip L img true o v hv
  have hmain : main L img true = repair L img o v := by
    unfold main
    rw [hv]
    simp [hreq]
  rw [hmain] at hsafe ⊢
  unfold repair at hsafe ⊢
  rw [hroot] at hsafe ⊢
  rcases find_lost_found_root L img j hj hname hfirst with h | h
  · rw [h] at hsafe
    exact absurd rfl hsafe
  · rw [if_neg (Nat.not_lt.mpr hge)] at h
    rw [h]
    simp

/-- The run of the repair when the entry named `lost_found` names an inode of
the table: the block of that inode lies inside the image, and the run places
the orphans as far as the free slots last. -/
theorem main_relocates (L : Layout) (img : Image) (hn : 2 ≤ L.NINODES) (he : 2 ≤ L.NDIRENT)
    (hE : L.NDIRENT * DIRENT_SIZE ≤ L.BSIZE) (hN : L.NINODES ≤ 65536)
    (o : List Msg) (v : Verdict)
    (hv : validate L img true = .ok o v) (hreq : v.repair_required = true)
    (hsafe : (main L img true).halt ≠ some .undefined) (j : Nat) (hj : j < L.NDIRENT)
    (hname : name_is img (slot_at L img 1 j + NAME_OFF) lost_found = true)
    (hfirst : ∀ i, i < j → name_is img (slot_at L img 1 i + NAME_OFF) lost_found = false)
    (hlt : slot_inum L img 1 j < L.NINODES)
    (hsep : ∀ s, s < L.NDIRENT →
      block_slot L (dir_block img (inode_at L (slot_inum L img 1 j))) s + 2 ≤
        inode_at L (slot_inum L img 1 j) + ADDRS_OFF ∨
      inode_at L (slot_inum L img 1 j) + ADDRS_OFF + 2 ≤
        block_slot L (dir_block img (inode_at L (slot_inum L img 1 j))) s)
    (h0 : is_nth_bit_1 v.used 0 = false) :
    dir_block img (inode_at L (slot_inum L img 1 j)) < L.FSSIZE ∧
    main L img true =
      Run.mk
        (o ++ (if (orphans L v.used).length ≤
            (free_slots L img (dir_block img (inode_at L (slot_inum L img 1 j)))).length
          then [] else [Msg.lostFoundFull]))
        false
        (if (orphans L v.used).length ≤
            (free_slots L img (dir_block img (inode_at L (slot_inum L img 1 j)))).length
          then none else some .exit1)
        (place L (dir_block img (inode_at L (slot_inum L img 1 j))) img
          ((orphans L v.used).zip
            (free_slots L img (dir_block img (inode_at L (slot_inum L img 1 j)))))) := by
  have hroot := validate_root_ip L img true o v hv
  have hmain : main L img true = repair L img o v := by
    unfold main
    rw [hv]
    simp [hreq]
  have hlf : find_lost_found L img v.root_ip (upto 0 L.NDIRENT) =
      .ok [] (some (inode_at L (slot_inum L img 1 j))) := by
    rw [hroot]
    rcases find_lost_found_root L img j hj hname hfirst with h | h
    · exfalso
      apply hsafe
      rw [hmain]
      unfold repair
      rw [hroot, h]
    · rw [h, if_pos hlt]
  have hin : dir_block img (inode_at L (slot_inum L img 1 j)) < L.FSSIZE := by
    by_contra hc
    apply hsafe
    rw [hmain]
    unfold repair
    rw [hlf]
    simp only
    rw [relocate_outside L v.used _ img (by omega) (Nat.not_lt.mp hc) _
      (orphan_of_required L img hn he o v hv hreq)]
  exact ⟨hin, main_repair L img hE hN o v hv hreq [] _ hlf hsep hin h0⟩

/-- An inode left in the bitmap makes the usage pass ask for the repair. -/
theorem required_of_orphan (L : Layout) (img : Image) (hn : 2 ≤ L.NINODES) (he : 2 ≤ L.NDIRENT)
    (o : List Msg) (v : Verdict) (hv : validate L img true = .ok o v)
    (horph : orphans L v.used ≠ []) : v.repair_required = true := by
  obtain ⟨t, root, u, b, W2, op, _, ⟨ou, hu⟩, _, _, hval⟩ :=
    validate_returns L img hn he (by rw [hv]; rfl)
  rw [hv] at hval
  injection hval with _ hvv
  subst hvv
  obtain ⟨h1, h2, _⟩ := check_usage_ok L true t ou u hu
  obtain ⟨i, hi⟩ := List.exists_mem_of_ne_nil _ horph
  unfold orphans at hi
  obtain ⟨hi1, hi2⟩ := List.mem_filter.mp hi
  have hlt := (mem_upto.mp hi1).2
  have hb : is_nth_bit_1 u.1 i = true := hi2
  rw [h1 i] at hb
  simp only [hlt, decide_True, Bool.true_and, Bool.and_eq_true, Bool.not_eq_true',
    decide_eq_false_iff_not] at hb
  exact h2.mpr ⟨i, hlt, hb.1, by omega⟩

/-- The inode-number field of a slot of a block does not overlap the first
address field of an inode, when blocks and inodes are a whole number of
directory entries long. -/
theorem slot_sep_of_aligned (L : Layout) (hA : DIRENT_SIZE ∣ L.BSIZE)
    (hD : DIRENT_SIZE ∣ L.DINODE_SIZE) (B n s : Nat) :
    block_slot L B s + 2 ≤ inode_at L n + ADDRS_OFF ∨
    inode_at L n + ADDRS_OFF + 2 ≤ block_slot L B s := by
  obtain ⟨a, ha⟩ := hA
  obtain ⟨b, hb⟩ := hD
  unfold block_slot inode_at ADDRS_OFF
  rw [ha, hb]
  unfold DIRENT_SIZE
  have e1 : B * (16 * a) = 16 * (B * a) := by ring
  have e2 : L.INODESTART * (16 * a) = 16 * (L.INODESTART * a) := by ring
  have e3 : n * (16 * b) = 16 * (n * b) := by ring
  rw [e1, e2, e3]
  generalize B * a = x
  generalize L.INODESTART * a = y
  generalize n * b = z
  omega

/-- C1, as amended. Repair postcondition and frame. For a repair-mode run that
stays within defined behaviour and whose validation returns having found at
least one orphan, where `j` is the first slot of the block of the root that
carries the name `lost_found`, inode 0 is free, and the block of the inode
whose number slot `j` holds has at least as many slots with inode number 0 as
there are orphans: the orphans are the non-free inodes with reference count 0;
if the number in slot `j` is not below `NINODES`, the run stops at the
assertion of `get_nth_inode` and the image is as before; if it is, the run ends
with status 0 having written the lines of the validation alone, after the run
the k-th orphan in ascending order is the inode number of the k-th slot (in
ascending order, from slot 0) of that block that held inode number 0 before the
run, and every byte outside the inode-number fields of those slots is as
before. -/
theorem repair_postcondition (L : Layout) (img : Image) (hT : L.T_DIR ≠ 0) (hn : 2 ≤ L.NINODES)
    (he : 2 ≤ L.NDIRENT) (hE : L.NDIRENT * DIRENT_SIZE ≤ L.BSIZE)
    (hA : DIRENT_SIZE ∣ L.BSIZE) (hD : DIRENT_SIZE ∣ L.DINODE_SIZE)
    (hN : L.NINODES ≤ 65536) (o : List Msg) (v : Verdict)
    (hv : validate L img true = .ok o v) (horph : orphans L v.used ≠ [])
    (hsafe : (main L img true).halt ≠ some .undefined) (j : Nat) (hj : j < L.NDIRENT)
    (hname : name_is img (slot_at L img 1 j + NAME_OFF) lost_found = true)
    (hfirst : ∀ i, i < j → name_is img (slot_at L img 1 i + NAME_OFF) lost_found = false)
    (h0 : itype L img 0 = 0)
    (hroom : (orphans L v.used).length ≤
      (free_slots L img (dir_block img (inode_at L (slot_inum L img 1 j)))).length) :
    (∃ t, analyse L img = .ok [] t ∧
      ∀ i, i ∈ orphans L v.used ↔ (i < L.NINODES ∧ itype L img i ≠ 0 ∧ t.irefs i = 0)) ∧
    (L.NINODES ≤ slot_inum L img 1 j →
      (main L img true).halt = some .abort ∧ (main L img true).image = img) ∧
    (slot_inum L img 1 j < L.NINODES →
      (main L img true).halt = none ∧ (main L img true).stderr = o ∧
      (∀ (k i s : Nat), (orphans L v.used)[k]? = some i →
        (free_slots L img (dir_block img (inode_at L (slot_inum L img 1 j))))[k]? = some s →
        ld16 (main L img true).image
          (block_slot L (dir_block img (inode_at L (slot_inum L img 1 j))) s) = i) ∧
      (∀ p, (∀ (k s : Nat), k < (orphans L v.used).length →
          (free_slots L img (dir_block img (inode_at L (slot_inum L img 1 j))))[k]? = some s →
          p ≠ block_slot L (dir_block img (inode_at L (slot_inum L img 1 j))) s ∧
          p ≠ block_slot L (dir_block img (inode_at L (slot_inum L img 1 j))) s + 1) →
        (main L img true).image p = img p)) := by
  have hreq := required_of_orphan L img hn he o v hv horph
  refine ⟨?_, ?_, ?_⟩
  · obtain ⟨t, root, u, b, W2, op, ht, ⟨o3, hu⟩, _, _, hv2⟩ :=
      validate_returns L img hn he (by rw [hv]; rfl)
    rw [hv] at hv2
    cases hv2
    exact ⟨t, ht, fun i => orphans_iff L img hT t _ _ u ht hu i⟩
  · intro hge
    rw [main_lookup_abort L img o v hv hreq hsafe j hj hname hfirst hge]
    exact ⟨rfl, rfl⟩
  · intro hlt
    obtain ⟨_, hmain⟩ := main_relocates L img hn he hE hN o v hv hreq hsafe j hj hname hfirst hlt
      (fun s _ => slot_sep_of_aligned L hA hD _ _ s) (orphan_zero L img hT hn he o v hv h0)
    generalize dir_block img (inode_at L (slot_inum L img 1 j)) = B at *
    rw [if_pos hroom, if_pos hroom] at hmain
    rw [hmain]
    refine ⟨rfl, by simp, ?_, ?_⟩
    · intro k i s hi hs
      have hmem : (i, s) ∈ (orphans L v.used).zip (free_slots L img B) :=
        List.getElem?_mem (List.getElem?_zip_eq_some.mpr ⟨hi, hs⟩)
      have hnd : (((orphans L v.used).zip (free_slots L img B)).map Prod.snd).Nodup :=
        zip_snd_nodup _ _ ((nodup_upto _ _).filter _)
      have := ld16_place_mem L B _ img (i, s) hmem hnd
      simp only at this
      rw [this]
      have hi2 : i < L.NINODES := by
        have := List.getElem?_mem hi
        unfold orphans at this
        exact (mem_upto.mp (List.mem_filter.mp this).1).2
      unfold xshort
      omega
    · intro p hp
      apply place_other
      intro a ha
      obtain ⟨k, hk, hs⟩ := zip_snd_mem ha
      exact hp k a.2 hk hs

/-! ## A full `lost_found` (lines 313-327) -/

/-- The validation does not write "lost_found directory is full". -/
theorem validate_full (L : Layout) (img : Image) (r : Bool) :
    ∀ m ∈ (validate L img r).out, m ≠ Msg.lostFoundFull := by
  unfold validate
  refine Res.all_bind (Res.all_ne (check_types_out _ _ _) (by decide)) (fun _ => ?_)
  refine Res.all_bind (Res.all_of_silent (analyse_out _ _)) (fun t => ?_)
  refine Res.all_bind (Res.all_ne (check_bounds_out _ _ _ _) (by decide)) (fun _ => ?_)
  refine Res.all_bind (Res.all_ne (check_bounds_out _ _ _ _) (by decide)) (fun _ => ?_)
  refine Res.all_bind (Res.all_ne (check_root_out _ _ _) (by decide)) (fun _ => ?_)
  refine Res.all_bind (Res.all_ne (check_format_out _ _ _) (by decide)) (fun _ => ?_)
  refine Res.all_bind (Res.all_ne (check_marked_out _ _ _ _) (by decide)) (fun _ => ?_)
  refine Res.all_bind (Res.all_ne (check_marked_out _ _ _ _) (by decide)) (fun _ => ?_)
  refine Res.all_bind (Res.all_ne (check_residual_out _ _ _) (by decide)) (fun _ => ?_)
  refine Res.all_bind (Res.all_ne2 (check_aliasing_out _ _ _) (by decide) (by decide))
    (fun _ => ?_)
  refine Res.all_bind (Res.all_ne2 (check_usage_out _ _ _) (by decide) (by decide)) (fun _ => ?_)
  refine Res.all_bind (Res.all_ne (check_nlink_out _ _ _ _) (by decide)) (fun _ => ?_)
  refine Res.all_bind (Res.all_ne (check_dirlink_out _ _ _ _) (by decide)) (fun _ => ?_)
  refine Res.all_bind (Res.all_ne2 (check_parents_out _ _ _) (by decide) (by decide))
    (fun _ => ?_)
  refine Res.all_bind (Res.all_ne2 (check_tree_out _ _ _ _) (by decide) (by decide))
    (fun _ => ?_)
  exact all_pure _

/-- C19, as amended. Full `lost_found`. For a repair-mode run that stays
within defined behaviour and whose validation returns, where `j` is the first
slot of the block of the root that carries the name `lost_found`, inode 0 is
free, and the block of the inode whose number slot `j` holds has fewer slots
with inode number 0 than there are orphans: the orphans are the non-free inodes
with reference count 0; if the number in slot `j` is not below `NINODES`, the
run stops at the assertion of `get_nth_inode`, the image is as before and
"lost_found directory is full" is not written; if it is, the run writes
"lost_found directory is full" as its last line and ends with `exit(1)`, at
that point the k-th slot (in ascending order) that held inode number 0 holds the
k-th orphan in ascending order, for every such slot, and every byte outside the
inode-number fields of those slots is as before. -/
theorem full_lost_found (L : Layout) (img : Image) (hT : L.T_DIR ≠ 0) (hn : 2 ≤ L.NINODES)
    (he : 2 ≤ L.NDIRENT) (hE : L.NDIRENT * DIRENT_SIZE ≤ L.BSIZE)
    (hA : DIRENT_SIZE ∣ L.BSIZE) (hD : DIRENT_SIZE ∣ L.DINODE_SIZE)
    (hN : L.NINODES ≤ 65536) (o : List Msg) (v : Verdict)
    (hv : validate L img true = .ok o v)
    (hsafe : (main L img true).halt ≠ some .undefined) (j : Nat) (hj : j < L.NDIRENT)
    (hname : name_is img (slot_at L img 1 j + NAME_OFF) lost_found = true)
    (hfirst : ∀ i, i < j → name_is img (slot_at L img 1 i + NAME_OFF) lost_found = false)
    (h0 : itype L img 0 = 0)
    (hfull : (free_slots L img (dir_block img (inode_at L (slot_inum L img 1 j)))).length <
      (orphans L v.used).length) :
    (∃ t, analyse L img = .ok [] t ∧
      ∀ i, i ∈ orphans L v.used ↔ (i < L.NINODES ∧ itype L img i ≠ 0 ∧ t.irefs i = 0)) ∧
    (L.NINODES ≤ slot_inum L img 1 j →
      (main L img true).halt = some .abort ∧ (main L img true).image = img ∧
      Msg.lostFoundFull ∉ (main L img true).stderr) ∧
    (slot_inum L img 1 j < L.NINODES →
      (main L img true).halt = some .exit1 ∧
      (main L img true).stderr = o ++ [Msg.lostFoundFull] ∧
      (∀ (k s : Nat),
        (free_slots L img (dir_block img (inode_at L (slot_inum L img 1 j))))[k]? = some s →
        ∃ i, (orphans L v.used)[k]? = some i ∧ i ≠ 0 ∧
          ld16 (main L img true).image
            (block_slot L (dir_block img (inode_at L (slot_inum L img 1 j))) s) = i) ∧
      (∀ p, (∀ s ∈ free_slots L img (dir_block img (inode_at L (slot_inum L img 1 j))),
          p ≠ block_slot L (dir_block img (inode_at L (slot_inum L img 1 j))) s ∧
          p ≠ block_slot L (dir_block img (inode_at L (slot_inum L img 1 j))) s + 1) →
        (main L img true).image p = img p)) := by
  have horph : orphans L v.used ≠ [] := by
    intro e
    rw [e] at hfull
    exact Nat.not_lt_zero _ hfull
  have hreq := required_of_orphan L img hn he o v hv horph
  have hz := orphan_zero L img hT hn he o v hv h0
  refine ⟨?_, ?_, ?_⟩
  · obtain ⟨t, root, u, b, W2, op, ht, ⟨o3, hu⟩, _, _, hv2⟩ :=
      validate_returns L img hn he (by rw [hv]; rfl)
    rw [hv] at hv2
    cases hv2
    exact ⟨t, ht, fun i => orphans_iff L img hT t _ _ u ht hu i⟩
  · intro hge
    rw [main_lookup_abort L img o v hv hreq hsafe j hj hname hfirst hge]
    refine ⟨rfl, rfl, ?_⟩
    intro hm
    have hmsgs := validate_full L img true
    rw [hv] at hmsgs
    exact hmsgs _ hm rfl
  · intro hlt
    obtain ⟨_, hmain⟩ := main_relocates L img hn he hE hN o v hv hreq hsafe j hj hname hfirst hlt
      (fun s _ => slot_sep_of_aligned L hA hD _ _ s) hz
    generalize dir_block img (inode_at L (slot_inum L img 1 j)) = B at *
    rw [if_neg (Nat.not_le.mpr hfull), if_neg (Nat.not_le.mpr hfull)] at hmain
    rw [hmain]
    refine ⟨rfl, rfl, ?_, ?_⟩
    · intro k s hs
      have hk : k < (free_slots L img B).length := by
        by_contra hc
        rw [List.getElem?_eq_none (Nat.not_lt.mp hc)] at hs
        cases hs
      have hk2 : k < (orphans L v.used).length := by omega
      refine ⟨(orphans L v.used)[k], List.getElem?_eq_getElem hk2, ?_, ?_⟩
      · have hmem := List.getElem_mem hk2
        intro e
        rw [e] at hmem
        unfold orphans at hmem
        have := (List.mem_filter.mp hmem).2
        rw [hz] at this
        exact Bool.noConfusion this
      · have hi : (orphans L v.used)[k]? = some (orphans L v.used)[k] :=
          List.getElem?_eq_getElem hk2
        have hmem : ((orphans L v.used)[k], s) ∈ (orphans L v.used).zip (free_slots L img B) :=
          List.getElem?_mem (List.getElem?_zip_eq_some.mpr ⟨hi, hs⟩)
        have hnd : (((orphans L v.used).zip (free_slots L img B)).map Prod.snd).Nodup :=
          zip_snd_nodup _ _ ((nodup_upto _ _).filter _)
        have := ld16_place_mem L B _ img ((orphans L v.used)[k], s) hmem hnd
        simp only at this
        rw [this]
        have hi2 : (orphans L v.used)[k] < L.NINODES := by
          have := List.getElem_mem hk2
          unfold orphans at this
          exact (mem_upto.mp (List.mem_filter.mp this).1).2
        unfold xshort
        omega
    · intro p hp
      apply place_other
      intro a ha
      obtain ⟨k, _, hs⟩ := zip_snd_mem ha
      exact hp a.2 (List.getElem?_mem hs)

/-! ## When the reference pass returns (lines 86-130) -/

theorem Res.why_bind_iff {α β : Type} {x : Res α} {f : α → Res β} {Q1 Q2 : Prop}
    (hx : x.why = none ↔ Q1) (hf : ∀ a, (f a).why = none ↔ Q2) :
    (Res.bind x f).why = none ↔ (Q1 ∧ Q2) := by
  cases x with
  | ok o a =>
    have : Q1 := hx.mp rfl
    simp [hf a, this]
  | stop o s =>
    have : ¬ Q1 := fun h => by
      have := hx.mpr h
      simp at this
    simp [this]

theorem Res.why_ite_iff {α : Type} (c : Prop) [Decidable c] {x y : Res α} {Q1 Q2 : Prop}
    (hx : x.why = none ↔ Q1) (hy : y.why = none ↔ Q2) :
    (if c then x else y).why = none ↔ ((c → Q1) ∧ (¬ c → Q2)) := by
  by_cases h : c
  · rw [if_pos h, hx]
    simp [h]
  · rw [if_neg h, hy]
    simp [h]

theorem Res.why_pure_iff {α : Type} (a : α) : (pure a : Res α).why = none ↔ True := by
  simp [Res.pure_eq]

/-- A loop with state returns exactly if every turn does, when that does not
depend on the state. -/
theorem foldlM_why_iff {σ : Type} {f : σ → Nat → Res σ} (P : Nat → Prop) :
    ∀ (xs : List Nat) (s : σ), (∀ x ∈ xs, ∀ s, (f s x).why = none ↔ P x) →
      ((xs.foldlM f s).why = none ↔ ∀ x ∈ xs, P x)
  | [], s, _ => by simp [foldlM_nil_eq]
  | x :: xs, s, h => by
    rw [foldlM_cons_eq]
    have hx := h x (List.mem_cons_self _ _)
    cases hfx : f s x with
    | ok o a =>
      have hP : P x := (hx s).mp (by rw [hfx]; rfl)
      simp only [Res.bind_ok, Res.why_pre]
      rw [foldlM_why_iff P xs a (fun y hy => h y (List.mem_cons_of_mem _ hy))]
      simp [hP]
    | stop o w =>
      have hP : ¬ P x := fun hp => by
        have := (hx s).mpr hp
        rw [hfx] at this
        simp at this
      simp [hP]

theorem bump_why (size modulus : Nat) (t : Nat → Nat) (k : Nat) :
    (bump size modulus t k).why = none ↔ k < size := by
  unfold bump
  by_cases h : k < size <;> simp [h]

theorem de_inum_why (L : Layout) (img : Image) (de : Nat) :
    (de_inum L img de).why = none ↔ de + 2 ≤ L.IMGSIZE := by
  unfold de_inum
  by_cases h : de + 2 ≤ L.IMGSIZE <;> simp [h]

theorem count_dirents_why (L : Layout) (img : Image) (d : Nat) (r : Nat → Nat) :
    (count_dirents L img (inode_at L d) r).why = none ↔ dirents_fit L img d := by
  unfold count_dirents dirents_fit
  apply foldlM_why_iff
  intro j hj s
  rw [get_nth_dirent_slot L img d (mem_upto.mp hj).2]
  simp only [Res.bind_eq, Res.bind_ok, Res.pre_nil]
  by_cases hin : slot_at L img d j + 2 ≤ L.IMGSIZE
  · rw [de_inum_inside L img _ hin]
    simp only [Res.bind_ok, Res.pre_nil]
    change (if slot_inum L img d j ≠ 0 then _ else _ : Res (Nat → Nat)).why = none ↔ _
    by_cases hz : slot_inum L img d j ≠ 0
    · rw [if_pos hz, bump_why]
      simp only [hin, hz, ne_eq, not_false_eq_true, true_and, true_implies]
      rfl
    · rw [if_neg hz]
      simp [hin, hz]
  · have : (de_inum L img (slot_at L img d j)).why ≠ none := fun h =>
      hin ((de_inum_why L img _).mp h)
    cases hde : de_inum L img (slot_at L img d j) with
    | ok o a => rw [hde] at this; simp at this
    | stop o w => simp [hin]

theorem count_direct_why (L : Layout) (img : Image) (ip : Nat) (d : Nat → Nat) :
    (count_direct L img ip d).why = none ↔ direct_fit L img ip := by
  unfold count_direct direct_fit
  apply foldlM_why_iff
  intro j _ s
  simp only
  by_cases hz : xshort (daddr img ip j) ≠ 0
  · rw [if_pos hz, bump_why]
    simp [hz]
  · rw [if_neg hz]
    simp [hz]

theorem count_indirect_why (L : Layout) (img : Image) (b : Nat) (d : Nat → Nat) :
    (count_indirect L img b d).why = none ↔ indirect_fit L img b := by
  unfold count_indirect indirect_fit
  apply foldlM_why_iff
  intro j _ s
  simp only
  by_cases hz : xint (ld32 img (b + 4 * j)) ≠ 0
  · rw [if_pos hz, bump_why]
    simp [hz]
  · rw [if_neg hz]
    simp [hz]

/-- One turn of the reference loop returns exactly if its accesses stay inside
their arrays and the image. -/
theorem scan_inode_why (L : Layout) (img : Image) (t : Tables) (i : Nat) (hi : i < L.NINODES) :
    (scan_inode L img t i).why = none ↔ scan_fits L img i := by
  unfold scan_inode scan_fits
  rw [get_nth_inode_of_lt L hi]
  simp only [Res.bind_eq, Res.bind_ok, Res.pre_nil]
  change (if itype L img i = 0 then _ else _ : Res Tables).why = none ↔ _
  by_cases hz : itype L img i = 0
  · rw [if_pos hz]
    simp [hz, Res.pure_eq]
  rw [if_neg hz]
  simp only [hz, false_or]
  refine Iff.trans (Res.why_bind_iff
    (Res.why_ite_iff _ (Res.why_bind_iff (count_dirents_why L img i _)
      (fun _ => Res.why_pure_iff _)) (Res.why_pure_iff _))
    (fun t1 => Res.why_bind_iff (count_direct_why L img _ _)
      (fun d => Res.why_bind_iff (bump_why _ _ _ _)
        (fun d2 => Res.why_bind_iff
          (Res.why_ite_iff _ (count_indirect_why L img _ _) (Res.why_pure_iff _))
          (fun ind => Res.why_pure_iff _))))) ?_
  have hd : (xshort (dtype img (inode_at L i)) = L.T_DIR) ↔ is_dir L img i = true := by
    simp [is_dir, itype]
  rw [hd]
  simp only [and_true, implies_true]

/-- The reference pass returns exactly if the accesses of every turn stay
inside their arrays and the image. -/
theorem analyse_why (L : Layout) (img : Image) :
    (analyse L img).why = none ↔ (1 < L.NINODES ∧ ∀ i ∈ upto 0 L.NINODES, scan_fits L img i) := by
  unfold analyse
  simp only [Res.bind_eq]
  exact Res.why_bind_iff (bump_why _ _ _ _) (fun r =>
    foldlM_why_iff (scan_fits L img) _ _
      (fun i hi s => scan_inode_why L img s i (mem_upto.mp hi).2))

theorem analyse_ok_of_why (L : Layout) (img : Image) (h : (analyse L img).why = none) :
    ∃ t, analyse L img = .ok [] t := by
  rcases analyse_quiet L img with h2 | h2
  · exact h2
  · rw [h2] at h
    simp at h

/-- Every slot from 2 on of every directory inode lies inside the image and
holds an inode number below `NINODES`, once the reference pass has returned. -/
theorem slots_fit_of_scan (L : Layout) (img : Image) (hT : L.T_DIR ≠ 0) (hn : 2 ≤ L.NINODES)
    (h : ∀ i ∈ upto 0 L.NINODES, scan_fits L img i) : slots_fit L img = true := by
  unfold slots_fit
  rw [List.all_eq_true]
  intro d hd
  cases hdir : is_dir L img d
  · rfl
  · simp only [Bool.not_true, Bool.false_or, List.all_eq_true]
    intro j hj
    rcases h d hd with hz | ⟨hf, _⟩
    · exact absurd ((is_dir_itype hdir).symm.trans hz) hT
    · obtain ⟨h1, h2⟩ := hf hdir j hj
      have h3 : slot_inum L img d j < L.NINODES := by
        by_cases hz : slot_inum L img d j = 0
        · omega
        · exact h2 hz
      simp [h1, h3]

/-! ## The image after the repair, validated again -/

theorem block_slot_aligned (L : Layout) (h4 : 4 ∣ L.BSIZE) (B s : Nat) :
    4 ∣ block_slot L B s := by
  obtain ⟨c, hc⟩ := h4
  unfold block_slot DIRENT_SIZE
  rw [hc]
  exact ⟨B * c + s * 4, by ring⟩

/-- A 32-bit word at an offset that is a multiple of 4, after the stores: its
high half is as before, and its low half is as before or is the number stored
into the slot that starts there. -/
theorem ld16_place_aligned (L : Layout) (B : Nat) (h4 : 4 ∣ L.BSIZE) (ps : List (Nat × Nat))
    (img : Image) (hsnd : (ps.map Prod.snd).Nodup) (hval : ∀ a ∈ ps, a.1 < 65536) (e : Nat)
    (he : 4 ∣ e) :
    ld16 (place L B img ps) (e + 2) = ld16 img (e + 2) ∧
    (ld16 (place L B img ps) e = ld16 img e ∨
      ∃ a ∈ ps, e = block_slot L B a.2 ∧ ld16 (place L B img ps) e = a.1) := by
  have hal : ∀ a ∈ ps, 4 ∣ block_slot L B a.2 := fun a _ => block_slot_aligned L h4 B a.2
  constructor
  · apply ld16_place_other
    intro a ha
    have := hal a ha
    omega
  · by_cases hex : ∃ a ∈ ps, e = block_slot L B a.2
    · obtain ⟨a, ha, rfl⟩ := hex
      right
      refine ⟨a, ha, rfl, ?_⟩
      rw [ld16_place_mem L B ps img a ha hsnd]
      have := hval a ha
      unfold xshort
      omega
    · left
      apply ld16_place_other
      intro a ha
      have := hal a ha
      have hne : e ≠ block_slot L B a.2 := fun h => hex ⟨a, ha, h⟩
      omega

theorem daddr_place (L : Layout) (B : Nat)
    (htab : block_slot L B L.NDIRENT ≤ L.INODESTART * L.BSIZE ∨
      L.INODESTART * L.BSIZE + L.NINODES * L.DINODE_SIZE ≤ B * L.BSIZE)
    (ps : List (Nat × Nat)) (hps : ∀ a ∈ ps, a.2 < L.NDIRENT) (img : Image) (d j : Nat)
    (hd : d < L.NINODES) (hj : j ≤ L.NDIRECT) :
    daddr (place L B img ps) (inode_at L d) j = daddr img (inode_at L d) j := by
  have h1 := ld16_place_inode L B htab ps hps img d (ADDRS_OFF + 4 * j) hd
    (by unfold Layout.DINODE_SIZE; omega)
  have h2 := ld16_place_inode L B htab ps hps img d (ADDRS_OFF + 4 * j + 2) hd
    (by unfold Layout.DINODE_SIZE; omega)
  have e1 : inode_at L d + ADDRS_OFF + 4 * j = inode_at L d + (ADDRS_OFF + 4 * j) := by omega
  have e2 : inode_at L d + (ADDRS_OFF + 4 * j) + 2 = inode_at L d + (ADDRS_OFF + 4 * j + 2) := by
    omega
  unfold daddr ld32
  rw [e1, e2, h1, h2]

/-- The bytes of the slots 0 and 1 of every block are as before, when the
stores go into slots from 2 on. -/
theorem place_head (L : Layout) (B : Nat) (hE : L.NDIRENT * DIRENT_SIZE ≤ L.BSIZE)
    (ps : List (Nat × Nat)) (img : Image) (hps : ∀ a ∈ ps, 2 ≤ a.2 ∧ a.2 < L.NDIRENT)
    (Bd q : Nat) (hq : q < 2 * DIRENT_SIZE) :
    place L B img ps (Bd * L.BSIZE + q) = img (Bd * L.BSIZE + q) := by
  apply place_other
  intro a ha
  obtain ⟨h2, hlt⟩ := hps a ha
  unfold block_slot
  unfold DIRENT_SIZE at hE hq ⊢
  rcases Nat.lt_trichotomy Bd B with h | h | h
  · have h3 : (Bd + 1) * L.BSIZE ≤ B * L.BSIZE := Nat.mul_le_mul_right _ h
    rw [Nat.add_mul, Nat.one_mul] at h3
    omega
  · subst h
    omega
  · have h3 : (B + 1) * L.BSIZE ≤ Bd * L.BSIZE := Nat.mul_le_mul_right _ h
    rw [Nat.add_mul, Nat.one_mul] at h3
    omega

theorem ld16_place_slot (L : Layout) (B : Nat) (hE : L.NDIRENT * DIRENT_SIZE ≤ L.BSIZE)
    (ps : List (Nat × Nat)) (img : Image) (hps : ∀ a ∈ ps, 2 ≤ a.2 ∧ a.2 < L.NDIRENT)
    (d j : Nat) (hj : j < 2) :
    ld16 (place L B img ps) (slot_at L img d j) = ld16 img (slot_at L img d j) := by
  have h1 := place_head L B hE ps img hps (dir_block img (inode_at L d)) (j * DIRENT_SIZE)
    (by unfold DIRENT_SIZE; omega)
  have h2 := place_head L B hE ps img hps (dir_block img (inode_at L d)) (j * DIRENT_SIZE + 1)
    (by unfold DIRENT_SIZE; omega)
  unfold ld16 byte
  rw [slot_at_eq]
  unfold block_slot
  rw [h1, Nat.add_assoc, h2]

theorem byte_place_name (L : Layout) (B : Nat) (hE : L.NDIRENT * DIRENT_SIZE ≤ L.BSIZE)
    (ps : List (Nat × Nat)) (img : Image) (hps : ∀ a ∈ ps, 2 ≤ a.2 ∧ a.2 < L.NDIRENT)
    (d j k : Nat) (hj : j < 2) (hk : k < 14) :
    byte (place L B img ps) (slot_at L img d j + NAME_OFF + k) =
      byte img (slot_at L img d j + NAME_OFF + k) := by
  have h1 := place_head L B hE ps img hps (dir_block img (inode_at L d))
    (j * DIRENT_SIZE + NAME_OFF + k) (by unfold DIRENT_SIZE NAME_OFF; omega)
  unfold byte
  rw [slot_at_eq]
  unfold block_slot
  have e : dir_block img (inode_at L d) * L.BSIZE + j * DIRENT_SIZE + NAME_OFF + k =
      dir_block img (inode_at L d) * L.BSIZE + (j * DIRENT_SIZE + NAME_OFF + k) := by omega
  rw [e, h1]

theorem ld8_congr (L : Layout) (img img2 : Image) (p : Nat) (h : byte img2 p = byte img p) :
    ld8 L img2 p = ld8 L img p := by
  unfold ld8
  rw [h]

/-- The comparison reads the same on two images that agree on the characters
it can reach. -/
theorem streq_congr (L : Layout) (img img2 : Image) :
    ∀ (s : List Nat) (p : Nat), (∀ k, k ≤ s.length → byte img2 (p + k) = byte img (p + k)) →
      streq L img2 p s = streq L img p s
  | [], p, h => by
    rw [streq, streq, ld8_congr L img img2 p (h 0 (Nat.le_refl _))]
  | x :: xs, p, h => by
    rw [streq, streq, ld8_congr L img img2 p (h 0 (Nat.zero_le _))]
    congr 1
    funext c
    split
    · apply streq_congr L img img2 xs (p + 1)
      intro k hk
      have := h (k + 1) (by simp only [List.length_cons]; omega)
      rw [Nat.add_assoc, Nat.add_comm 1 k]
      exact this
    · rfl

theorem de_inum_congr (L : Layout) (img img2 : Image) (de : Nat)
    (h : ld16 img2 de = ld16 img de) : de_inum L img2 de = de_inum L img de := by
  unfold de_inum
  rw [h]

theorem forM_congr {f g : Nat → Res Unit} :
    ∀ (xs : List Nat), (∀ i ∈ xs, f i = g i) → xs.forM f = xs.forM g
  | [], _ => rfl
  | x :: xs, h => by
    rw [forM_cons_eq, forM_cons_eq, h x (List.mem_cons_self _ _),
      forM_congr xs (fun i hi => h i (List.mem_cons_of_mem _ hi))]

theorem forM_why_none {f : Nat → Res Unit} :
    ∀ (xs : List Nat), (xs.forM f).why = none → ∀ i ∈ xs, (f i).why = none
  | [], _, i, hi => by cases hi
  | x :: xs, h, i, hi => by
    rw [forM_cons_eq] at h
    cases hx : f x with
    | stop o s =>
      rw [hx] at h
      simp at h
    | ok o a =>
      rw [hx] at h
      simp only [Res.bind_ok, Res.why_pre] at h
      rcases List.mem_cons.mp hi with e | e
      · rw [e, hx]
        rfl
      · exact forM_why_none xs h i e

theorem slot_at_place (L : Layout) (B : Nat)
    (htab : block_slot L B L.NDIRENT ≤ L.INODESTART * L.BSIZE ∨
      L.INODESTART * L.BSIZE + L.NINODES * L.DINODE_SIZE ≤ B * L.BSIZE)
    (ps : List (Nat × Nat)) (hps : ∀ a ∈ ps, a.2 < L.NDIRENT) (img : Image) (d j : Nat)
    (hd : d < L.NINODES) :
    slot_at L (place L B img ps) d j = slot_at L img d j := by
  rw [slot_at_eq, slot_at_eq, dir_block_place L B htab ps hps img d hd]

theorem get_nth_dirent_place (L : Layout) (B : Nat)
    (htab : block_slot L B L.NDIRENT ≤ L.INODESTART * L.BSIZE ∨
      L.INODESTART * L.BSIZE + L.NINODES * L.DINODE_SIZE ≤ B * L.BSIZE)
    (ps : List (Nat × Nat)) (hps : ∀ a ∈ ps, a.2 < L.NDIRENT) (img : Image) (d n : Nat)
    (hd : d < L.NINODES) :
    get_nth_dirent L (place L B img ps) (inode_at L d) n =
      get_nth_dirent L img (inode_at L d) n := by
  have := dir_block_place L B htab ps hps img d hd
  unfold dir_block at this
  unfold get_nth_dirent
  rw [this]

/-- The accesses of a turn of the reference loop stay inside their arrays and
the image after the stores, if they did before: the inode table is as before,
and a slot or an entry of an indirect block that was stored into held 0 and
holds an inode number now. -/
theorem scan_fits_place (L : Layout) (B : Nat) (h4 : 4 ∣ L.BSIZE) (hNF : L.NINODES ≤ L.FSSIZE)
    (hF : L.FSSIZE ≤ 65536)
    (htab : block_slot L B L.NDIRENT ≤ L.INODESTART * L.BSIZE ∨
      L.INODESTART * L.BSIZE + L.NINODES * L.DINODE_SIZE ≤ B * L.BSIZE)
    (ps : List (Nat × Nat)) (img : Image) (hsnd : (ps.map Prod.snd).Nodup)
    (hps : ∀ a ∈ ps, a.2 < L.NDIRENT ∧ ld16 img (block_slot L B a.2) = 0 ∧ a.1 < L.NINODES)
    (i : Nat) (hi : i < L.NINODES) (h : scan_fits L img i) :
    scan_fits L (place L B img ps) i := by
  have hps1 : ∀ a ∈ ps, a.2 < L.NDIRENT := fun a ha => (hps a ha).1
  have hval : ∀ a ∈ ps, a.1 < 65536 := fun a ha => by
    have := (hps a ha).2.2
    omega
  unfold scan_fits dirents_fit direct_fit indirect_fit at h ⊢
  rw [itype_place L B htab ps hps1 img i hi, is_dir_place L B htab ps hps1 img i hi,
    daddr_place L B htab ps hps1 img i L.NDIRECT hi (Nat.le_refl _)]
  rcases h with hz | ⟨hd, hdir, hb, hind⟩
  · exact Or.inl hz
  right
  refine ⟨?_, ?_, hb, ?_⟩
  · intro hdd j hj
    obtain ⟨h1, h2⟩ := hd hdd j hj
    rw [slot_at_place L B htab ps hps1 img i j hi]
    refine ⟨h1, ?_⟩
    unfold slot_inum at h2 ⊢
    rw [slot_at_place L B htab ps hps1 img i j hi]
    obtain ⟨_, hlo⟩ := ld16_place_aligned L B h4 ps img hsnd hval (slot_at L img i j)
      (by rw [slot_at_eq]; exact block_slot_aligned L h4 _ _)
    rcases hlo with e | ⟨a, ha, _, e⟩
    · rw [e]
      exact h2
    · rw [e]
      intro _
      have := (hps a ha).2.2
      unfold xshort
      omega
  · intro j hj hne
    rw [daddr_place L B htab ps hps1 img i j hi (Nat.le_of_lt (mem_upto.mp hj).2)] at hne ⊢
    exact hdir j hj hne
  · intro hinb j hj
    have hold := hind hinb j hj
    generalize xint (daddr img (inode_at L i) L.NDIRECT) = X at *
    have hal : 4 ∣ X * L.BSIZE + 4 * j := by
      obtain ⟨c, hc⟩ := h4
      rw [hc]
      exact ⟨X * c + j, by ring⟩
    obtain ⟨hhi, hlo⟩ := ld16_place_aligned L B h4 ps img hsnd hval (X * L.BSIZE + 4 * j) hal
    unfold ld32 xint at hold ⊢
    rw [hhi]
    rcases hlo with e | ⟨a, ha, ea, e⟩
    · rw [e]
      exact hold
    · rw [e]
      have hz : ld16 img (X * L.BSIZE + 4 * j) = 0 := by
        rw [ea]
        exact (hps a ha).2.1
      rw [hz] at hold
      have h5 := (hps a ha).2.2
      have h6 := ld16_lt img (X * L.BSIZE + 4 * j + 2)
      intro _
      by_cases hh : ld16 img (X * L.BSIZE + 4 * j + 2) = 0
      · rw [hh]
        omega
      · exfalso
        have := hold (by omega)
        omega

/-- The root pass reads the same after the stores. -/
theorem check_root_place (L : Layout) (B : Nat) (hn : 2 ≤ L.NINODES) (he : 2 ≤ L.NDIRENT)
    (hE : L.NDIRENT * DIRENT_SIZE ≤ L.BSIZE)
    (htab : block_slot L B L.NDIRENT ≤ L.INODESTART * L.BSIZE ∨
      L.INODESTART * L.BSIZE + L.NINODES * L.DINODE_SIZE ≤ B * L.BSIZE)
    (ps : List (Nat × Nat)) (img : Image) (hps : ∀ a ∈ ps, 2 ≤ a.2 ∧ a.2 < L.NDIRENT)
    (r : Bool) :
    check_root L (place L B img ps) r = check_root L img r := by
  have hps1 : ∀ a ∈ ps, a.2 < L.NDIRENT := fun a ha => (hps a ha).2
  have ht : xshort (dtype (place L B img ps) (inode_at L 1)) =
      xshort (dtype img (inode_at L 1)) := itype_place L B htab ps hps1 img 1 (by omega)
  unfold check_root
  rw [get_nth_inode_of_lt L (by omega : 1 < L.NINODES)]
  simp only [Res.bind_eq, Res.bind_ok, Res.pre_nil]
  rw [ht, get_nth_dirent_place L B htab ps hps1 img 1 0 (by omega),
    get_nth_dirent_slot L img 1 (by omega : 0 < L.NDIRENT)]
  simp only [Res.bind_ok, Res.pre_nil]
  rw [de_inum_congr L img _ _ (ld16_place_slot L B hE ps img hps 1 0 (by omega)), slot_at_succ,
    de_inum_congr L img _ _ (ld16_place_slot L B hE ps img hps 1 (0 + 1) (by omega))]

/-- The format pass reads the same after the stores. -/
theorem check_format_place (L : Layout) (B : Nat) (he : 2 ≤ L.NDIRENT)
    (hE : L.NDIRENT * DIRENT_SIZE ≤ L.BSIZE)
    (htab : block_slot L B L.NDIRENT ≤ L.INODESTART * L.BSIZE ∨
      L.INODESTART * L.BSIZE + L.NINODES * L.DINODE_SIZE ≤ B * L.BSIZE)
    (ps : List (Nat × Nat)) (img : Image) (hps : ∀ a ∈ ps, 2 ≤ a.2 ∧ a.2 < L.NDIRENT)
    (r : Bool) :
    check_format L (place L B img ps) r = check_format L img r := by
  have hps1 : ∀ a ∈ ps, a.2 < L.NDIRENT := fun a ha => (hps a ha).2
  unfold check_format
  apply forM_congr
  intro i hi
  have hi2 := (mem_upto.mp hi).2
  have ht : xshort (dtype (place L B img ps) (inode_at L i)) =
      xshort (dtype img (inode_at L i)) := itype_place L B htab ps hps1 img i hi2
  rw [get_nth_inode_of_lt L hi2]
  simp only [Res.bind_eq, Res.bind_ok, Res.pre_nil]
  rw [ht]
  by_cases hd : xshort (dtype img (inode_at L i)) = L.T_DIR
  · rw [if_pos hd, if_pos hd, get_nth_dirent_place L B htab ps hps1 img i 0 hi2,
      get_nth_dirent_place L B htab ps hps1 img i 1 hi2,
      get_nth_dirent_slot L img i (by omega : 0 < L.NDIRENT),
      get_nth_dirent_slot L img i (by omega : 1 < L.NDIRENT)]
    simp only [Res.bind_ok, Res.pre_nil]
    rw [de_inum_congr L img _ _ (ld16_place_slot L B hE ps img hps i 0 (by omega)),
      streq_congr L img (place L B img ps) [46] (slot_at L img i 0 + NAME_OFF)
        (fun k hk => byte_place_name L B hE ps img hps i 0 k (by omega)
          (by simp only [List.length_cons, List.length_nil] at hk; omega)),
      streq_congr L img (place L B img ps) [46, 46] (slot_at L img i 1 + NAME_OFF)
        (fun k hk => byte_place_name L B hE ps img hps i 1 k (by omega)
          (by simp only [List.length_cons, List.length_nil] at hk; omega))]
  · rw [if_neg hd, if_neg hd]

theorem de_inum_outside (L : Layout) (img : Image) (de : Nat) (h : ¬ de + 2 ≤ L.IMGSIZE) :
    de_inum L img de = .stop [] .undefined := by
  unfold de_inum
  simp [h]

theorem error_why (m : Msg) : (error true m).why = none ↔ True := by
  simp

theorem parent_names_why (L : Layout) (img : Image) (p i : Nat) :
    (parent_names L img (inode_at L p) i).why = none ↔
      ∀ j ∈ upto 2 L.NDIRENT, slot_at L img p j + 2 ≤ L.IMGSIZE := by
  unfold parent_names
  apply foldlM_why_iff
  intro j hj s
  rw [get_nth_dirent_slot L img p (mem_upto.mp hj).2]
  simp only [Res.bind_eq, Res.bind_ok, Res.pre_nil]
  exact (Res.why_bind_iff (de_inum_why L img _) (fun _ => Res.why_pure_iff _)).trans (by simp)

/-- The body of the parent loop returns exactly if the parent slot of a
directory lies inside the image and holds a number below `NINODES`, and the
slots from 2 on of the block of that inode lie inside the image. -/
theorem check_parent_why (L : Layout) (img : Image) (i : Nat) (hi : i < L.NINODES)
    (he : 2 ≤ L.NDIRENT) :
    (check_parent L img true i).why = none ↔
      (is_dir L img i = true → slot_at L img i 1 + 2 ≤ L.IMGSIZE ∧
        slot_inum L img i 1 < L.NINODES ∧
        ∀ j ∈ upto 2 L.NDIRENT, slot_at L img (slot_inum L img i 1) j + 2 ≤ L.IMGSIZE) := by
  unfold check_parent
  rw [get_nth_inode_of_lt L hi]
  simp only [Res.bind_eq, Res.bind_ok, Res.pre_nil]
  cases hdir : is_dir L img i
  · have hd : xshort (dtype img (inode_at L i)) ≠ L.T_DIR := by
      simpa [is_dir, itype] using hdir
    rw [if_pos hd]
    simp [Res.pure_eq]
  · have hd : ¬ (xshort (dtype img (inode_at L i)) ≠ L.T_DIR) := by
      have := is_dir_itype hdir
      unfold itype at this
      simp [this]
    rw [if_neg hd, get_nth_dirent_slot L img i (by omega : 1 < L.NDIRENT)]
    simp only [Res.bind_ok, Res.pre_nil, true_implies]
    by_cases hin : slot_at L img i 1 + 2 ≤ L.IMGSIZE
    · rw [de_inum_inside L img _ hin]
      simp only [Res.bind_ok, Res.pre_nil]
      change (Res.bind (get_nth_inode L (slot_inum L img i 1)) _).why = none ↔ _
      by_cases hp : slot_inum L img i 1 < L.NINODES
      · rw [get_nth_inode_of_lt L hp]
        simp only [Res.bind_ok, Res.pre_nil]
        refine Iff.trans (Res.why_bind_iff
          (Res.why_ite_iff _ (error_why _) (Res.why_pure_iff _))
          (fun _ => Res.why_bind_iff (parent_names_why L img _ i)
            (fun m => (Res.why_ite_iff _ (error_why _) (Res.why_pure_iff _)).trans
              (by simp : _ ↔ True)))) ?_
        simp [hin, hp]
      · rw [get_nth_inode_of_ge L (Nat.not_lt.mp hp)]
        simp [hp]
    · rw [de_inum_outside L img _ hin]
      simp [hin]

/-- The body of the parent loop returns after the stores, if it did before. -/
theorem check_parent_place (L : Layout) (B : Nat) (he : 2 ≤ L.NDIRENT)
    (hE : L.NDIRENT * DIRENT_SIZE ≤ L.BSIZE)
    (htab : block_slot L B L.NDIRENT ≤ L.INODESTART * L.BSIZE ∨
      L.INODESTART * L.BSIZE + L.NINODES * L.DINODE_SIZE ≤ B * L.BSIZE)
    (ps : List (Nat × Nat)) (img : Image) (hps : ∀ a ∈ ps, 2 ≤ a.2 ∧ a.2 < L.NDIRENT)
    (i : Nat) (hi : i < L.NINODES) (h : (check_parent L img true i).why = none) :
    (check_parent L (place L B img ps) true i).why = none := by
  have hps1 : ∀ a ∈ ps, a.2 < L.NDIRENT := fun a ha => (hps a ha).2
  rw [check_parent_why L _ i hi he] at h ⊢
  rw [is_dir_place L B htab ps hps1 img i hi]
  intro hdir
  obtain ⟨h1, h2, h3⟩ := h hdir
  have e1 : slot_inum L (place L B img ps) i 1 = slot_inum L img i 1 := by
    unfold slot_inum
    rw [slot_at_place L B htab ps hps1 img i 1 hi, ld16_place_slot L B hE ps img hps i 1 (by omega)]
  rw [slot_at_place L B htab ps hps1 img i 1 hi, e1]
  refine ⟨h1, h2, fun j hj => ?_⟩
  rw [slot_at_place L B htab ps hps1 img _ j h2]
  exact h3 j hj

/-- A validation in repair mode that returns ran the format pass to its end. -/
theorem validate_format (L : Layout) (img : Image) (hn : 2 ≤ L.NINODES) (he : 2 ≤ L.NDIRENT)
    (h : (validate L img true).why = none) : (check_format L img true).why = none := by
  obtain ⟨o1, a1, h1⟩ := Res.eq_ok_of_why _ (check_types_total L img)
  obtain ⟨t, root, u, ht, ⟨o5, h5⟩, _, _⟩ := validate_reach L img hn he (by rw [h]; simp)
  obtain ⟨o3, a3, h3⟩ := Res.eq_ok_of_why _ (check_bounds_total L t.direct .badDirect)
  obtain ⟨o4, a4, h4⟩ := Res.eq_ok_of_why _ (check_bounds_total L t.indirect .badIndirect)
  cases h6 : check_format L img true with
  | ok o a => rfl
  | stop o s =>
    exfalso
    have hw : (validate L img true).why = some s := by
      simp only [validate, h1, ht, h3, h4, h5, h6, Res.bind_eq, Res.bind_ok, Res.bind_stop,
        Res.pre_stop, Res.why_stop]
    rw [h] at hw
    cases hw

/-- The validation of the image after the stores returns, if the validation of
the image before them did: the stores go into free slots from 2 on of a block
that holds no part of the inode table, and put inode numbers there. -/
theorem validate_place_returns (L : Layout) (hT : L.T_DIR ≠ 0) (hn : 2 ≤ L.NINODES)
    (he : 2 ≤ L.NDIRENT) (hE : L.NDIRENT * DIRENT_SIZE ≤ L.BSIZE) (h4 : 4 ∣ L.BSIZE)
    (hNF : L.NINODES ≤ L.FSSIZE) (hF : L.FSSIZE ≤ 65536) (B : Nat)
    (htab : block_slot L B L.NDIRENT ≤ L.INODESTART * L.BSIZE ∨
      L.INODESTART * L.BSIZE + L.NINODES * L.DINODE_SIZE ≤ B * L.BSIZE)
    (ps : List (Nat × Nat)) (img : Image) (hsnd : (ps.map Prod.snd).Nodup)
    (hps : ∀ a ∈ ps, 2 ≤ a.2 ∧ a.2 < L.NDIRENT ∧ ld16 img (block_slot L B a.2) = 0 ∧
      a.1 < L.NINODES)
    (h : (validate L img true).why = none) :
    (validate L (place L B img ps) true).why = none := by
  have hps2 : ∀ a ∈ ps, 2 ≤ a.2 ∧ a.2 < L.NDIRENT := fun a ha => ⟨(hps a ha).1, (hps a ha).2.1⟩
  obtain ⟨t, root, u, ht, ⟨o5, h5⟩, _, _⟩ := validate_reach L img hn he (by rw [h]; simp)
  obtain ⟨_, _, _, _, _, op, _, _, hpar, _, _⟩ := validate_returns L img hn he h
  have hfmt := validate_format L img hn he h
  have hscan := ((analyse_why L img).mp (by rw [ht]; rfl)).2
  have hscan2 : ∀ i ∈ upto 0 L.NINODES, scan_fits L (place L B img ps) i := fun i hi =>
    scan_fits_place L B h4 hNF hF htab ps img hsnd (fun a ha => (hps a ha).2) i
      (mem_upto.mp hi).2 (hscan i hi)
  obtain ⟨t2, ht2⟩ := analyse_ok_of_why L (place L B img ps)
    ((analyse_why L _).mpr ⟨by omega, hscan2⟩)
  apply validate_returns_of L _ t2 ht2
  · rw [check_root_place L B hn he hE htab ps img hps2 true, h5]
    rfl
  · rw [check_format_place L B he hE htab ps img hps2 true]
    exact hfmt
  · unfold check_parents
    apply forM_total
    intro i hi
    apply check_parent_place L B he hE htab ps img hps2 i (mem_upto.mp hi).2
    refine forM_why_none _ ?_ i hi
    have := hpar
    unfold check_parents at this
    rw [this]
    rfl
  · obtain ⟨b, W2, e, _⟩ := has_directory_cycle_returns L (place L B img ps)
      (slots_fit_of_scan L _ hT hn hscan2) (L.NINODES + 1) t2.tdir 1 (by omega)
      (Nat.lt_succ_of_le (live_le L _))
    rw [e]
    rfl

/-! ## The round trip -/

/-- The inode-number field of a slot of a block that holds no part of the
inode table does not overlap the address field of an inode. -/
theorem slot_sep_of_table (L : Layout) (B n : Nat) (hn : n < L.NINODES)
    (htab : block_slot L B L.NDIRENT ≤ L.INODESTART * L.BSIZE ∨
      L.INODESTART * L.BSIZE + L.NINODES * L.DINODE_SIZE ≤ B * L.BSIZE)
    (s : Nat) (hs : s < L.NDIRENT) :
    block_slot L B s + 2 ≤ inode_at L n + ADDRS_OFF ∨
    inode_at L n + ADDRS_OFF + 2 ≤ block_slot L B s := by
  have h1 : (n + 1) * L.DINODE_SIZE ≤ L.NINODES * L.DINODE_SIZE := Nat.mul_le_mul_right _ hn
  rw [Nat.add_mul, Nat.one_mul] at h1
  have h2 : 16 ≤ L.DINODE_SIZE := by
    unfold Layout.DINODE_SIZE ADDRS_OFF
    omega
  unfold inode_at ADDRS_OFF
  unfold block_slot DIRENT_SIZE at htab ⊢
  rcases htab with h | h
  · left
    omega
  · right
    omega

/-- C2, as amended. Repair round trip. For a repair-mode run that reports an
orphan and ends with status 0 (it has relocated its orphans), where `j` is the
first slot of the block of the root that carries the name `lost_found`, the
inode whose number slot `j` holds is a directory, its block holds no part of
the inode table, every slot of that block with inode number 0 is a slot from 2
on, and inode 0 is free: the validation of a second repair-mode run on the
resulting image returns, and that run writes no "inode marked use but not found
in a directory", prints the confirmation that no repair is required, ends with
status 0 and leaves the image as it is. Lines of other passes can be written
by the second run. -/
theorem repair_round_trip (L : Layout) (img : Image) (hT : L.T_DIR ≠ 0) (hn : 2 ≤ L.NINODES)
    (he : 2 ≤ L.NDIRENT) (hE : L.NDIRENT * DIRENT_SIZE ≤ L.BSIZE) (hA : 4 ∣ L.BSIZE)
    (hN : L.NINODES < 256) (hNF : L.NINODES ≤ L.FSSIZE) (hF : L.FSSIZE ≤ 65536)
    (hfound : Msg.notFound ∈ (main L img true).stderr)
    (hrun : (main L img true).halt = none) (j : Nat) (hj : j < L.NDIRENT)
    (hname : name_is img (slot_at L img 1 j + NAME_OFF) lost_found = true)
    (hfirst : ∀ i, i < j → name_is img (slot_at L img 1 i + NAME_OFF) lost_found = false)
    (hdir : is_dir L img (slot_inum L img 1 j) = true)
    (htab : block_slot L (dir_block img (inode_at L (slot_inum L img 1 j))) L.NDIRENT ≤
        L.INODESTART * L.BSIZE ∨
      L.INODESTART * L.BSIZE + L.NINODES * L.DINODE_SIZE ≤
        dir_block img (inode_at L (slot_inum L img 1 j)) * L.BSIZE)
    (h0 : itype L img 0 = 0)
    (h2 : ∀ s ∈ free_slots L img (dir_block img (inode_at L (slot_inum L img 1 j))), 2 ≤ s) :
    (validate L (main L img true).image true).why = none ∧
    Msg.notFound ∉ (main L (main L img true).image true).stderr ∧
    (main L (main L img true).image true).confirmed = true ∧
    (main L (main L img true).image true).halt = none ∧
    (main L (main L img true).image true).image = (main L img true).image := by
  -- the first run
  have hsafe : (main L img true).halt ≠ some .undefined := by
    rw [hrun]
    exact fun h => Option.noConfusion h
  obtain ⟨o, v, hv⟩ : ∃ o v, validate L img true = .ok o v := by
    cases hval : validate L img true with
    | ok o v => exact ⟨o, v, rfl⟩
    | stop o s =>
      rw [(main_of_validate_stop L img true hval).1] at hrun
      cases hrun
  have hfound2 := mem_validate_of_main L img true hfound (by decide) (by decide)
  rw [hv] at hfound2
  have hreq := validate_found L img hn he o v hv hfound2
  have hn0 : slot_inum L img 1 j < L.NINODES := by
    by_contra hc
    rw [main_lookup_abort L img o v hv hreq hsafe j hj hname hfirst (Nat.not_lt.mp hc)] at hrun
    cases hrun
  have hz := orphan_zero L img hT hn he o v hv h0
  obtain ⟨hin, hmain⟩ := main_relocates L img hn he hE (by omega) o v hv hreq hsafe j hj hname
    hfirst hn0 (fun s hs => slot_sep_of_table L _ _ hn0 htab s hs) hz
  generalize hn0eq : slot_inum L img 1 j = n0 at *
  generalize hBeq : dir_block img (inode_at L n0) = B at *
  generalize hOeq : orphans L v.used = O at *
  generalize hFeq : free_slots L img B = F at *
  have hroom : O.length ≤ F.length := by
    by_contra hc
    rw [if_neg hc, if_neg hc] at hmain
    rw [hmain] at hrun
    cases hrun
  rw [if_pos hroom, if_pos hroom] at hmain
  have himg : (main L img true).image = place L B img (O.zip F) := by rw [hmain]
  rw [himg]
  generalize hpseq : O.zip F = ps at *
  obtain ⟨t, root, u, b, W2, op, ht, ⟨ou, hu⟩, _, _, hval⟩ :=
    validate_returns L img hn he (by rw [hv]; rfl)
  rw [hv] at hval
  have hvu : v.used = u.1 := by cases hval; rfl
  have horph : ∀ i, i ∈ O ↔ (i < L.NINODES ∧ itype L img i ≠ 0 ∧ t.irefs i = 0) := by
    intro i
    rw [← hOeq, hvu]
    exact orphans_iff L img hT t [] ou u ht hu i
  obtain ⟨_, _, _, hzr, hcount, _⟩ := analyse_ok L img t [] hT ht
  have hOnd : O.Nodup := by
    rw [← hOeq]
    exact (nodup_upto _ _).filter _
  have hO0 : ∀ i ∈ O, i ≠ 0 := by
    intro i hi e
    subst e
    rw [← hOeq] at hi
    have := (List.mem_filter.mp hi).2
    rw [hz] at this
    exact Bool.noConfusion this
  have hFnd : F.Nodup := by
    rw [← hFeq]
    exact (nodup_upto _ _).filter _
  have hfst : ps.map Prod.fst = O := by
    rw [← hpseq]
    exact List.map_fst_zip _ _ hroom
  have hsnd : (ps.map Prod.snd).Nodup := by
    rw [← hpseq]
    exact zip_snd_nodup O F hFnd
  have hps0 : ∀ a ∈ ps, 2 ≤ a.2 ∧ a.2 < L.NDIRENT ∧ ld16 img (block_slot L B a.2) = 0 ∧
      a.1 < L.NINODES := by
    intro a ha
    rw [← hpseq] at ha
    have hm := @List.of_mem_zip Nat Nat a.1 a.2 O F ha
    have hF : a.2 ∈ free_slots L img B := by rw [hFeq]; exact hm.2
    have hF2 := List.mem_filter.mp hF
    have h3 : xshort (ld16 img (block_slot L B a.2)) = 0 := by simpa using hF2.2
    rw [xshort_ld16] at h3
    exact ⟨h2 a.2 hm.2, (mem_upto.mp hF2.1).2, h3, ((horph a.1).mp hm.1).1⟩
  have hps : ∀ a ∈ ps, 2 ≤ a.2 ∧ a.2 < L.NDIRENT ∧ ld16 img (block_slot L B a.2) = 0 ∧
      a.1 < 65536 := by
    intro a ha
    obtain ⟨h3, h4, h5, h6⟩ := hps0 a ha
    exact ⟨h3, h4, h5, by omega⟩
  have hps1 : ∀ a ∈ ps, a.2 < L.NDIRENT := fun a ha => (hps a ha).2.1
  -- the entries after the repair
  have hec : ∀ i, i ≠ 0 → entry_count L (place L B img ps) i =
      entry_count L img i + (if i ∈ O then (upto 0 L.NINODES).countP
        (fun d => is_dir L img d && decide (dir_block img (inode_at L d) = B)) else 0) := by
    intro i hi
    have := entries_in_place L B hE htab ps img i hi (by rw [hfst]; exact hOnd) hsnd hps
      (upto 0 L.NINODES) (fun d hd => (mem_upto.mp hd).2)
    rw [hfst] at this
    exact this
  generalize hmeq : (upto 0 L.NINODES).countP
    (fun d => is_dir L img d && decide (dir_block img (inode_at L d) = B)) = m at hec
  have hm1 : 1 ≤ m := by
    rw [← hmeq]
    apply List.countP_pos_iff.mpr
    exact ⟨n0, mem_upto.mpr ⟨Nat.zero_le _, hn0⟩, by simp [hdir, hBeq]⟩
  have hm2 : m < 256 := by
    have := @List.countP_le_length Nat
      (fun d => is_dir L img d && decide (dir_block img (inode_at L d) = B)) (upto 0 L.NINODES)
    rw [hmeq, length_upto] at this
    omega
  -- the second run
  have hv2 : (validate L (place L B img ps) true).why = none :=
    validate_place_returns L hT hn he hE hA hNF hF B htab ps img hsnd hps0 (by rw [hv]; rfl)
  refine ⟨hv2, ?_⟩
  obtain ⟨t2, root2, u2, b2, W3, op2, ht2, ⟨ou2, hu2⟩, hp2, _, hval2⟩ :=
    validate_returns L (place L B img ps) hn he hv2
  obtain ⟨hused2, _, _, _, hcount2, _⟩ := analyse_ok L (place L B img ps) t2 [] hT ht2
  have hno : u2.2 = false := by
    cases hreq2 : u2.2
    · rfl
    · exfalso
      obtain ⟨i, hi, hui, hzi⟩ := (check_usage_ok L true t2 ou2 u2 hu2).2.1.mp hreq2
      rw [hused2 i] at hui
      have hty : itype L (place L B img ps) i ≠ 0 := by
        have := of_decide_eq_true hui
        exact this.2
      rw [itype_place L B htab ps hps1 img i hi] at hty
      by_cases hi0 : i = 0
      · subst hi0
        exact hty h0
      · have hc1 := hcount i (by omega)
        have hc2 := hcount2 i (by omega)
        rw [hec i hi0] at hc2
        by_cases hiO : i ∈ O
        · rw [if_pos hiO] at hc2
          have := ((horph i).mp hiO).2.2
          omega
        · rw [if_neg hiO, Nat.add_zero] at hc2
          have : t.irefs i ≠ 0 := fun e => hiO ((horph i).mpr ⟨hi, hty, e⟩)
          omega
  have hmain2 : main L (place L B img ps) true =
      Run.mk (early_out L (place L B img ps) t2 ++ (op2 ++ tree_out L b2 W3)) true none
        (place L B img ps) := by
    unfold main
    rw [hval2]
    simp [hno]
  rw [hmain2]
  refine ⟨?_, rfl, rfl, rfl⟩
  show Msg.notFound ∉ early_out L (place L B img ps) t2 ++ (op2 ++ tree_out L b2 W3)
  intro hmem
  rcases List.mem_append.mp hmem with h | h
  · have h3 := notFound_early_out L _ t2 h
    rw [hu2] at h3
    have := check_usage_notFound L t2 ou2 u2 hu2 h3
    rw [hno] at this
    exact Bool.noConfusion this
  · rcases List.mem_append.mp h with h | h
    · have h3 := check_parents_out L (place L B img ps) true Msg.notFound (by rw [hp2]; exact h)
      rcases h3 with h3 | h3 <;> exact absurd h3 (by decide)
    · exact notFound_tree_out L b2 W3 h

/-- The amended C1 at `img_orphan 1` on the small layout: slot 2 of the root is
the first that carries the name `lost_found` and holds 2; the run ends with
status 0 and the orphan 9 is stored in slot 2 of block 60. -/
theorem repair_postcondition_witness :
    (main mini (img_orphan 1) true).halt = none ∧
    ld16 (main mini (img_orphan 1) true).image (block_slot mini 60 2) = 9 := by
  have key : (validate mini (img_orphan 1) true).holds (fun v =>
      decide (orphans mini v.used = [9]) &&
      decide ((repair mini (img_orphan 1) [] v).halt ≠ some Stop.undefined)) = true := by decide!
  obtain ⟨o, v, hv, hP⟩ := Res.of_holds key
  simp only [Bool.and_eq_true, decide_eq_true_eq] at hP
  obtain ⟨horph, hrep⟩ := hP
  have hsafe : (main mini (img_orphan 1) true).halt ≠ some Stop.undefined := by
    rw [main_halt_repair mini (img_orphan 1) o v hv
      (required_of_orphan mini (img_orphan 1) (by decide) (by decide) o v hv
        (by rw [horph]; decide))]
    exact hrep
  have hs : slot_inum mini (img_orphan 1) 1 2 = 2 := by decide!
  have hB : dir_block (img_orphan 1) (inode_at mini 2) = 60 := by decide!
  have hfree : free_slots mini (img_orphan 1) 60 = upto 2 32 := by decide!
  have hall : (upto 0 2).all (fun i =>
      !name_is (img_orphan 1) (slot_at mini (img_orphan 1) 1 i + NAME_OFF) lost_found) = true := by
    decide!
  have h := repair_postcondition mini (img_orphan 1) (by decide) (by decide) (by decide)
    (by decide) (by decide) (by decide) (by decide) o v hv (by rw [horph]; decide) hsafe
    2 (by decide) (by decide!)
    (fun i hi => by simpa using forall_of_all_upto hall i (Nat.zero_le i) hi) (by decide!)
    (by rw [horph, hs, hB, hfree]; decide)
  rw [hs, hB] at h
  obtain ⟨h1, h2, h3, _⟩ := h.2.2 (by decide)
  exact ⟨h1, h3 0 9 2 (by rw [horph]; rfl) (by rw [hfree]; decide)⟩

/-- The amended C2 at `img_orphan 1` on the small layout: the first run reports
the orphan and ends with status 0; the validation of the second run returns,
and the second run writes no orphan line, confirms, and leaves the image as it
is. -/
theorem repair_round_trip_witness :
    (validate mini (main mini (img_orphan 1) true).image true).why = none ∧
    Msg.notFound ∉ (main mini (main mini (img_orphan 1) true).image true).stderr ∧
    (main mini (main mini (img_orphan 1) true).image true).confirmed = true ∧
    (main mini (main mini (img_orphan 1) true).image true).halt = none ∧
    (main mini (main mini (img_orphan 1) true).image true).image =
      (main mini (img_orphan 1) true).image := by
  have hrun : Msg.notFound ∈ (main mini (img_orphan 1) true).stderr ∧
      (main mini (img_orphan 1) true).halt = none := by decide!
  have hs : slot_inum mini (img_orphan 1) 1 2 = 2 := by decide!
  have hB : dir_block (img_orphan 1) (inode_at mini 2) = 60 := by decide!
  have hfree : free_slots mini (img_orphan 1) 60 = upto 2 32 := by decide!
  have hall : (upto 0 2).all (fun i =>
      !name_is (img_orphan 1) (slot_at mini (img_orphan 1) 1 i + NAME_OFF) lost_found) = true := by
    decide!
  exact repair_round_trip mini (img_orphan 1) (by decide) (by decide) (by decide)
    (by decide) (by decide) (by decide) (by decide) (by decide) hrun.1 hrun.2
    2 (by decide) (by decide!)
    (fun i hi => by simpa using forall_of_all_upto hall i (Nat.zero_le i) hi)
    (by rw [hs]; decide!) (by rw [hs, hB]; decide) (by decide!)
    (by rw [hs, hB, hfree]; intro s hs2; exact (mem_upto.mp hs2).1)

/-- The amended C19 at `img_full` on the small layout: the orphans are 9 and
10, slot 31 of block 60 alone is free; the run ends with `exit(1)` after
"lost_found directory is full", and slot 31 holds 9. -/
theorem full_lost_found_witness :
    (main mini img_full true).halt = some Stop.exit1 ∧
    Msg.lostFoundFull ∈ (main mini img_full true).stderr ∧
    ld16 (main mini img_full true).image (block_slot mini 60 31) = 9 := by
  have key : (validate mini img_full true).holds (fun v =>
      decide (orphans mini v.used = [9, 10]) &&
      decide ((repair mini img_full [] v).halt ≠ some Stop.undefined)) = true := by decide!
  obtain ⟨o, v, hv, hP⟩ := Res.of_holds key
  simp only [Bool.and_eq_true, decide_eq_true_eq] at hP
  obtain ⟨horph, hrep⟩ := hP
  have hsafe : (main mini img_full true).halt ≠ some Stop.undefined := by
    rw [main_halt_repair mini img_full o v hv
      (required_of_orphan mini img_full (by decide) (by decide) o v hv
        (by rw [horph]; decide))]
    exact hrep
  have hs : slot_inum mini img_full 1 2 = 2 := by decide!
  have hB : dir_block img_full (inode_at mini 2) = 60 := by decide!
  have hfree : free_slots mini img_full 60 = [31] := by decide!
  have hall : (upto 0 2).all (fun i =>
      !name_is img_full (slot_at mini img_full 1 i + NAME_OFF) lost_found) = true := by
    decide!
  have h := full_lost_found mini img_full (by decide) (by decide) (by decide)
    (by decide) (by decide) (by decide) (by decide) o v hv hsafe
    2 (by decide) (by decide!)
    (fun i hi => by simpa using forall_of_all_upto hall i (Nat.zero_le i) hi) (by decide!)
    (by rw [horph, hs, hB, hfree]; decide)
  rw [hs, hB] at h
  obtain ⟨h1, h2, h3, _⟩ := h.2.2 (by decide)
  refine ⟨h1, by rw [h2]; simp, ?_⟩
  obtain ⟨i, hi, _, hld⟩ := h3 0 31 (by rw [hfree]; rfl)
  rw [horph] at hi
  cases hi
  exact hld

end Fsck
